import Mathlib

set_option linter.unusedVariables false
set_option linter.unusedSectionVars false
set_option linter.unnecessarySeqFocus false

/-!
Verification of the AVL tree repository (AvlTreeNode.hpp, core/algorithm/AvlTreeHelper.hpp,
core/implementation/AvlTreeImplementation.hpp, facade AvlTree.hpp).

Two embeddings are developed:

* A value-level functional model of the tree engine (`AvlTreeBase`) and the container
  facade (`AvlTree`).  The imperative loops (descent to a leaf in `insert`,
  `iterative_height_update` followed by `rebalance` walking parent pointers to the
  root) are rendered as structural recursion along the access path: at each node of
  the path the recursive call processes the child, then the node's cached height is
  recomputed (`update_height_standalone`) and `balance_node` is applied — which is
  exactly the set of height updates and `balance_node` calls the two iterative
  passes perform, in the same bottom-up order and reading the same cached heights.

* A pointer-heap model (nodes addressed by numeric ids, `parent_`/`left_`/`right_`
  links as optional ids, the sentinel recognised by `parent_ == self`) used for the
  claims about node identity, the sentinel threading and the iterator stepping
  functions `avl_tree_increment` / `avl_tree_decrement`.
-/

namespace Avl

/-- A tree vertex of the value-level model: mirrors `AvlTreeNode` with its
`left_`, `right_` subtrees, `value_`, and the cached `height_` field
(`std::ptrdiff_t`, hence `Int`). -/
inductive Tree (α : Type) : Type where
  | nil : Tree α
  | node (l : Tree α) (v : α) (ht : Int) (r : Tree α) : Tree α
deriving Repr, DecidableEq

namespace Tree

variable {α : Type}

/-- Cached height of a possibly absent node: `left_height()` / `right_height()`
return `0` for a null child and the child's `height_` field otherwise. -/
def cachedHt : Tree α → Int
  | nil => 0
  | node _ _ h _ => h

/-- `balance_factor() = right_height() - left_height()`, reading cached heights. -/
def balanceFactor : Tree α → Int
  | nil => 0
  | node l _ _ r => r.cachedHt - l.cachedHt

/-- `update_height_standalone()` applied to a freshly relinked node: rebuild the
node with `height_ = 1 + max(left_height(), right_height())`. -/
def mkNode (l : Tree α) (v : α) (r : Tree α) : Tree α :=
  node l v (1 + max l.cachedHt r.cachedHt) r

/-- `AvlTreeBase::rotate_left`: the right child becomes the subtree root, the old
root becomes its left child and inherits the new root's former left subtree;
heights are recomputed bottom-up (old root first, then new root).  The code
dereferences `node->right_` unconditionally; `balance_node` only calls it when
the right child exists, so the other shapes are returned unchanged. -/
def rotateLeft : Tree α → Tree α
  | node l v _ (node rl rv _ rr) => mkNode (mkNode l v rl) rv rr
  | t => t

/-- `AvlTreeBase::rotate_right`, mirror of `rotateLeft`. -/
def rotateRight : Tree α → Tree α
  | node (node ll lv _ lr) v _ r => mkNode ll lv (mkNode lr v r)
  | t => t

/-- `AvlTreeBase::big_left_rotate`: right-rotate the right child, refresh the
node's height, then left-rotate the node. -/
def bigRotateLeft : Tree α → Tree α
  | node l v _ r => rotateLeft (mkNode l v (rotateRight r))
  | nil => nil

/-- `AvlTreeBase::big_right_rotate`: left-rotate the left child, refresh the
node's height, then right-rotate the node. -/
def bigRotateRight : Tree α → Tree α
  | node l v _ r => rotateRight (mkNode (rotateLeft l) v r)
  | nil => nil

/-- `AvlTreeBase::balance_node`: if `balance_factor() > 1` apply a small left
rotation when `right_->balance_factor() >= 0` and a big one otherwise; if
`balance_factor() < -1` mirror with the left child's balance factor.  In the
functional rendering the re-attachment into the parent slot performed by
`small_left_rotate` / `small_right_rotate` is the recursion context of the
caller, so the small rotations coincide with `rotate_left` / `rotate_right`. -/
def balanceNode : Tree α → Tree α
  | nil => nil
  | node l v h r =>
    if balanceFactor (node l v h r) > 1 then
      if balanceFactor r ≥ 0 then rotateLeft (node l v h r)
      else bigRotateLeft (node l v h r)
    else if balanceFactor (node l v h r) < -1 then
      if balanceFactor l ≤ 0 then rotateRight (node l v h r)
      else bigRotateRight (node l v h r)
    else node l v h r

variable [LinearOrder α]

/-- `AvlTreeBase::insert(node)`: descend from the root going left exactly when
`compare_(node->value_, leaf->value_)` holds (equal values descend right), link
the new node (constructed with `height_ = 1`) into the first empty slot, then
recompute the cached heights along the path (`iterative_height_update`) and run
`balance_node` on every ancestor (`rebalance`), bottom-up. -/
def engineInsert (x : α) : Tree α → Tree α
  | nil => node nil x 1 nil
  | node l v h r =>
    if x < v then balanceNode (mkNode (engineInsert x l) v r)
    else balanceNode (mkNode l v (engineInsert x r))

/-- `AvlTreeBase::find(value)`: descend from the root while the current value is
`!=` the needle, going left exactly when `compare_(value, current->value_)`;
return the node found (its value) or null (`none`). -/
def engineFind (x : α) : Tree α → Option α
  | nil => none
  | node l v _ r =>
    if v ≠ x then (if x < v then engineFind x l else engineFind x r)
    else some v

/-- Number of real nodes of a tree (the value the engine tracks in
`number_of_nodes_`). -/
def size : Tree α → Nat
  | nil => 0
  | node l _ _ r => size l + size r + 1

/-- In-order value sequence (left subtree, node, right subtree). -/
def inorder : Tree α → List α
  | nil => []
  | node l v _ r => inorder l ++ v :: inorder r

/-- Leftmost value of a non-empty tree (the minimum under the BST invariant);
`AvlTreeNode::leftmost` on the root. -/
def treeMin : Tree α → Option α
  | nil => none
  | node nil v _ _ => some v
  | node (node ll lv lh lr) _ _ _ => treeMin (node ll lv lh lr)

/-- Rightmost value of a non-empty tree; `AvlTreeNode::rightmost` on the root. -/
def treeMax : Tree α → Option α
  | nil => none
  | node _ v _ nil => some v
  | node _ _ _ (node rl rv rh rr) => treeMax (node rl rv rh rr)

/-- Erase the leftmost node of a subtree: the splice of the successor performed
by `AvlTreeBase::erase` after `swap_nodes`, with the cached-height updates and
`balance_node` calls `rebalance` performs on the ancestors inside this
subtree. -/
def eraseMin : Tree α → Tree α
  | nil => nil
  | node nil _ _ r => r
  | node (node ll lv lh lr) v _ r =>
    balanceNode (mkNode (eraseMin (node ll lv lh lr)) v r)

/-- Removal of the subtree's root node, as `AvlTreeBase::erase` performs it once
the node is located: a node with at most one child is spliced out (the child, if
any, takes its slot; the parent's rebalancing is done by the caller); a node
with two children is first `swap_nodes`-exchanged with its in-order successor —
the leftmost node of the right subtree — after which the node, now sitting at
the successor's former position with no left child, is spliced there.  At the
value level the swap puts the successor's value at this position and erases the
leftmost node of the right subtree; `rebalance` then balances every position
from the splice parent upward, which inside this subtree is `eraseMin`'s work
plus one `balance_node` here. -/
def eraseHere : Tree α → Tree α
  | nil => nil
  | node nil _ _ r => r
  | node l _ _ nil => l
  | node l _ _ (node rl rv rh rr) =>
    match treeMin (node rl rv rh rr) with
    | none => nil
    | some m => balanceNode (mkNode l m (eraseMin (node rl rv rh rr)))

/-- Descent of `AvlTreeBase::erase(value)` to the node holding `x` (the same
comparisons as `find`), erasing it there; on the way out each ancestor gets its
cached height recomputed and `balance_node` applied (`iterative_height_update`
from the splice parent followed by `rebalance`). -/
def eraseGo (x : α) : Tree α → Tree α
  | nil => nil
  | node l v h r =>
    if v = x then eraseHere (node l v h r)
    else if x < v then balanceNode (mkNode (eraseGo x l) v r)
    else balanceNode (mkNode l v (eraseGo x r))

end Tree

open Tree

/-- State of the engine `AvlTreeBase`: the tree hanging from `root_` and the
`number_of_nodes_` counter. -/
structure EngineSt (α : Type) : Type where
  root : Tree α
  count : Nat
deriving Repr, DecidableEq

variable {α : Type} [LinearOrder α]

/-- `AvlTreeBase::insert` effect on the engine state: the node is linked
unconditionally — even when an equal value is already present — and
`number_of_nodes_` is incremented. -/
def engineInsertS (x : α) (s : EngineSt α) : EngineSt α :=
  ⟨engineInsert x s.root, s.count + 1⟩

/-- `AvlTreeBase::erase(value)`: `erase(find(value))`.  A null find result is a
no-op; if `number_of_nodes_ == 1` the whole tree is cleared; otherwise the
located node is erased and the counter decremented.  When the erased node was
the root with at most one child, the code sets `parent` to the promoted child
and `rebalance(parent)` applies one extra `balance_node` to the new root. -/
def engineEraseS (x : α) (s : EngineSt α) : EngineSt α :=
  match engineFind x s.root with
  | none => s
  | some _ =>
    if s.count = 1 then ⟨nil, 0⟩
    else
      match s.root with
      | nil => s
      | node l v h r =>
        if v = x ∧ (l = nil ∨ r = nil) then
          ⟨balanceNode (eraseHere (node l v h r)), s.count - 1⟩
        else
          ⟨eraseGo x (node l v h r), s.count - 1⟩

end Avl

namespace Avl

variable {α : Type} [LinearOrder α]

namespace Tree

/-- Real height of a subtree: `0` for an absent node, `1 + max` of the
children's real heights otherwise (the value the cached `height_` field is
meant to hold). -/
def realH : Tree α → Int
  | nil => 0
  | node l _ _ r => 1 + max (realH l) (realH r)

/-- Every node's cached `height_` field equals `1 + max` of its children's real
heights (so all cached heights agree with the real ones). -/
def HtOk : Tree α → Prop
  | nil => True
  | node l _ h r => h = 1 + max (realH l) (realH r) ∧ HtOk l ∧ HtOk r

/-- The AVL balance property: at every node the children's (real) heights
differ by at most one. -/
def AvlBal : Tree α → Prop
  | nil => True
  | node l _ _ r => realH l - realH r ≤ 1 ∧ realH r - realH l ≤ 1 ∧ AvlBal l ∧ AvlBal r

/-- The strict BST property: left values below the node's value, right values
above, recursively. -/
def Ordered : Tree α → Prop
  | nil => True
  | node l v _ r =>
    (∀ y ∈ inorder l, y < v) ∧ (∀ y ∈ inorder r, v < y) ∧ Ordered l ∧ Ordered r

end Tree

end Avl

namespace Avl

namespace Tree

variable {α : Type} [LinearOrder α]

/-- List-level ordered insertion; characterizes the effect of the engine's
`insert` on the in-order value sequence of a BST-ordered tree. -/
def insList (x : α) : List α → List α
  | [] => [x]
  | y :: ys => if x < y then x :: y :: ys else y :: insList x ys

end Tree

open Tree

/-- State of the container facade `AvlTree`: the engine state (`base_`) plus
the sentinel `header_`, whose `left_`/`right_` boundary links are modelled by
the values of the minimum/maximum nodes they point to (`none` exactly when the
link points back at the header itself, i.e. the tree is empty). -/
structure FacadeSt (α : Type) : Type where
  base : EngineSt α
  hdrLeft : Option α
  hdrRight : Option α
deriving Repr, DecidableEq

variable {β : Type} [LinearOrder β]

/-- `AvlTree::find(value)`: the placeholder unlink/restore bracket only toggles
the two threading links (minimum.left and maximum.right), leaving every node
value and structural link as it was, so at the value level the lookup is
`base_.find(value)`. -/
def ffind (x : β) (s : FacadeSt β) : Option β := engineFind x s.base.root

/-- Facade state after construction or `clear()`: cleared engine, header reset
so that both boundary links point at the header itself. -/
def emptySt : FacadeSt β := ⟨⟨Tree.nil, 0⟩, none, none⟩

/-- `AvlTree::clear()`: `header_.reset()` and `base_.clear()`. -/
def fclear (s : FacadeSt β) : FacadeSt β := emptySt

/-- `AvlTree::insert(value)`: if `find(value)` hits, return the existing
position with `false` and change nothing; on an empty tree install the new
node as root and point both header links at it; otherwise update the cached
minimum (if `compare(value, smallest)`) or else the cached maximum (if
`compare(greatest, value)`) and call the engine's `insert`.  The returned pair
is modelled as the value at the returned iterator plus the `inserted` flag. -/
def finsert (x : β) (s : FacadeSt β) : FacadeSt β × β × Bool :=
  match ffind x s with
  | some w => (s, w, false)
  | none =>
    if s.base.count = 0 then
      (⟨⟨Tree.node Tree.nil x 1 Tree.nil, 1⟩, some x, some x⟩, x, true)
    else
      match s.hdrLeft, s.hdrRight with
      | some sm, some gr =>
        if x < sm then (⟨engineInsertS x s.base, some x, s.hdrRight⟩, x, true)
        else if gr < x then (⟨engineInsertS x s.base, s.hdrLeft, some x⟩, x, true)
        else (⟨engineInsertS x s.base, s.hdrLeft, s.hdrRight⟩, x, true)
      | _, _ => (⟨engineInsertS x s.base, s.hdrLeft, s.hdrRight⟩, x, true)

/-- `AvlTree::erase(pos)` for a valid position holding `x` (already checked
different from `end()`): a single remaining node means `clear()`; otherwise,
if the position is `begin()` the cached minimum advances to `std::next(pos)`
(the second in-order value), else if it is `std::prev(end())` the cached
maximum retreats to `std::prev(pos)` (the second-to-last in-order value), and
the engine erases the node.  Erasure by node coincides with erasure by value
because the facade never stores duplicates. -/
def ferasePos (x : β) (s : FacadeSt β) : FacadeSt β :=
  if s.base.count = 1 then fclear s
  else
    ⟨engineEraseS x s.base,
      (if s.hdrLeft = some x then (inorder s.base.root)[1]? else s.hdrLeft),
      (if s.hdrLeft ≠ some x ∧ s.hdrRight = some x then
        (inorder s.base.root)[(inorder s.base.root).length - 2]? else s.hdrRight)⟩

/-- `AvlTree::erase(value)`: `erase(find(value))`; a miss (`pos == end()`) is a
no-op. -/
def ferase (x : β) (s : FacadeSt β) : FacadeSt β :=
  match ffind x s with
  | none => s
  | some _ => ferasePos x s

/-- `AvlTree::erase_smallest()`: `erase(iterator(header_.left_))` — a no-op on
the empty tree, where `header_.left_` is the header itself (`end()`). -/
def feraseSmallest (s : FacadeSt β) : FacadeSt β :=
  match s.hdrLeft with
  | none => s
  | some m => ferasePos m s

/-- `AvlTree::erase_largest()`: `erase(iterator(header_.right_))`. -/
def feraseLargest (s : FacadeSt β) : FacadeSt β :=
  match s.hdrRight with
  | none => s
  | some m => ferasePos m s

/-- One public mutating operation of the facade. -/
inductive Op (α : Type) : Type where
  | insOp (x : α) : Op α
  | delOp (x : α) : Op α
  | delMinOp : Op α
  | delMaxOp : Op α
  | clearOp : Op α
deriving Repr, DecidableEq

/-- Effect of a public mutating operation on the facade state. -/
def applyOp : Op β → FacadeSt β → FacadeSt β
  | Op.insOp x, s => (finsert x s).1
  | Op.delOp x, s => ferase x s
  | Op.delMinOp, s => feraseSmallest s
  | Op.delMaxOp, s => feraseLargest s
  | Op.clearOp, s => fclear s

/-- State reached from a freshly constructed tree by a sequence of public
mutating operations. -/
def runOps (ops : List (Op β)) : FacadeSt β :=
  ops.foldl (fun s op => applyOp op s) emptySt

/-- The data-model invariant of the facade: BST order, correct cached heights,
the AVL balance property, an accurate node count, and boundary caching —
`header_.left_` is the minimum real node and `header_.right_` the maximum,
both `none` (the header itself) exactly when the tree is empty. -/
def Inv (s : FacadeSt β) : Prop :=
  Ordered s.base.root ∧ HtOk s.base.root ∧ AvlBal s.base.root ∧
    s.base.count = size s.base.root ∧
    s.hdrLeft = (inorder s.base.root).head? ∧
    s.hdrRight = (inorder s.base.root).getLast?

namespace Heap

/-- A node object of the pointer model: `AvlTreeNode` with its `left_`,
`right_`, `parent_` links (`none` = nullptr), `value_`, and cached
`height_`. -/
structure HNode (α : Type) : Type where
  left : Option Nat
  right : Option Nat
  parent : Option Nat
  value : α
  height : Int
deriving Repr, DecidableEq

/-- The heap: nodes addressed by numeric ids; `none` = unallocated. -/
def Store (α : Type) : Type := Nat → Option (HNode α)

variable {α : Type}

/-- Overwrite the node object at an id. -/
def hset (h : Store α) (i : Nat) (nd : HNode α) : Store α :=
  fun j => if j = i then some nd else h j

/-- Free the node at an id (`delete`). -/
def hdel (h : Store α) (i : Nat) : Store α :=
  fun j => if j = i then none else h j

/-- Read `node->left_`. -/
def leftOf (h : Store α) (i : Nat) : Option Nat :=
  match h i with
  | none => none
  | some nd => nd.left

/-- Read `node->right_`. -/
def rightOf (h : Store α) (i : Nat) : Option Nat :=
  match h i with
  | none => none
  | some nd => nd.right

/-- Read `node->parent_`. -/
def parentOf (h : Store α) (i : Nat) : Option Nat :=
  match h i with
  | none => none
  | some nd => nd.parent

/-- Read `node->height_`. -/
def heightAt (h : Store α) (i : Nat) : Int :=
  match h i with
  | none => 0
  | some nd => nd.height

/-- Read `node->value_` (as an option, for frame statements). -/
def valueAt (h : Store α) (i : Nat) : Option α :=
  (h i).map HNode.value

/-- Height of a possibly-null node: `left_height()`/`right_height()` return 0
for nullptr and the cached `height_` otherwise. -/
def heightOf (h : Store α) (p : Option Nat) : Int :=
  match p with
  | none => 0
  | some i => heightAt h i

/-- `node->left_ = p`. -/
def setLeft (h : Store α) (i : Nat) (p : Option Nat) : Store α :=
  match h i with
  | none => h
  | some nd => hset h i { nd with left := p }

/-- `node->right_ = p`. -/
def setRight (h : Store α) (i : Nat) (p : Option Nat) : Store α :=
  match h i with
  | none => h
  | some nd => hset h i { nd with right := p }

/-- `node->parent_ = p`. -/
def setParent (h : Store α) (i : Nat) (p : Option Nat) : Store α :=
  match h i with
  | none => h
  | some nd => hset h i { nd with parent := p }

/-- `node->height_ = v`. -/
def setHeight (h : Store α) (i : Nat) (v : Int) : Store α :=
  match h i with
  | none => h
  | some nd => hset h i { nd with height := v }

/-- `AvlTreeNode::is_placeholder()`: `parent_ == this`. -/
def isPlaceholder (h : Store α) (i : Nat) : Prop :=
  parentOf h i = some i

instance (h : Store α) (i : Nat) : Decidable (isPlaceholder h i) := by
  unfold isPlaceholder
  infer_instance

/-- `AvlTreeNode::update_height_standalone()`:
`height_ = 1 + max(left_height(), right_height())`. -/
def updateHeightStandalone (h : Store α) (i : Nat) : Store α :=
  match h i with
  | none => h
  | some nd =>
    hset h i { nd with height := 1 + max (heightOf h nd.left) (heightOf h nd.right) }

/-- The ancestor loop of `AvlTreeNode::iterative_height_update()`:
`while (node != nullptr && pre != post) { pre = node->height_;`
`node->update_height_standalone(); post = node->height_; node = node->parent_; }`.
The fuel bounds the walk; any fuel beyond the parent-chain length is enough. -/
def ihuLoop : Nat → Store α → Option Nat → Int → Int → Store α
  | 0, h, _, _, _ => h
  | _ + 1, h, none, _, _ => h
  | fuel + 1, h, some i, pre, post =>
    if pre = post then h
    else
      ihuLoop fuel (updateHeightStandalone h i)
        (parentOf (updateHeightStandalone h i) i)
        (heightAt h i) (heightAt (updateHeightStandalone h i) i)

/-- `AvlTreeNode::iterative_height_update()`: update this node's height, then
walk up through the parents (`pre = -1`, `post = 1` make the first loop test
pass). -/
def iterativeHeightUpdate (fuel : Nat) (h : Store α) (i : Nat) : Store α :=
  ihuLoop fuel (updateHeightStandalone h i)
    (parentOf (updateHeightStandalone h i) i) (-1) 1

/-- `AvlTreeNode::leftmost()`:
`while (!node->is_placeholder() && node->left_ != nullptr) node = node->left_;`. -/
def leftmostF : Nat → Store α → Nat → Nat
  | 0, _, i => i
  | fuel + 1, h, i =>
    if isPlaceholder h i then i
    else
      match leftOf h i with
      | none => i
      | some j => leftmostF fuel h j

/-- `AvlTreeNode::rightmost()`, mirror of `leftmost`. -/
def rightmostF : Nat → Store α → Nat → Nat
  | 0, _, i => i
  | fuel + 1, h, i =>
    if isPlaceholder h i then i
    else
      match rightOf h i with
      | none => i
      | some j => rightmostF fuel h j

/-- `AvlTreeNode::successor()`: self when there is no right child or the node
is the placeholder; otherwise the leftmost node of the right subtree. -/
def successorF (fuel : Nat) (h : Store α) (i : Nat) : Nat :=
  if rightOf h i = none ∨ isPlaceholder h i then i
  else
    match rightOf h i with
    | none => i
    | some j => leftmostF fuel h j

/-- `AvlTreeNode::predecessor()`, mirror of `successor`. -/
def predecessorF (fuel : Nat) (h : Store α) (i : Nat) : Nat :=
  if leftOf h i = none ∨ isPlaceholder h i then i
  else
    match leftOf h i with
    | none => i
    | some j => rightmostF fuel h j

/-- The climb of `avl_tree_increment` when there is no right child:
`while (node->parent_ != nullptr) { node = node->parent_;`
`if (node->left_ == old) break; old = node; }`. -/
def incClimb : Nat → Store α → Nat → Nat → Nat
  | 0, _, cur, _ => cur
  | fuel + 1, h, cur, old =>
    match parentOf h cur with
    | none => cur
    | some p => if leftOf h p = some old then p else incClimb fuel h p p

/-- The climb of `avl_tree_decrement`, mirror of `incClimb`. -/
def decClimb : Nat → Store α → Nat → Nat → Nat
  | 0, _, cur, _ => cur
  | fuel + 1, h, cur, old =>
    match parentOf h cur with
    | none => cur
    | some p => if rightOf h p = some old then p else decClimb fuel h p p

/-- `avl_tree_increment`: null stays null, the placeholder stays put, a node
with a right child steps to its successor, otherwise the walk climbs out of
the exhausted subtree. -/
def avlTreeIncrement (fuel : Nat) (h : Store α) (cur : Option Nat) : Option Nat :=
  match cur with
  | none => none
  | some i =>
    if isPlaceholder h i then some i
    else if (rightOf h i).isSome then some (successorF fuel h i)
    else some (incClimb fuel h i i)

/-- `avl_tree_decrement`: null stays null; at the placeholder the decrement
returns `right_` (the cached maximum) unless that is itself the placeholder;
a node with a left child steps to its predecessor; otherwise the walk climbs.
(A placeholder whose `right_` is null would be dereferenced by the C++; the
facade maintains `right_` non-null, and the model returns the node itself in
that unreachable configuration.) -/
def avlTreeDecrement (fuel : Nat) (h : Store α) (cur : Option Nat) : Option Nat :=
  match cur with
  | none => none
  | some i =>
    if isPlaceholder h i then
      match rightOf h i with
      | none => some i
      | some r => if isPlaceholder h r then some i else some r
    else if (leftOf h i).isSome then some (predecessorF fuel h i)
    else some (decClimb fuel h i i)

end Heap

namespace Heap

variable {α : Type}

/-- Local height consistency at a node: its cached `height_` equals
`1 + max(left_height(), right_height())` read from the current heap. -/
def LocCons (h : Store α) (i : Nat) : Prop :=
  ∃ nd, h i = some nd ∧
    nd.height = 1 + max (heightOf h nd.left) (heightOf h nd.right)

/-- An ancestor whose cached height was computed when its path child still had
height `oldH` (the other child read from the current heap). -/
def Stale (h : Store α) (a prev : Nat) (oldH : Int) : Prop :=
  ∃ nd, h a = some nd ∧
    ((nd.left = some prev ∧ nd.height = 1 + max oldH (heightOf h nd.right)) ∨
     (nd.right = some prev ∧ nd.height = 1 + max (heightOf h nd.left) oldH))

/-- The parent chain above a node: each listed ancestor holds the previous
chain element as one child, its other child lies outside the chain (`all`),
and its parent is the next element (none at the root). -/
def ChainUp (h : Store α) (all : List Nat) : Nat → List Nat → Prop
  | _, [] => True
  | prev, a :: rest =>
    (∃ nd, h a = some nd ∧ nd.parent = rest.head? ∧
      ((nd.left = some prev ∧ ∀ c, nd.right = some c → c ∉ all) ∨
       (nd.right = some prev ∧ ∀ c, nd.left = some c → c ∉ all))) ∧
    ChainUp h all a rest

/-- Concrete heap for exercising `iterative_height_update`: node 1 (stale
height 5) with parent 2; node 2 (height 6, computed from the old child
height 5) at the root. -/
def c8Node1 : HNode Nat := ⟨none, none, some 2, 10, 5⟩

def c8Node2 : HNode Nat := ⟨some 1, none, none, 20, 6⟩

def c8Heap : Store Nat := fun i =>
  if i = 1 then some c8Node1 else if i = 2 then some c8Node2 else none

/-- `AvlTreeNode::update_parent_for_left_child()`:
`if (left_ != nullptr) left_->parent_ = this;`. -/
def updateParentForLeftChild (h : Store α) (i : Nat) : Store α :=
  match leftOf h i with
  | none => h
  | some c => setParent h c (some i)

/-- `AvlTreeNode::update_parent_for_right_child()`. -/
def updateParentForRightChild (h : Store α) (i : Nat) : Store α :=
  match rightOf h i with
  | none => h
  | some c => setParent h c (some i)

/-- `AvlTreeNode::update_parent_for_children()`: left child first, then right. -/
def updateParentForChildren (h : Store α) (i : Nat) : Store α :=
  updateParentForRightChild (updateParentForLeftChild h i) i

/-- `AvlTreeBase::update_child(new_child, old_child, parent)`: re-point the
parent's child slot holding `old_child` (the right slot when the left one does
not match) to `new_child`; a null parent is a no-op. -/
def updateChild (h : Store α) (newC oldC : Nat) (pa : Option Nat) : Store α :=
  match pa with
  | none => h
  | some p =>
    if leftOf h p = some oldC then setLeft h p (some newC)
    else setRight h p (some newC)

/-- `AvlTreeBase::solve_parent_cycle(child, parent)`: after the raw pointer
swap, a node that was the parent of the other ends up as its own parent; the
fix re-points `child->parent_` at `parent` and the self-referencing child slot
of `parent` back at `child`. -/
def solveParentCycle (h : Store α) (child pa : Nat) : Store α :=
  if parentOf h child = some child then
    let h1 := setParent h child (some pa)
    if rightOf h1 pa = some pa then setRight h1 pa (some child)
    else setLeft h1 pa (some child)
  else h

/-- The two `solve_parent_cycle` calls of `swap_nodes`. -/
def swapStep2 (h : Store α) (a b : Nat) : Store α :=
  solveParentCycle (solveParentCycle h a b) b a

/-- The two `update_child` calls of `swap_nodes` (each parent pointer is read
from the current heap, as in the C++). -/
def swapStep4 (h : Store α) (a b : Nat) : Store α :=
  let h4 := updateChild h a b (parentOf h a)
  updateChild h4 b a (parentOf h4 b)

/-- The two `update_parent_for_children` calls of `swap_nodes`. -/
def swapStep6 (h : Store α) (a b : Nat) : Store α :=
  updateParentForChildren (updateParentForChildren h a) b

/-- `AvlTreeBase::swap_nodes(a, b)`: swap the `parent_`/`left_`/`right_`
pointers and the `height_` fields of the two node objects (the `value_`
fields stay put), fix the parent cycles, re-point the parents' child slots and
the children's parent pointers. -/
def swapNodes (h : Store α) (a b : Nat) : Store α :=
  match h a, h b with
  | some na, some nb =>
    let na2 := { na with parent := nb.parent, left := nb.left, right := nb.right, height := nb.height }
    let nb2 := { nb with parent := na.parent, left := na.left, right := na.right, height := na.height }
    swapStep6 (swapStep4 (swapStep2 (hset (hset h a na2) b nb2) a b) a b) a b
  | _, _ => h

/-- `AvlTreeBase::rotate_left(node)`: returns the new subtree root. -/
def rotateLeft (fuel : Nat) (h : Store α) (i : Nat) : Store α × Nat :=
  match rightOf h i with
  | none => (h, i)
  | some nr =>
    let h1 := setRight h i (leftOf h nr)
    let h2 := updateParentForRightChild h1 i
    let h3 := setLeft h2 nr (some i)
    let h4 := updateParentForLeftChild h3 nr
    let h5 := iterativeHeightUpdate fuel h4 i
    (iterativeHeightUpdate fuel h5 nr, nr)

/-- `AvlTreeBase::rotate_right(node)`, mirror of `rotate_left`. -/
def rotateRight (fuel : Nat) (h : Store α) (i : Nat) : Store α × Nat :=
  match leftOf h i with
  | none => (h, i)
  | some nr =>
    let h1 := setLeft h i (rightOf h nr)
    let h2 := updateParentForLeftChild h1 i
    let h3 := setRight h2 nr (some i)
    let h4 := updateParentForRightChild h3 nr
    let h5 := iterativeHeightUpdate fuel h4 i
    (iterativeHeightUpdate fuel h5 nr, nr)

/-- `AvlTreeBase::small_left_rotate(node)`: rotate in place below the parent
(the parent's child slot is re-bound before the rotation, as in the C++). -/
def smallLeftRotate (fuel : Nat) (h : Store α) (i : Nat) : Store α × Nat :=
  match parentOf h i with
  | none =>
    let r := rotateLeft fuel h i
    (setParent r.1 r.2 none, r.2)
  | some p =>
    let r := rotateLeft fuel h i
    let h2 := if leftOf h p = some i then setLeft r.1 p (some r.2)
      else setRight r.1 p (some r.2)
    let h3 := setParent h2 r.2 (some p)
    (iterativeHeightUpdate fuel h3 p, r.2)

/-- `AvlTreeBase::small_right_rotate(node)`, mirror. -/
def smallRightRotate (fuel : Nat) (h : Store α) (i : Nat) : Store α × Nat :=
  match parentOf h i with
  | none =>
    let r := rotateRight fuel h i
    (setParent r.1 r.2 none, r.2)
  | some p =>
    let r := rotateRight fuel h i
    let h2 := if leftOf h p = some i then setLeft r.1 p (some r.2)
      else setRight r.1 p (some r.2)
    let h3 := setParent h2 r.2 (some p)
    (iterativeHeightUpdate fuel h3 p, r.2)

/-- `AvlTreeBase::big_left_rotate(node)`. -/
def bigLeftRotate (fuel : Nat) (h : Store α) (i : Nat) : Store α × Nat :=
  match rightOf h i with
  | none => (h, i)
  | some r0 =>
    let rr := smallRightRotate fuel h r0
    let h2 := setRight rr.1 i (some rr.2)
    let h3 := updateParentForRightChild h2 i
    let h4 := iterativeHeightUpdate fuel h3 i
    smallLeftRotate fuel h4 i

/-- `AvlTreeBase::big_right_rotate(node)`. -/
def bigRightRotate (fuel : Nat) (h : Store α) (i : Nat) : Store α × Nat :=
  match leftOf h i with
  | none => (h, i)
  | some l0 =>
    let rr := smallLeftRotate fuel h l0
    let h2 := setLeft rr.1 i (some rr.2)
    let h3 := updateParentForLeftChild h2 i
    let h4 := iterativeHeightUpdate fuel h3 i
    smallRightRotate fuel h4 i

/-- `node->balance_factor() = right_height() - left_height()` on the heap. -/
def bfAt (h : Store α) (i : Nat) : Int :=
  heightOf h (rightOf h i) - heightOf h (leftOf h i)

/-- `AvlTreeBase::balance_node(node)` on the heap (the rebalance loop never
passes a null node). -/
def balanceNodeH (fuel : Nat) (h : Store α) (i : Nat) : Store α × Nat :=
  if bfAt h i > 1 then
    match rightOf h i with
    | none => (h, i)
    | some r => if bfAt h r ≥ 0 then smallLeftRotate fuel h i else bigLeftRotate fuel h i
  else if bfAt h i < -1 then
    match leftOf h i with
    | none => (h, i)
    | some l => if bfAt h l ≤ 0 then smallRightRotate fuel h i else bigRightRotate fuel h i
  else (h, i)

/-- `AvlTreeBase::rebalance(node)`: climb from `node`, balancing each level;
whenever the balanced node has no parent it becomes the recorded root.
Returns the heap and the (possibly updated) root pointer. -/
def rebalanceH : Nat → Nat → Store α → Option Nat → Option Nat → Store α × Option Nat
  | _, 0, h, root, _ => (h, root)
  | _, _ + 1, h, root, none => (h, root)
  | ifuel, fuel + 1, h, root, some cur =>
    let r := balanceNodeH ifuel h cur
    let root2 := if parentOf r.1 r.2 = none then some r.2 else root
    rebalanceH ifuel fuel r.1 root2 (parentOf r.1 r.2)

/-- `AvlTreeBase::recursive_destroy(root)`: postorder `delete`. -/
def recursiveDestroy : Nat → Store α → Option Nat → Store α
  | 0, h, _ => h
  | _ + 1, h, none => h
  | fuel + 1, h, some r =>
    let h1 := recursiveDestroy fuel h (leftOf h r)
    let h2 := recursiveDestroy fuel h1 (rightOf h1 r)
    hdel h2 r

/-- Engine state at the heap level: `root_` and `number_of_nodes_` of
`AvlTreeBase` next to the node heap. -/
structure HeapEngineSt (α : Type) : Type where
  heap : Store α
  root : Option Nat
  count : Nat

/-- `AvlTreeBase::erase(node)` on the heap: null is a no-op; a single node
clears the tree; a node with two children is first swapped with its in-order
successor; then the node (now with at most one child) is spliced out — at the
root by promoting its only child, below the root by re-pointing the parent's
child slot — freed with `safe_delete`, and the heights are repaired and the
tree rebalanced from the parent upwards. -/
def heapErase (fuel : Nat) (st : HeapEngineSt α) (node : Option Nat) : HeapEngineSt α :=
  match node with
  | none => st
  | some nd =>
    if st.count = 1 then
      ⟨recursiveDestroy fuel st.heap st.root, none, 0⟩
    else
      let h1 := if (leftOf st.heap nd).isSome ∧ (rightOf st.heap nd).isSome then
          swapNodes st.heap nd (successorF fuel st.heap nd)
        else st.heap
      match parentOf h1 nd with
      | none =>
        match st.root with
        | none => st
        | some r =>
          let newRoot := match leftOf h1 r with
            | some l => some l
            | none => rightOf h1 r
          match newRoot with
          | none => st
          | some nr =>
            let h2 := match parentOf h1 nr with
              | none => h1
              | some pr => setParent (hdel h1 pr) nr none
            let rb := rebalanceH fuel fuel h2 (some nr) (some nr)
            ⟨rb.1, rb.2, st.count - 1⟩
      | some p =>
        let child := match rightOf h1 nd with
          | none => leftOf h1 nd
          | some c => some c
        let h4 := match child with
          | some c =>
            let h2 := updateChild h1 c nd (some p)
            let h3 := updateParentForChildren h2 p
            hdel h3 nd
          | none =>
            if leftOf h1 p = some nd then setLeft (hdel h1 nd) p none
            else setRight (hdel h1 nd) p none
        let h5 := iterativeHeightUpdate fuel h4 p
        let rb := rebalanceH fuel fuel h5 st.root (some p)
        ⟨rb.1, rb.2, st.count - 1⟩

/-- Concrete three-node heap for exercising the two-children erase: node 1
(value 10) has left child 2 (value 5) and right child 3 (value 20); the
in-order successor of 1 is its direct right child 3. -/
def c4N1 : HNode Nat := ⟨some 2, some 3, none, 10, 2⟩

def c4N2 : HNode Nat := ⟨none, none, some 1, 5, 1⟩

def c4N3 : HNode Nat := ⟨none, none, some 1, 20, 1⟩

def c4Heap : Store Nat := fun i =>
  if i = 1 then some c4N1 else if i = 2 then some c4N2
  else if i = 3 then some c4N3 else none

def c4St : HeapEngineSt Nat := ⟨c4Heap, some 1, 3⟩

/-- Id of the root of a subtree whose nodes get the ids `base+1 .. base+size`
(a node's id is one more than its in-order position). -/
def rootId : Tree α → Nat → Nat
  | Tree.nil, _ => 0
  | Tree.node l _ _ _, base => base + Tree.size l + 1

/-- Heap image of a subtree, ids `base+1 .. base+size` in in-order: `par` is
the parent pointer of the subtree root; `lth`/`rth` are the boundary threads
of `restore_placeholder` (`minimum.left_` / `maximum.right_` point at the
header), passed down the left and right spines only. -/
def subHeap : Tree α → Nat → Option Nat → Option Nat → Option Nat → Store α
  | Tree.nil, _, _, _, _ => fun _ => none
  | Tree.node l v ht r, base, par, lth, rth =>
    fun i =>
      if i = base + Tree.size l + 1 then
        some ⟨(match l with | Tree.nil => lth | Tree.node _ _ _ _ => some (rootId l base)),
              (match r with | Tree.nil => rth | Tree.node _ _ _ _ => some (rootId r (base + Tree.size l + 1))),
              par, v, ht⟩
      else if i ≤ base + Tree.size l then subHeap l base (some (base + Tree.size l + 1)) lth none i
      else subHeap r (base + Tree.size l + 1) (some (base + Tree.size l + 1)) none rth i

/-- The between-operations heap of the container: the header at id 0 is its
own parent (the placeholder test), `left_`/`right_` cache the minimum (id 1)
and maximum (id `size`), or the header itself when the tree is empty; the tree
nodes follow with the boundary threads installed. -/
def facadeHeap (dflt : α) (t : Tree α) : Store α :=
  fun i =>
    if i = 0 then
      some ⟨(if Tree.size t = 0 then some 0 else some 1),
            (if Tree.size t = 0 then some 0 else some (Tree.size t)),
            some 0, dflt, 0⟩
    else subHeap t 0 none (some 0) (some 0) i

/-- The walk of `AvlTreeNode::leftmost()` as a relation (fuel-free). -/
inductive Lmost (h : Store α) : Nat → Nat → Prop where
  | stopPh : ∀ i, isPlaceholder h i → Lmost h i i
  | stopNone : ∀ i, ¬ isPlaceholder h i → leftOf h i = none → Lmost h i i
  | step : ∀ i j r, ¬ isPlaceholder h i → leftOf h i = some j → Lmost h j r → Lmost h i r

/-- The walk of `AvlTreeNode::rightmost()` as a relation. -/
inductive Rmost (h : Store α) : Nat → Nat → Prop where
  | stopPh : ∀ i, isPlaceholder h i → Rmost h i i
  | stopNone : ∀ i, ¬ isPlaceholder h i → rightOf h i = none → Rmost h i i
  | step : ∀ i j r, ¬ isPlaceholder h i → rightOf h i = some j → Rmost h j r → Rmost h i r

/-- The parent climb of `avl_tree_increment` as a relation. -/
inductive Climbs (h : Store α) : Nat → Nat → Nat → Prop where
  | root : ∀ cur old, parentOf h cur = none → Climbs h cur old cur
  | found : ∀ cur old p, parentOf h cur = some p → leftOf h p = some old → Climbs h cur old p
  | step : ∀ cur old p r, parentOf h cur = some p → leftOf h p ≠ some old →
      Climbs h p p r → Climbs h cur old r

/-- The parent climb of `avl_tree_decrement` as a relation. -/
inductive ClimbsD (h : Store α) : Nat → Nat → Nat → Prop where
  | root : ∀ cur old, parentOf h cur = none → ClimbsD h cur old cur
  | found : ∀ cur old p, parentOf h cur = some p → rightOf h p = some old → ClimbsD h cur old p
  | step : ∀ cur old p r, parentOf h cur = some p → rightOf h p ≠ some old →
      ClimbsD h p p r → ClimbsD h cur old r

/-- Fuel-free specification of one `avl_tree_increment` step at a real node. -/
def IncSpec (h : Store α) (i r : Nat) : Prop :=
  ¬ isPlaceholder h i ∧
    ((∃ j, rightOf h i = some j ∧ Lmost h j r) ∨ (rightOf h i = none ∧ Climbs h i i r))

/-- Fuel-free specification of one `avl_tree_decrement` step at a real node. -/
def DecSpec (h : Store α) (i r : Nat) : Prop :=
  ¬ isPlaceholder h i ∧
    ((∃ j, leftOf h i = some j ∧ Rmost h j r) ∨ (leftOf h i = none ∧ ClimbsD h i i r))

end Heap

end Avl

namespace Avl

namespace Tree

variable {α : Type}

variable [LinearOrder α]

end Tree

open Tree

variable {α : Type} [LinearOrder α]

end Avl

namespace Avl

variable {α : Type} [LinearOrder α]

namespace Tree

theorem realH_nonneg : (t : Tree α) → 0 ≤ realH t
  | nil => le_refl 0
  | node l _ _ r => by
    have hl := realH_nonneg l
    simp only [realH]
    omega

theorem cachedHt_eq_realH {t : Tree α} (h : HtOk t) : cachedHt t = realH t := by
  cases t with
  | nil => rfl
  | node l v ht r => simpa [cachedHt, realH] using h.1

theorem realH_pos {l r : Tree α} {v : α} {h : Int} :
    1 ≤ realH (node l v h r) := by
  have hl := realH_nonneg l
  have hr := realH_nonneg r
  simp only [realH]
  omega

theorem inorder_mkNode (l : Tree α) (v : α) (r : Tree α) :
    inorder (mkNode l v r) = inorder l ++ v :: inorder r := rfl

theorem inorder_rotateLeft (t : Tree α) : inorder (rotateLeft t) = inorder t := by
  cases t with
  | nil => rfl
  | node l v h r =>
    cases r with
    | nil => rfl
    | node rl rv rh rr => simp [rotateLeft, inorder, inorder_mkNode]

theorem inorder_rotateRight (t : Tree α) : inorder (rotateRight t) = inorder t := by
  cases t with
  | nil => rfl
  | node l v h r =>
    cases l with
    | nil => rfl
    | node ll lv lh lr => simp [rotateRight, inorder, inorder_mkNode]

theorem inorder_bigRotateLeft (t : Tree α) : inorder (bigRotateLeft t) = inorder t := by
  cases t with
  | nil => rfl
  | node l v h r =>
    simp [bigRotateLeft, inorder_rotateLeft, inorder_mkNode, inorder_rotateRight, inorder]

theorem inorder_bigRotateRight (t : Tree α) : inorder (bigRotateRight t) = inorder t := by
  cases t with
  | nil => rfl
  | node l v h r =>
    simp [bigRotateRight, inorder_rotateRight, inorder_mkNode, inorder_rotateLeft, inorder]

theorem inorder_balanceNode (t : Tree α) : inorder (balanceNode t) = inorder t := by
  cases t with
  | nil => rfl
  | node l v h r =>
    simp only [balanceNode]
    split
    · split
      · exact inorder_rotateLeft _
      · exact inorder_bigRotateLeft _
    · split
      · split
        · exact inorder_rotateRight _
        · exact inorder_bigRotateRight _
      · rfl

theorem inorder_eq_nil_iff {t : Tree α} : inorder t = [] ↔ t = nil := by
  cases t with
  | nil => simp [inorder]
  | node l v h r => simp [inorder]

theorem length_inorder (t : Tree α) : (inorder t).length = size t := by
  induction t with
  | nil => rfl
  | node l v h r ihl ihr => simp [inorder, size, ihl, ihr]; omega

theorem sorted_inorder_iff {t : Tree α} :
    (inorder t).Sorted (· < ·) ↔ Ordered t := by
  induction t with
  | nil => simp [inorder, Ordered, List.Sorted]
  | node l v h r ihl ihr =>
    simp only [inorder, Ordered, List.Sorted, List.pairwise_append, List.pairwise_cons,
      ← ihl, ← ihr]
    constructor
    · rintro ⟨sl, ⟨sv, sr⟩, hcross⟩
      refine ⟨fun y hy => hcross y hy v (by simp), fun y hy => sv y hy, sl, sr⟩
    · rintro ⟨hlv, hrv, sl, sr⟩
      refine ⟨sl, ⟨fun y hy => hrv y hy, sr⟩, ?_⟩
      intro x hx y hy
      rcases List.mem_cons.1 hy with rfl | hy
      · exact hlv x hx
      · exact (hlv x hx).trans (hrv y hy)

end Tree

end Avl

namespace Avl

namespace Tree

variable {α : Type} [LinearOrder α]

theorem cachedHt_nil : cachedHt (nil : Tree α) = 0 := rfl

theorem cachedHt_node {l r : Tree α} {v : α} {h : Int} : cachedHt (node l v h r) = h := rfl

theorem balanceFactor_node {l r : Tree α} {v : α} {h : Int} :
    balanceFactor (node l v h r) = cachedHt r - cachedHt l := rfl

theorem realH_nil : realH (nil : Tree α) = 0 := rfl

theorem realH_node {l r : Tree α} {v : α} {h : Int} :
    realH (node l v h r) = 1 + max (realH l) (realH r) := rfl

theorem htOk_node_iff {l r : Tree α} {v : α} {h : Int} :
    HtOk (node l v h r) ↔ h = 1 + max (realH l) (realH r) ∧ HtOk l ∧ HtOk r :=
  Iff.rfl

theorem avlBal_node_iff {l r : Tree α} {v : α} {h : Int} :
    AvlBal (node l v h r) ↔
      realH l - realH r ≤ 1 ∧ realH r - realH l ≤ 1 ∧ AvlBal l ∧ AvlBal r :=
  Iff.rfl

theorem htOk_mkNode {l r : Tree α} {v : α} (hl : HtOk l) (hr : HtOk r) :
    HtOk (mkNode l v r) := by
  refine htOk_node_iff.2 ⟨?_, hl, hr⟩
  rw [cachedHt_eq_realH hl, cachedHt_eq_realH hr]

theorem avlBal_mkNode {l r : Tree α} {v : α} (bl : AvlBal l) (br : AvlBal r)
    (d1 : realH l - realH r ≤ 1) (d2 : realH r - realH l ≤ 1) :
    AvlBal (mkNode l v r) :=
  avlBal_node_iff.2 ⟨d1, d2, bl, br⟩

theorem realH_mkNode (l r : Tree α) (v : α) :
    realH (mkNode l v r) = 1 + max (realH l) (realH r) := rfl

/-- The central rebalancing lemma: `balance_node` applied to a node whose
subtrees are AVL with correct cached heights and whose height difference is at
most two yields an AVL subtree with correct cached heights whose height is
`1 + max` of the children's heights, or exactly `max` — the latter possible
only when the difference was exactly two. -/
theorem balance_main (l r : Tree α) (v : α)
    (hl : HtOk l) (hr : HtOk r) (bl : AvlBal l) (br : AvlBal r)
    (hd1 : realH l - realH r ≤ 2) (hd2 : realH r - realH l ≤ 2) :
    HtOk (balanceNode (mkNode l v r)) ∧ AvlBal (balanceNode (mkNode l v r)) ∧
      (realH (balanceNode (mkNode l v r)) = 1 + max (realH l) (realH r) ∨
        (realH (balanceNode (mkNode l v r)) = max (realH l) (realH r) ∧
          (2 ≤ realH l - realH r ∨ 2 ≤ realH r - realH l))) := by
  have hcl := cachedHt_eq_realH hl
  have hcr := cachedHt_eq_realH hr
  have hl0 := realH_nonneg l
  have hr0 := realH_nonneg r
  simp only [mkNode, balanceNode]
  split
  · next hgt =>
    -- balance factor above one: the tree is right-heavy by exactly two
    rw [balanceFactor_node, hcl, hcr] at hgt
    cases r with
    | nil =>
      exfalso
      rw [realH_nil] at hgt
      omega
    | node rl rv rh rr =>
      obtain ⟨hrh, hrl, hrr⟩ := htOk_node_iff.1 hr
      obtain ⟨br1, br2, brl, brr⟩ := avlBal_node_iff.1 br
      have hcrl := cachedHt_eq_realH hrl
      have hcrr := cachedHt_eq_realH hrr
      have hrl0 := realH_nonneg rl
      have hrr0 := realH_nonneg rr
      rw [realH_node] at hgt hd1 hd2 hr0
      split
      · next hbf =>
        -- small left rotation
        rw [balanceFactor_node, hcrl, hcrr] at hbf
        simp only [rotateLeft]
        refine ⟨htOk_mkNode (htOk_mkNode hl hrl) hrr, ?_, ?_⟩
        · refine avlBal_mkNode (avlBal_mkNode bl brl (by omega) (by omega)) brr ?_ ?_ <;>
            rw [realH_mkNode] <;> omega
        · simp only [realH_mkNode, realH_node]
          omega
      · next hbf =>
        -- big left rotation: the right child is left-heavy
        rw [balanceFactor_node, hcrl, hcrr] at hbf
        cases rl with
        | nil =>
          exfalso
          rw [realH_nil] at hbf
          omega
        | node c w ch d =>
          obtain ⟨hch, hc, hd⟩ := htOk_node_iff.1 hrl
          obtain ⟨bc1, bc2, bc, bd⟩ := avlBal_node_iff.1 brl
          have hcc := cachedHt_eq_realH hc
          have hcd := cachedHt_eq_realH hd
          have hc0 := realH_nonneg c
          have hd0 := realH_nonneg d
          rw [realH_node] at hbf hgt hd1 hd2 hr0 br1 br2
          simp only [bigRotateLeft, rotateRight, rotateLeft, mkNode, cachedHt_node]
          refine ⟨?_, ?_, ?_⟩
          · refine htOk_node_iff.2 ⟨?_, htOk_node_iff.2 ⟨?_, hl, hc⟩,
              htOk_node_iff.2 ⟨?_, hd, hrr⟩⟩ <;>
              (try simp only [realH_node]) <;> omega
          · refine avlBal_node_iff.2 ⟨?_, ?_, avlBal_node_iff.2 ⟨?_, ?_, bl, bc⟩,
              avlBal_node_iff.2 ⟨?_, ?_, bd, brr⟩⟩ <;>
              (try simp only [realH_node]) <;> omega
          · simp only [realH_node]
            omega
  · next hgt =>
    rw [balanceFactor_node, hcl, hcr] at hgt
    split
    · next hlt =>
      -- balance factor below minus one: left-heavy by exactly two
      rw [balanceFactor_node, hcl, hcr] at hlt
      cases l with
      | nil =>
        exfalso
        rw [realH_nil] at hlt
        omega
      | node ll lv lh lr =>
        obtain ⟨hlh, hll, hlr⟩ := htOk_node_iff.1 hl
        obtain ⟨bl1, bl2, bll, blr⟩ := avlBal_node_iff.1 bl
        have hcll := cachedHt_eq_realH hll
        have hclr := cachedHt_eq_realH hlr
        have hll0 := realH_nonneg ll
        have hlr0 := realH_nonneg lr
        rw [realH_node] at hlt hgt hd1 hd2 hl0
        split
        · next hbf =>
          -- small right rotation
          rw [balanceFactor_node, hcll, hclr] at hbf
          simp only [rotateRight]
          refine ⟨htOk_mkNode hll (htOk_mkNode hlr hr), ?_, ?_⟩
          · refine avlBal_mkNode bll (avlBal_mkNode blr br (by omega) (by omega)) ?_ ?_ <;>
              rw [realH_mkNode] <;> omega
          · simp only [realH_mkNode, realH_node]
            omega
        · next hbf =>
          -- big right rotation: the left child is right-heavy
          rw [balanceFactor_node, hcll, hclr] at hbf
          cases lr with
          | nil =>
            exfalso
            rw [realH_nil] at hbf
            omega
          | node c w ch d =>
            obtain ⟨hch, hc, hd⟩ := htOk_node_iff.1 hlr
            obtain ⟨bc1, bc2, bc, bd⟩ := avlBal_node_iff.1 blr
            have hcc := cachedHt_eq_realH hc
            have hcd := cachedHt_eq_realH hd
            have hc0 := realH_nonneg c
            have hd0 := realH_nonneg d
            rw [realH_node] at hbf hlt hgt hd1 hd2 hl0 bl1 bl2
            simp only [bigRotateRight, rotateLeft, rotateRight, mkNode, cachedHt_node]
            refine ⟨?_, ?_, ?_⟩
            · refine htOk_node_iff.2 ⟨?_, htOk_node_iff.2 ⟨?_, hll, hc⟩,
                htOk_node_iff.2 ⟨?_, hd, hr⟩⟩ <;>
                (try simp only [realH_node]) <;> omega
            · refine avlBal_node_iff.2 ⟨?_, ?_, avlBal_node_iff.2 ⟨?_, ?_, bll, bc⟩,
                avlBal_node_iff.2 ⟨?_, ?_, bd, br⟩⟩ <;>
                (try simp only [realH_node]) <;> omega
            · simp only [realH_node]
              omega
    · next hlt =>
      -- balance factor within range: `balance_node` returns the node unchanged
      rw [balanceFactor_node, hcl, hcr] at hlt
      refine ⟨htOk_node_iff.2 ⟨by rw [hcl, hcr], hl, hr⟩,
        avlBal_node_iff.2 ⟨by omega, by omega, bl, br⟩,
        Or.inl (by rw [realH_node])⟩

theorem treeMin_eq_head (t : Tree α) : treeMin t = (inorder t).head? := by
  induction t with
  | nil => rfl
  | node l v h r ihl ihr =>
    cases l with
    | nil => simp [treeMin, inorder]
    | node ll lv lh lr =>
      rw [show treeMin (node (node ll lv lh lr) v h r) =
            treeMin (node ll lv lh lr) from rfl, ihl,
        show inorder (node (node ll lv lh lr) v h r) =
            inorder (node ll lv lh lr) ++ v :: inorder r from rfl,
        List.head?_append_of_ne_nil _ (by simp [inorder])]

theorem treeMax_eq_getLast (t : Tree α) : treeMax t = (inorder t).getLast? := by
  induction t with
  | nil => rfl
  | node l v h r ihl ihr =>
    cases r with
    | nil =>
      rw [show treeMax (node l v h nil) = some v from rfl,
        show inorder (node l v h nil) = inorder l ++ v :: [] from rfl,
        List.getLast?_append_cons]
      rfl
    | node rl rv rh rr =>
      rw [show treeMax (node l v h (node rl rv rh rr)) =
            treeMax (node rl rv rh rr) from rfl, ihr,
        show inorder (node l v h (node rl rv rh rr)) =
            inorder l ++ v :: inorder (node rl rv rh rr) from rfl,
        List.getLast?_append_cons,
        show inorder (node rl rv rh rr) = inorder rl ++ rv :: inorder rr from rfl,
        List.getLast?_append_cons, ← List.cons_append, List.getLast?_append_cons]

theorem eraseHere_two {ll lr rl rr : Tree α} {lv rv v m : α} {lh rh h : Int}
    (hm : treeMin (node rl rv rh rr) = some m) :
    eraseHere (node (node ll lv lh lr) v h (node rl rv rh rr)) =
      balanceNode (mkNode (node ll lv lh lr) m (eraseMin (node rl rv rh rr))) := by
  simp only [eraseHere, hm]

/-- `insert` keeps cached heights correct and the tree balanced, growing the
height by at most one. -/
theorem engineInsert_avl (x : α) (t : Tree α) (ht : HtOk t) (bt : AvlBal t) :
    HtOk (engineInsert x t) ∧ AvlBal (engineInsert x t) ∧
      (realH (engineInsert x t) = realH t ∨ realH (engineInsert x t) = realH t + 1) := by
  induction t with
  | nil =>
    refine ⟨⟨?_, trivial, trivial⟩, ⟨?_, ?_, trivial, trivial⟩, Or.inr ?_⟩ <;>
      simp [engineInsert, realH_nil, realH_node]
  | node l v h r ihl ihr =>
    obtain ⟨hh, hl, hr⟩ := htOk_node_iff.1 ht
    obtain ⟨b1, b2, bl, br⟩ := avlBal_node_iff.1 bt
    simp only [engineInsert]
    split
    · obtain ⟨ih1, ih2, ih3⟩ := ihl hl bl
      obtain ⟨g1, g2, g3⟩ :=
        balance_main (engineInsert x l) r v ih1 hr ih2 br (by omega) (by omega)
      refine ⟨g1, g2, ?_⟩
      rw [realH_node]
      rcases g3 with g3 | ⟨g3, g4⟩ <;> rcases ih3 with h5 | h5 <;> omega
    · obtain ⟨ih1, ih2, ih3⟩ := ihr hr br
      obtain ⟨g1, g2, g3⟩ :=
        balance_main l (engineInsert x r) v hl ih1 bl ih2 (by omega) (by omega)
      refine ⟨g1, g2, ?_⟩
      rw [realH_node]
      rcases g3 with g3 | ⟨g3, g4⟩ <;> rcases ih3 with h5 | h5 <;> omega

/-- Erasing the leftmost node keeps cached heights correct and the tree
balanced, shrinking the height by at most one. -/
theorem eraseMin_avl (t : Tree α) (ht : HtOk t) (bt : AvlBal t) :
    HtOk (eraseMin t) ∧ AvlBal (eraseMin t) ∧
      (realH (eraseMin t) = realH t ∨ realH (eraseMin t) = realH t - 1) := by
  induction t with
  | nil => exact ⟨trivial, trivial, Or.inl rfl⟩
  | node l v h r ihl ihr =>
    obtain ⟨hh, hl, hr⟩ := htOk_node_iff.1 ht
    obtain ⟨b1, b2, bl, br⟩ := avlBal_node_iff.1 bt
    cases l with
    | nil =>
      rw [show eraseMin (node nil v h r) = r from rfl]
      refine ⟨hr, br, Or.inr ?_⟩
      simp only [realH_node, realH_nil]
      have := realH_nonneg r
      omega
    | node ll lv lh lr =>
      rw [show eraseMin (node (node ll lv lh lr) v h r) =
        balanceNode (mkNode (eraseMin (node ll lv lh lr)) v r) from rfl]
      obtain ⟨ih1, ih2, ih3⟩ := ihl hl bl
      have hL0 := realH_nonneg (node ll lv lh lr)
      obtain ⟨g1, g2, g3⟩ :=
        balance_main (eraseMin (node ll lv lh lr)) r v ih1 hr ih2 br (by omega) (by omega)
      refine ⟨g1, g2, ?_⟩
      rw [realH_node]
      rcases g3 with g3 | ⟨g3, g4⟩ <;> rcases ih3 with h5 | h5 <;> omega

/-- Erasing the root of a subtree (splice, or successor swap followed by a
splice in the right subtree) keeps cached heights correct and the tree
balanced, shrinking the height by at most one. -/
theorem eraseHere_avl (t : Tree α) (ht : HtOk t) (bt : AvlBal t) :
    HtOk (eraseHere t) ∧ AvlBal (eraseHere t) ∧
      (realH (eraseHere t) = realH t ∨ realH (eraseHere t) = realH t - 1) := by
  cases t with
  | nil => exact ⟨trivial, trivial, Or.inl rfl⟩
  | node l v h r =>
    obtain ⟨hh, hl, hr⟩ := htOk_node_iff.1 ht
    obtain ⟨b1, b2, bl, br⟩ := avlBal_node_iff.1 bt
    cases l with
    | nil =>
      rw [show eraseHere (node nil v h r) = r by simp only [eraseHere]]
      refine ⟨hr, br, Or.inr ?_⟩
      simp only [realH_node, realH_nil]
      have := realH_nonneg r
      omega
    | node ll lv lh lr =>
      cases r with
      | nil =>
        rw [show eraseHere (node (node ll lv lh lr) v h nil) =
          node ll lv lh lr by simp only [eraseHere]]
        refine ⟨hl, bl, Or.inr ?_⟩
        simp only [realH_node, realH_nil]
        have := realH_nonneg ll
        have := realH_nonneg lr
        omega
      | node rl rv rh rr =>
        have hmin : ∃ m, treeMin (node rl rv rh rr) = some m := by
          rw [treeMin_eq_head]
          simp only [inorder]
          cases hrl : inorder rl with
          | nil => exact ⟨rv, by simp [hrl]⟩
          | cons a as => exact ⟨a, by simp [hrl]⟩
        obtain ⟨m, hm⟩ := hmin
        rw [eraseHere_two hm]
        obtain ⟨ih1, ih2, ih3⟩ := eraseMin_avl (node rl rv rh rr) hr br
        have hR0 := realH_nonneg (node rl rv rh rr)
        obtain ⟨g1, g2, g3⟩ :=
          balance_main (node ll lv lh lr) (eraseMin (node rl rv rh rr)) m hl ih1 bl ih2
            (by omega) (by omega)
        refine ⟨g1, g2, ?_⟩
        rw [realH_node]
        rcases g3 with g3 | ⟨g3, g4⟩ <;> rcases ih3 with h5 | h5 <;> omega

/-- The full erase descent keeps cached heights correct and the tree balanced,
shrinking the height by at most one. -/
theorem eraseGo_avl (x : α) (t : Tree α) (ht : HtOk t) (bt : AvlBal t) :
    HtOk (eraseGo x t) ∧ AvlBal (eraseGo x t) ∧
      (realH (eraseGo x t) = realH t ∨ realH (eraseGo x t) = realH t - 1) := by
  induction t with
  | nil => exact ⟨trivial, trivial, Or.inl rfl⟩
  | node l v h r ihl ihr =>
    obtain ⟨hh, hl, hr⟩ := htOk_node_iff.1 ht
    obtain ⟨b1, b2, bl, br⟩ := avlBal_node_iff.1 bt
    simp only [eraseGo]
    split
    · exact eraseHere_avl (node l v h r) ht bt
    · split
      · obtain ⟨ih1, ih2, ih3⟩ := ihl hl bl
        obtain ⟨g1, g2, g3⟩ :=
          balance_main (eraseGo x l) r v ih1 hr ih2 br (by omega) (by omega)
        refine ⟨g1, g2, ?_⟩
        rw [realH_node]
        rcases g3 with g3 | ⟨g3, g4⟩ <;> rcases ih3 with h5 | h5 <;> omega
      · obtain ⟨ih1, ih2, ih3⟩ := ihr hr br
        obtain ⟨g1, g2, g3⟩ :=
          balance_main l (eraseGo x r) v hl ih1 bl ih2 (by omega) (by omega)
        refine ⟨g1, g2, ?_⟩
        rw [realH_node]
        rcases g3 with g3 | ⟨g3, g4⟩ <;> rcases ih3 with h5 | h5 <;> omega

theorem ordered_node_iff {l r : Tree α} {v : α} {h : Int} :
    Ordered (node l v h r) ↔
      (∀ y ∈ inorder l, y < v) ∧ (∀ y ∈ inorder r, v < y) ∧ Ordered l ∧ Ordered r :=
  Iff.rfl

theorem insList_ne_nil (x : α) (l : List α) : insList x l ≠ [] := by
  cases l with
  | nil => simp [insList]
  | cons y ys =>
    simp only [insList]
    split <;> simp

theorem mem_insList {x y : α} {l : List α} : y ∈ insList x l ↔ y = x ∨ y ∈ l := by
  induction l with
  | nil => simp [insList]
  | cons a t ih =>
    simp only [insList]
    split <;> simp [ih] <;> tauto

theorem length_insList (x : α) (l : List α) : (insList x l).length = l.length + 1 := by
  induction l with
  | nil => rfl
  | cons a t ih =>
    simp only [insList]
    split <;> simp [ih]

theorem insList_append_left {x v : α} (a b : List α) (h : x < v) :
    insList x (a ++ v :: b) = insList x a ++ v :: b := by
  induction a with
  | nil => simp [insList, h]
  | cons y ys ih =>
    simp only [List.cons_append, insList]
    split <;> simp [ih]

theorem insList_append_right {x v : α} (a b : List α) (hv : ¬ x < v)
    (ha : ∀ y ∈ a, ¬ x < y) :
    insList x (a ++ v :: b) = a ++ v :: insList x b := by
  induction a with
  | nil => simp [insList, hv]
  | cons y ys ih =>
    have hy : ¬ x < y := ha y (by simp)
    simp only [List.cons_append, insList, if_neg hy]
    rw [show ys.append (v :: b) = ys ++ v :: b from rfl, ih (fun z hz => ha z (by simp [hz]))]

theorem sorted_insList {x : α} {l : List α} (s : l.Sorted (· < ·)) (hx : x ∉ l) :
    (insList x l).Sorted (· < ·) := by
  induction l with
  | nil => simp [insList, List.Sorted]
  | cons a t ih =>
    rw [List.sorted_cons] at s
    simp only [insList]
    split
    · next hlt =>
      rw [List.sorted_cons]
      refine ⟨?_, List.sorted_cons.2 s⟩
      intro b hb
      rcases List.mem_cons.1 hb with rfl | hb
      · exact hlt
      · exact lt_trans hlt (s.1 b hb)
    · next hge =>
      rw [List.sorted_cons]
      refine ⟨?_, ih s.2 (fun h => hx (by simp [h]))⟩
      intro b hb
      rcases mem_insList.1 hb with rfl | hb
      · exact (not_lt.1 hge).lt_of_ne (fun he => hx (he ▸ List.mem_cons_self a t))
      · exact s.1 b hb

theorem inorder_node (l r : Tree α) (v : α) (h : Int) :
    inorder (node l v h r) = inorder l ++ v :: inorder r := rfl

theorem inorder_engineInsert (x : α) (t : Tree α) (ho : Ordered t) :
    inorder (engineInsert x t) = insList x (inorder t) := by
  induction t with
  | nil => rfl
  | node l v h r ihl ihr =>
    obtain ⟨hlv, hrv, hol, hor⟩ := ordered_node_iff.1 ho
    simp only [engineInsert]
    split
    · next hx =>
      rw [inorder_balanceNode, inorder_mkNode, ihl hol, inorder_node,
        insList_append_left _ _ hx]
    · next hx =>
      rw [inorder_balanceNode, inorder_mkNode, ihr hor, inorder_node,
        insList_append_right _ _ hx (fun y hy hlt => hx (lt_trans hlt (hlv y hy)))]

theorem inorder_eraseMin (t : Tree α) : inorder (eraseMin t) = (inorder t).tail := by
  induction t with
  | nil => rfl
  | node l v h r ihl ihr =>
    cases l with
    | nil => rfl
    | node ll lv lh lr =>
      rw [show eraseMin (node (node ll lv lh lr) v h r) =
          balanceNode (mkNode (eraseMin (node ll lv lh lr)) v r) from rfl,
        inorder_balanceNode, inorder_mkNode, ihl,
        show inorder (node (node ll lv lh lr) v h r) =
          (inorder ll ++ lv :: inorder lr) ++ v :: inorder r from rfl,
        show inorder (node ll lv lh lr) = inorder ll ++ lv :: inorder lr from rfl]
      cases hI : inorder ll <;> simp

theorem treeMin_node_exists (rl rr : Tree α) (rv : α) (rh : Int) :
    ∃ m, treeMin (node rl rv rh rr) = some m ∧
      m :: (inorder (node rl rv rh rr)).tail = inorder (node rl rv rh rr) := by
  rw [treeMin_eq_head]
  cases hI : inorder (node rl rv rh rr) with
  | nil => exact absurd hI (by simp [inorder])
  | cons a t => exact ⟨a, rfl, rfl⟩

theorem inorder_eraseHere (l r : Tree α) (v : α) (h : Int) :
    inorder (eraseHere (node l v h r)) = inorder l ++ inorder r := by
  cases l with
  | nil =>
    rw [show eraseHere (node nil v h r) = r by simp only [eraseHere]]
    rfl
  | node ll lv lh lr =>
    cases r with
    | nil =>
      rw [show eraseHere (node (node ll lv lh lr) v h nil) = node ll lv lh lr by
        simp only [eraseHere]]
      simp [inorder]
    | node rl rv rh rr =>
      obtain ⟨m, hm, hcons⟩ := treeMin_node_exists rl rr rv rh
      rw [eraseHere_two hm, inorder_balanceNode, inorder_mkNode, inorder_eraseMin]
      exact congrArg _ hcons

theorem inorder_eraseGo (x : α) (t : Tree α) (ho : Ordered t) :
    inorder (eraseGo x t) = (inorder t).erase x := by
  induction t with
  | nil => rfl
  | node l v h r ihl ihr =>
    obtain ⟨hlv, hrv, hol, hor⟩ := ordered_node_iff.1 ho
    simp only [eraseGo]
    split
    · next hv =>
      subst hv
      rw [inorder_eraseHere, inorder_node,
        List.erase_append_right _ (fun hx => lt_irrefl v (hlv v hx)),
        List.erase_cons_head]
    · next hv =>
      split
      · next hlt =>
        rw [inorder_balanceNode, inorder_mkNode, ihl hol, inorder_node]
        by_cases hx : x ∈ inorder l
        · rw [List.erase_append_left _ hx]
        · rw [List.erase_of_not_mem hx, List.erase_append_right _ hx,
            List.erase_cons_tail, List.erase_of_not_mem
              (fun hr => lt_asymm hlt (hrv x hr))]
          simp [hv]
      · next hge =>
        have hvx : v < x := (not_lt.1 hge).lt_of_ne hv
        rw [inorder_balanceNode, inorder_mkNode, ihr hor, inorder_node,
          List.erase_append_right _ (fun hx => lt_asymm hvx (hlv x hx)),
          List.erase_cons_tail]
        simp [hv]

theorem ordered_engineInsert {x : α} {t : Tree α} (ho : Ordered t)
    (hx : x ∉ inorder t) : Ordered (engineInsert x t) := by
  rw [← sorted_inorder_iff, inorder_engineInsert x t ho]
  exact sorted_insList (sorted_inorder_iff.2 ho) hx

theorem ordered_eraseGo {x : α} {t : Tree α} (ho : Ordered t) :
    Ordered (eraseGo x t) := by
  rw [← sorted_inorder_iff, inorder_eraseGo x t ho]
  exact List.Pairwise.sublist (List.erase_sublist x (inorder t)) (sorted_inorder_iff.2 ho)

theorem getLast?_cons_ne_nil {a : α} {l : List α} (h : l ≠ []) :
    (a :: l).getLast? = l.getLast? := by
  cases l with
  | nil => exact absurd rfl h
  | cons b t => exact List.getLast?_cons_cons

theorem mem_of_getLast?_eq {l : List α} {y : α} (h : l.getLast? = some y) : y ∈ l := by
  obtain ⟨hne, he⟩ := List.mem_getLast?_eq_getLast (show y ∈ l.getLast? by rw [h]; rfl)
  exact he ▸ List.getLast_mem hne

theorem getLast?_exists_of_cons (b : α) (t : List α) : ∃ y, (b :: t).getLast? = some y := by
  cases h : (b :: t).getLast? with
  | some y => exact ⟨y, rfl⟩
  | none => exact absurd (List.getLast?_eq_none_iff.1 h) (by simp)

theorem head?_insList (x : α) (l : List α) :
    (insList x l).head? = some (match l.head? with
      | none => x
      | some y => if x < y then x else y) := by
  cases l with
  | nil => rfl
  | cons a t =>
    simp only [insList]
    by_cases hx : x < a <;> simp [hx]

theorem getLast?_insList (x : α) (l : List α) (s : l.Sorted (· < ·)) :
    (insList x l).getLast? = some (match l.getLast? with
      | none => x
      | some y => if x < y then y else x) := by
  induction l with
  | nil => rfl
  | cons a t ih =>
    rw [List.sorted_cons] at s
    simp only [insList]
    by_cases hx : x < a
    · rw [if_pos hx]
      cases t with
      | nil => simp [hx]
      | cons b t' =>
        obtain ⟨y, hy⟩ := getLast?_exists_of_cons b t'
        have hxy : x < y := lt_trans hx (s.1 y (mem_of_getLast?_eq hy))
        rw [getLast?_cons_ne_nil (by simp), getLast?_cons_ne_nil (by simp), hy]
        simp [hxy]
    · rw [if_neg hx]
      rw [getLast?_cons_ne_nil (insList_ne_nil x t), ih s.2]
      cases t with
      | nil => simp [hx]
      | cons b t' => rw [List.getLast?_cons_cons]

theorem sorted_head_getLast {l : List α} (s : l.Sorted (· < ·)) {a b : α}
    (ha : l.head? = some a) (hb : l.getLast? = some b) : a = b ∨ a < b := by
  cases l with
  | nil => simp at ha
  | cons c t =>
    rw [List.head?_cons, Option.some_inj] at ha
    subst ha
    cases t with
    | nil =>
      rw [show (c :: ([] : List α)).getLast? = some c by simp, Option.some_inj] at hb
      exact Or.inl hb
    | cons d t' =>
      rw [getLast?_cons_ne_nil (by simp)] at hb
      exact Or.inr ((List.sorted_cons.1 s).1 b (mem_of_getLast?_eq hb))

theorem engineFind_some {x : α} {t : Tree α} {w : α} (h : engineFind x t = some w) :
    w = x := by
  induction t with
  | nil => simp [engineFind] at h
  | node l v hh r ihl ihr =>
    simp only [engineFind] at h
    split at h
    · split at h
      · exact ihl h
      · exact ihr h
    · next hne =>
      injection h with h2
      exact h2 ▸ not_not.1 hne

theorem engineFind_isSome_iff {x : α} {t : Tree α} (ho : Ordered t) :
    (engineFind x t).isSome = true ↔ x ∈ inorder t := by
  induction t with
  | nil => simp [engineFind, inorder]
  | node l v h r ihl ihr =>
    obtain ⟨hlv, hrv, hol, hor⟩ := ordered_node_iff.1 ho
    simp only [engineFind, inorder_node]
    split
    · next hne =>
      split
      · next hlt =>
        rw [ihl hol]
        constructor
        · intro hm
          simp [hm]
        · intro hm
          rcases List.mem_append.1 hm with hm | hm
          · exact hm
          · rcases List.mem_cons.1 hm with rfl | hm
            · exact absurd rfl hne
            · exact absurd (hrv x hm) (lt_asymm hlt)
      · next hge =>
        rw [ihr hor]
        constructor
        · intro hm
          simp [hm]
        · intro hm
          rcases List.mem_append.1 hm with hm | hm
          · exact absurd (hlv x hm) hge
          · rcases List.mem_cons.1 hm with rfl | hm
            · exact absurd rfl hne
            · exact hm
    · next hne =>
      have hv : v = x := not_not.1 hne
      subst hv
      simp

theorem balanceNode_id_of_avl {t : Tree α} (ht : HtOk t) (bt : AvlBal t) :
    balanceNode t = t := by
  cases t with
  | nil => rfl
  | node l v h r =>
    obtain ⟨hh, hl, hr⟩ := htOk_node_iff.1 ht
    obtain ⟨b1, b2, bl, br⟩ := avlBal_node_iff.1 bt
    simp only [balanceNode]
    rw [if_neg, if_neg] <;>
      rw [balanceFactor_node, cachedHt_eq_realH hl, cachedHt_eq_realH hr] <;> omega

theorem erase_head_eq {l : List α} {x : α} (hx : l.head? = some x) :
    (l.erase x).head? = l[1]? := by
  cases l with
  | nil => simp at hx
  | cons a t =>
    rw [List.head?_cons, Option.some_inj] at hx
    subst hx
    rw [List.erase_cons_head]
    cases t <;> simp

theorem erase_head_ne {l : List α} {a x : α} (ha : l.head? = some a) (hne : a ≠ x) :
    (l.erase x).head? = some a := by
  cases l with
  | nil => simp at ha
  | cons b t =>
    rw [List.head?_cons, Option.some_inj] at ha
    subst ha
    have he : (b :: t).erase x = b :: t.erase x := by
      rw [List.erase_cons_tail]
      simp [hne]
    rw [he, List.head?_cons]

theorem erase_getLast_ne {l : List α} {y x : α} (hy : l.getLast? = some y) (hne : y ≠ x) :
    (l.erase x).getLast? = some y := by
  induction l with
  | nil => simp at hy
  | cons a t ih =>
    by_cases hax : a = x
    · subst hax
      rw [List.erase_cons_head]
      cases t with
      | nil =>
        rw [show (a :: ([] : List α)).getLast? = some a by simp, Option.some_inj] at hy
        exact absurd hy.symm hne
      | cons b t' =>
        rw [getLast?_cons_ne_nil (by simp)] at hy
        exact hy
    · have he : (a :: t).erase x = a :: t.erase x := by
        rw [List.erase_cons_tail]
        simp [hax]
      rw [he]
      cases t with
      | nil =>
        simp only [List.erase_nil]
        exact hy
      | cons b t' =>
        have hyt : (b :: t').getLast? = some y := by
          rw [getLast?_cons_ne_nil (by simp)] at hy
          exact hy
        have hrec := ih hyt
        have hne2 : (b :: t').erase x ≠ [] := by
          intro he2
          rw [he2] at hrec
          simp at hrec
        rw [getLast?_cons_ne_nil hne2, hrec]

theorem erase_getLast_eq {l : List α} {x : α} (hlen : 2 ≤ l.length) (hnd : l.Nodup)
    (hx : l.getLast? = some x) : (l.erase x).getLast? = l[l.length - 2]? := by
  induction l with
  | nil => simp at hlen
  | cons a t ih =>
    cases t with
    | nil => simp at hlen
    | cons b t' =>
      have hxt : (b :: t').getLast? = some x := by
        rw [getLast?_cons_ne_nil (by simp)] at hx
        exact hx
      have hax : a ≠ x := by
        intro he
        subst he
        exact (List.nodup_cons.1 hnd).1 (mem_of_getLast?_eq hxt)
      have he : (a :: b :: t').erase x = a :: (b :: t').erase x := by
        rw [List.erase_cons_tail]
        simp [hax]
      rw [he]
      cases t' with
      | nil =>
        have hbx : b = x := by
          rw [show (b :: ([] : List α)).getLast? = some b by simp, Option.some_inj] at hxt
          exact hxt
        subst hbx
        rw [List.erase_cons_head]
        simp
      | cons c t'' =>
        have ihr := ih (by simp) (List.nodup_cons.1 hnd).2 hxt
        have hne2 : (b :: c :: t'').erase x ≠ [] := by
          intro hee
          rw [hee] at ihr
          have hsome : (b :: c :: t'')[(b :: c :: t'').length - 2]?.isSome := by
            rw [List.getElem?_eq_getElem (by simp; omega)]
            rfl
          rw [← ihr] at hsome
          simp at hsome
        rw [getLast?_cons_ne_nil hne2, ihr,
          show (a :: b :: c :: t'').length - 2 = ((b :: c :: t'').length - 2) + 1 by
            simp,
          List.getElem?_cons_succ]

theorem size_eq_zero_iff {t : Tree α} : size t = 0 ↔ t = nil := by
  cases t with
  | nil => simp [size]
  | node l v h r => simp [size]

end Tree

open Tree

variable {β : Type} [LinearOrder β]

theorem mem_of_head?_eq {β : Type} {l : List β} {a : β} (h : l.head? = some a) : a ∈ l := by
  cases l with
  | nil => simp at h
  | cons b t =>
    rw [List.head?_cons, Option.some_inj] at h
    exact h ▸ List.mem_cons_self b t

theorem inv_emptySt : Inv (emptySt : FacadeSt β) :=
  ⟨trivial, trivial, trivial, rfl, rfl, rfl⟩

theorem inv_fclear (s : FacadeSt β) : Inv (fclear s) := inv_emptySt

/-- Under the invariant, the engine's `erase(value)` on a tree that contains
the value (and has more than one node) is the erase descent. -/
theorem engineEraseS_eq {x : β} (e : EngineSt β) (ho : Ordered e.root)
    (ht : HtOk e.root) (bt : AvlBal e.root) (hx : x ∈ inorder e.root)
    (hn : e.count ≠ 1) :
    engineEraseS x e = ⟨eraseGo x e.root, e.count - 1⟩ := by
  obtain ⟨t, n⟩ := e
  have hfind : (engineFind x t).isSome = true := (engineFind_isSome_iff ho).2 hx
  cases hf : engineFind x t with
  | none =>
    rw [hf] at hfind
    simp at hfind
  | some w =>
    cases t with
    | nil => simp [inorder] at hx
    | node l v h r =>
      simp only [engineEraseS, hf]
      rw [if_neg hn]
      split
      · next hc =>
        obtain ⟨hvx, hchild⟩ := hc
        subst hvx
        obtain ⟨e1, e2, e3⟩ := eraseHere_avl (node l v h r) ht bt
        rw [show eraseGo v (node l v h r) = eraseHere (node l v h r) by
            simp [eraseGo], balanceNode_id_of_avl e1 e2]
      · rfl

theorem finsert_dup {x : β} {s : FacadeSt β} {w : β} (hf : ffind x s = some w) :
    finsert x s = (s, w, false) := by
  simp only [finsert, hf]

theorem inv_finsert (x : β) (s : FacadeSt β) (hI : Inv s) : Inv (finsert x s).1 := by
  obtain ⟨ho, ht, hb, hc, hL, hR⟩ := hI
  cases hf : ffind x s with
  | some w =>
    rw [finsert_dup hf]
    exact ⟨ho, ht, hb, hc, hL, hR⟩
  | none =>
    have hxmem : x ∉ inorder s.base.root := by
      intro hm
      have h2 := (engineFind_isSome_iff ho).2 hm
      rw [show engineFind x s.base.root = ffind x s from rfl, hf] at h2
      simp at h2
    simp only [finsert, hf]
    by_cases hc0 : s.base.count = 0
    · rw [if_pos hc0]
      refine ⟨ordered_node_iff.2 ⟨by simp [inorder], by simp [inorder], trivial, trivial⟩,
        htOk_node_iff.2 ⟨by simp [realH_nil], trivial, trivial⟩,
        avlBal_node_iff.2 ⟨by simp [realH_nil], by simp [realH_nil], trivial, trivial⟩,
        by simp [size], rfl, ?_⟩
      rw [show inorder (node Tree.nil x 1 Tree.nil) = [x] from rfl]
      simp
    · rw [if_neg hc0]
      have hroot : s.base.root ≠ Tree.nil := by
        intro he
        rw [he] at hc
        exact hc0 (by rw [hc]; rfl)
      obtain ⟨a, rest, hio⟩ : ∃ a rest, inorder s.base.root = a :: rest := by
        cases hio : inorder s.base.root with
        | nil => exact absurd (inorder_eq_nil_iff.1 hio) hroot
        | cons a rest => exact ⟨a, rest, rfl⟩
      have hLs : s.hdrLeft = some a := by rw [hL, hio]; rfl
      obtain ⟨g, hg⟩ := getLast?_exists_of_cons a rest
      have hgl : (inorder s.base.root).getLast? = some g := by rw [hio]; exact hg
      have hRs : s.hdrRight = some g := by rw [hR]; exact hgl
      have hsorted : (inorder s.base.root).Sorted (· < ·) := sorted_inorder_iff.2 ho
      have hag : a = g ∨ a < g :=
        sorted_head_getLast hsorted (by rw [hio]; rfl) hgl
      obtain ⟨i1, i2, i3⟩ := engineInsert_avl x s.base.root ht hb
      have hor' := ordered_engineInsert ho hxmem
      have hioIns := inorder_engineInsert x s.base.root ho
      have hsize : size (engineInsert x s.base.root) = size s.base.root + 1 := by
        rw [← length_inorder, ← length_inorder, hioIns, length_insList]
      have hhead := head?_insList x (inorder s.base.root)
      have hlast := getLast?_insList x (inorder s.base.root) hsorted
      have hxa : x ≠ a := fun he => hxmem (by rw [hio, he]; simp)
      have hxg : x ≠ g := fun he => hxmem (he ▸ mem_of_getLast?_eq hgl)
      simp only [hLs, hRs]
      split
      · next hxlt =>
        have hxltg : x < g := by
          rcases hag with rfl | hlt
          · exact hxlt
          · exact lt_trans hxlt hlt
        refine ⟨hor', i1, i2, ?_, ?_, ?_⟩
        · show s.base.count + 1 = size (engineInsert x s.base.root)
          rw [hsize, hc]
        · show some x = (inorder (engineInsert x s.base.root)).head?
          rw [hioIns, hhead, hio]
          simp [hxlt]
        · show some g = (inorder (engineInsert x s.base.root)).getLast?
          rw [hioIns, hlast, hgl]
          simp [hxltg]
      · next hxge =>
        split
        · next hgx =>
          refine ⟨hor', i1, i2, ?_, ?_, ?_⟩
          · show s.base.count + 1 = size (engineInsert x s.base.root)
            rw [hsize, hc]
          · show some a = (inorder (engineInsert x s.base.root)).head?
            rw [hioIns, hhead, hio]
            simp [hxge]
          · show some x = (inorder (engineInsert x s.base.root)).getLast?
            rw [hioIns, hlast, hgl]
            simp [lt_asymm hgx]
        · next hgx =>
          have hxltg : x < g := lt_of_le_of_ne (not_lt.1 hgx) hxg
          refine ⟨hor', i1, i2, ?_, ?_, ?_⟩
          · show s.base.count + 1 = size (engineInsert x s.base.root)
            rw [hsize, hc]
          · show some a = (inorder (engineInsert x s.base.root)).head?
            rw [hioIns, hhead, hio]
            simp [hxge]
          · show some g = (inorder (engineInsert x s.base.root)).getLast?
            rw [hioIns, hlast, hgl]
            simp [hxltg]

theorem inv_ferasePos {x : β} {s : FacadeSt β} (hI : Inv s)
    (hx : x ∈ inorder s.base.root) : Inv (ferasePos x s) := by
  obtain ⟨ho, ht, hb, hc, hL, hR⟩ := hI
  simp only [ferasePos]
  split
  · exact inv_emptySt
  · next hn =>
    have hsorted : (inorder s.base.root).Sorted (· < ·) := sorted_inorder_iff.2 ho
    have hcl : s.base.count = (inorder s.base.root).length := by
      rw [hc]
      exact (length_inorder _).symm
    have hlen1 : 1 ≤ (inorder s.base.root).length := by
      cases hio2 : inorder s.base.root with
      | nil =>
        rw [hio2] at hx
        simp at hx
      | cons a t => simp
    have hsz2 : 2 ≤ (inorder s.base.root).length := by omega
    obtain ⟨a, rest, hio⟩ : ∃ a rest, inorder s.base.root = a :: rest := by
      cases hio : inorder s.base.root with
      | nil =>
        rw [hio] at hx
        simp at hx
      | cons a rest => exact ⟨a, rest, rfl⟩
    obtain ⟨g, hg⟩ := getLast?_exists_of_cons a rest
    have hgl : (inorder s.base.root).getLast? = some g := by rw [hio]; exact hg
    rw [engineEraseS_eq s.base ho ht hb hx hn]
    obtain ⟨e1, e2, e3⟩ := eraseGo_avl x s.base.root ht hb
    refine ⟨ordered_eraseGo ho, e1, e2, ?_, ?_, ?_⟩
    · show s.base.count - 1 = size (eraseGo x s.base.root)
      rw [← length_inorder, inorder_eraseGo x _ ho, hcl]
      have := List.length_erase_add_one hx
      omega
    · show _ = (inorder (eraseGo x s.base.root)).head?
      rw [inorder_eraseGo x _ ho]
      by_cases hmin : s.hdrLeft = some x
      · rw [if_pos hmin]
        exact (erase_head_eq (by rw [← hL]; exact hmin)).symm
      · rw [if_neg hmin]
        have hLa : s.hdrLeft = some a := by rw [hL, hio]; rfl
        have hax : a ≠ x := fun he => hmin (by rw [hLa, he])
        rw [hLa]
        exact (erase_head_ne (by rw [hio]; rfl) hax).symm
    · show _ = (inorder (eraseGo x s.base.root)).getLast?
      rw [inorder_eraseGo x _ ho]
      by_cases hcond : s.hdrLeft ≠ some x ∧ s.hdrRight = some x
      · rw [if_pos hcond]
        exact (erase_getLast_eq hsz2 hsorted.nodup (by rw [← hR]; exact hcond.2)).symm
      · rw [if_neg hcond]
        have hRg : s.hdrRight = some g := by rw [hR]; exact hgl
        have hgx : g ≠ x := by
          intro he
          have hLx : s.hdrLeft = some x := by
            by_contra hne
            exact hcond ⟨hne, by rw [hRg, he]⟩
          have hax : a = x := by
            have h2 : (a :: rest).head? = some x := by rw [← hio, ← hL]; exact hLx
            rw [List.head?_cons, Option.some_inj] at h2
            exact h2
          have hrest : rest ≠ [] := by
            intro hre
            rw [hio, hre] at hcl
            simp at hcl
            omega
          have hxrest : x ∈ rest := by
            rw [getLast?_cons_ne_nil hrest] at hg
            exact he ▸ mem_of_getLast?_eq hg
          rw [hio] at hsorted
          rw [List.sorted_cons] at hsorted
          exact lt_irrefl x (hax ▸ hsorted.1 x hxrest)
        rw [hRg]
        exact (erase_getLast_ne hgl hgx).symm

theorem inv_ferase (x : β) (s : FacadeSt β) (hI : Inv s) : Inv (ferase x s) := by
  cases hf : ffind x s with
  | none =>
    simp only [ferase, hf]
    exact hI
  | some w =>
    simp only [ferase, hf]
    refine inv_ferasePos hI ?_
    have : (engineFind x s.base.root).isSome = true := by
      rw [show engineFind x s.base.root = ffind x s from rfl, hf]
      rfl
    exact (engineFind_isSome_iff hI.1).1 this

theorem inv_feraseSmallest (s : FacadeSt β) (hI : Inv s) : Inv (feraseSmallest s) := by
  cases hm : s.hdrLeft with
  | none =>
    simp only [feraseSmallest, hm]
    exact hI
  | some m =>
    simp only [feraseSmallest, hm]
    refine inv_ferasePos hI ?_
    have := hI.2.2.2.2.1
    rw [hm] at this
    exact mem_of_head?_eq this.symm

theorem inv_feraseLargest (s : FacadeSt β) (hI : Inv s) : Inv (feraseLargest s) := by
  cases hm : s.hdrRight with
  | none =>
    simp only [feraseLargest, hm]
    exact hI
  | some m =>
    simp only [feraseLargest, hm]
    refine inv_ferasePos hI ?_
    have := hI.2.2.2.2.2
    rw [hm] at this
    exact mem_of_getLast?_eq this.symm

theorem inv_applyOp (op : Op β) (s : FacadeSt β) (hI : Inv s) : Inv (applyOp op s) := by
  cases op with
  | insOp x => exact inv_finsert x s hI
  | delOp x => exact inv_ferase x s hI
  | delMinOp => exact inv_feraseSmallest s hI
  | delMaxOp => exact inv_feraseLargest s hI
  | clearOp => exact inv_fclear s

theorem inv_foldl (ops : List (Op β)) (s : FacadeSt β) (hI : Inv s) :
    Inv (ops.foldl (fun s op => applyOp op s) s) := by
  induction ops generalizing s with
  | nil => exact hI
  | cons op rest ih => exact ih _ (inv_applyOp op s hI)

/-- Every state reachable by public operations satisfies the data-model
invariant. -/
theorem inv_runOps (ops : List (Op β)) : Inv (runOps ops) :=
  inv_foldl ops emptySt inv_emptySt

theorem size_balanceNode (t : Tree β) : size (balanceNode t) = size t := by
  rw [← length_inorder, ← length_inorder, inorder_balanceNode]

theorem size_engineInsert (x : β) (t : Tree β) :
    size (engineInsert x t) = size t + 1 := by
  induction t with
  | nil => rfl
  | node l v h r ihl ihr =>
    simp only [engineInsert]
    split <;>
      rw [size_balanceNode, show ∀ a b : Tree β,
        size (mkNode a v b) = size a + size b + 1 from fun a b => rfl] <;>
      simp only [size, ihl, ihr] <;> omega

/-- Shared helper: inserting a value that is already present returns the
existing position with `false` and leaves the whole facade state untouched. -/
theorem finsert_duplicate_noop (s : FacadeSt β) (x : β) (hI : Inv s)
    (hx : x ∈ inorder s.base.root) : finsert x s = (s, x, false) := by
  have hsome : (engineFind x s.base.root).isSome = true :=
    (engineFind_isSome_iff hI.1).2 hx
  cases hf : engineFind x s.base.root with
  | none =>
    rw [hf] at hsome
    simp at hsome
  | some w =>
    have hw : w = x := engineFind_some hf
    subst hw
    exact finsert_dup hf

/-- Shared helper: the value just inserted is in the resulting tree. -/
theorem finsert_mem (x : β) (s : FacadeSt β) (hI : Inv s) :
    x ∈ inorder (finsert x s).1.base.root := by
  cases hf : ffind x s with
  | some w =>
    rw [finsert_dup hf]
    have hw : w = x := engineFind_some (show engineFind x s.base.root = some w from hf)
    subst hw
    exact (engineFind_isSome_iff hI.1).1 (by
      rw [show engineFind w s.base.root = ffind w s from rfl, hf]
      rfl)
  | none =>
    have hmem2 : x ∈ inorder (engineInsert x s.base.root) := by
      rw [inorder_engineInsert x _ hI.1]
      exact mem_insList.2 (Or.inl rfl)
    simp only [finsert, hf]
    by_cases hc0 : s.base.count = 0
    · rw [if_pos hc0]
      show x ∈ inorder (node Tree.nil x 1 Tree.nil)
      simp [inorder_node, inorder]
    · rw [if_neg hc0]
      split
      · split
        · exact hmem2
        · split
          · exact hmem2
          · exact hmem2
      · exact hmem2

/-- Shared helper: erasing an absent value is a no-op. -/
theorem ferase_absent_noop (s : FacadeSt β) (x : β) (hI : Inv s)
    (hx : x ∉ inorder s.base.root) : ferase x s = s := by
  cases hf : ffind x s with
  | none => simp only [ferase, hf]
  | some w =>
    exact absurd ((engineFind_isSome_iff hI.1).1 (by
      rw [show engineFind x s.base.root = ffind x s from rfl, hf]
      rfl)) hx

theorem head_ne_getLast_of_two {l : List β} (so : l.Sorted (· < ·)) (h2 : 2 ≤ l.length)
    {a g : β} (ha : l.head? = some a) (hg : l.getLast? = some g) : a ≠ g ∧ a < g := by
  cases l with
  | nil => simp at ha
  | cons c t =>
    rw [List.head?_cons, Option.some_inj] at ha
    subst ha
    cases t with
    | nil => simp at h2
    | cons d t' =>
      rw [getLast?_cons_ne_nil (by simp)] at hg
      have hlt := (List.sorted_cons.1 so).1 g (mem_of_getLast?_eq hg)
      exact ⟨ne_of_lt hlt, hlt⟩

/-- C2: after every sequence of public mutating operations (insert, erase,
erase_smallest, erase_largest, clear) starting from a fresh tree, every
reachable node satisfies the AVL balance property `|height(left) −
height(right)| ≤ 1` (a null child contributing height 0), and every node's
cached `height_` field equals `1 + max(height(left), height(right))`. -/
theorem C2_avl_invariant {β : Type} [LinearOrder β] (ops : List (Op β)) :
    AvlBal (runOps ops).base.root ∧ HtOk (runOps ops).base.root :=
  ⟨(inv_runOps ops).2.2.1, (inv_runOps ops).2.1⟩

/-- C3: inserting a value already present returns the existing position
(carrying an equal value) with `inserted = false`, and mutates nothing: the
whole facade state — node structure, heights, `number_of_nodes_`, and the
cached minimum/maximum boundary links — is exactly the state before the
call. -/
theorem C3_duplicate_insert (s : FacadeSt β) (x : β) (hI : Inv s)
    (hx : x ∈ inorder s.base.root) : finsert x s = (s, x, false) :=
  finsert_duplicate_noop s x hI hx

/-- C5: `find` returns a position holding a value equal to the needle exactly
when the needle is stored (and null/`end()` otherwise); any value it returns
equals the needle; the descent goes left exactly when `compare(x, current)`
holds and right otherwise; and `insert(x)` followed by `find(x)` yields a
position whose value equals `x`. -/
theorem C5_find_correct {β : Type} [LinearOrder β] :
    (∀ (t : Tree β) (x : β), Ordered t →
      (((engineFind x t).isSome = true) ↔ x ∈ inorder t)) ∧
    (∀ (t : Tree β) (x w : β), engineFind x t = some w → w = x) ∧
    (∀ (l r : Tree β) (v x : β) (h : Int), v ≠ x →
      engineFind x (node l v h r) = if x < v then engineFind x l else engineFind x r) ∧
    (∀ (s : FacadeSt β) (x : β), Inv s → ffind x (finsert x s).1 = some x) := by
  refine ⟨fun t x ho => engineFind_isSome_iff ho,
    fun t x w h => engineFind_some h,
    fun l r v x h hne => by simp [engineFind, hne],
    fun s x hI => ?_⟩
  have hI' := inv_finsert x s hI
  have hmem := finsert_mem x s hI
  have hsome : (engineFind x (finsert x s).1.base.root).isSome = true :=
    (engineFind_isSome_iff hI'.1).2 hmem
  cases hf : engineFind x (finsert x s).1.base.root with
  | none =>
    rw [hf] at hsome
    simp at hsome
  | some w =>
    rw [show ffind x (finsert x s).1 =
      engineFind x (finsert x s).1.base.root from rfl, hf, engineFind_some hf]

/-- C6: between public operations the sentinel's left link is the tree's
minimum real node (the leftmost) and its right link the maximum (the
rightmost), both the sentinel itself (modelled `none`) exactly when the tree
is empty — so `*begin()` is the smallest stored value; and `erase_largest()`
on a tree of at least two elements leaves the sentinel's right link at the
second-largest previous value. -/
theorem C6_boundary_caching {β : Type} [LinearOrder β] :
    (∀ ops : List (Op β),
      (runOps ops).hdrLeft = treeMin (runOps ops).base.root ∧
      (runOps ops).hdrRight = treeMax (runOps ops).base.root ∧
      ((runOps ops).hdrLeft = none ↔ (runOps ops).base.root = Tree.nil) ∧
      ((runOps ops).hdrRight = none ↔ (runOps ops).base.root = Tree.nil)) ∧
    (∀ s : FacadeSt β, Inv s → 2 ≤ s.base.count →
      (feraseLargest s).hdrRight =
        (inorder s.base.root)[(inorder s.base.root).length - 2]?) := by
  constructor
  · intro ops
    obtain ⟨ho, ht, hb, hc, hL, hR⟩ := inv_runOps ops
    refine ⟨by rw [hL, treeMin_eq_head], by rw [hR, treeMax_eq_getLast], ?_, ?_⟩
    · rw [hL]
      cases hio : inorder (runOps ops).base.root with
      | nil => simp [inorder_eq_nil_iff.1 hio]
      | cons a t =>
        simp only [List.head?_cons]
        constructor
        · intro h2
          simp at h2
        · intro h2
          rw [h2] at hio
          simp [inorder] at hio
    · rw [hR]
      cases hio : inorder (runOps ops).base.root with
      | nil => simp [inorder_eq_nil_iff.1 hio]
      | cons a t =>
        obtain ⟨g, hg⟩ := getLast?_exists_of_cons a t
        rw [hg]
        constructor
        · intro h2
          simp at h2
        · intro h2
          rw [h2] at hio
          simp [inorder] at hio
  · intro s hI h2
    obtain ⟨ho, ht, hb, hc, hL, hR⟩ := hI
    have hsorted : (inorder s.base.root).Sorted (· < ·) := sorted_inorder_iff.2 ho
    have hlen : 2 ≤ (inorder s.base.root).length := by
      rw [length_inorder]
      omega
    obtain ⟨a, rest, hio⟩ : ∃ a rest, inorder s.base.root = a :: rest := by
      cases hio : inorder s.base.root with
      | nil =>
        rw [hio] at hlen
        simp at hlen
      | cons a rest => exact ⟨a, rest, rfl⟩
    obtain ⟨g, hg⟩ := getLast?_exists_of_cons a rest
    have hgl : (inorder s.base.root).getLast? = some g := by rw [hio]; exact hg
    have hRg : s.hdrRight = some g := by rw [hR]; exact hgl
    have hLa : s.hdrLeft = some a := by rw [hL, hio]; rfl
    obtain ⟨hne, _⟩ := head_ne_getLast_of_two hsorted hlen
      (show (inorder s.base.root).head? = some a by rw [hio]; rfl) hgl
    have hstep : feraseLargest s = ferasePos g s := by simp only [feraseLargest, hRg]
    rw [hstep]
    simp only [ferasePos]
    rw [if_neg (show ¬ s.base.count = 1 by omega)]
    show (if s.hdrLeft ≠ some g ∧ s.hdrRight = some g then
        (inorder s.base.root)[(inorder s.base.root).length - 2]? else s.hdrRight) = _
    rw [if_pos ⟨by rw [hLa]; intro he; exact hne (Option.some_inj.1 he), hRg⟩]

/-- C7: erase of an absent value, erase at `end()` (the header), and erase or
find on an empty tree leave the state exactly unchanged (`begin() == end()`
holds on the empty tree); and every public mutating call leaves the tree BST-
ordered, AVL-balanced, and with correct cached heights. -/
theorem C7_noop_atomicity {β : Type} [LinearOrder β] :
    (∀ (s : FacadeSt β) (x : β), Inv s → x ∉ inorder s.base.root → ferase x s = s) ∧
    (∀ x : β, ferase x (emptySt : FacadeSt β) = emptySt ∧
      ffind x (emptySt : FacadeSt β) = none) ∧
    (emptySt : FacadeSt β).hdrLeft = none ∧
    (∀ s : FacadeSt β, s.hdrLeft = none → feraseSmallest s = s) ∧
    (∀ s : FacadeSt β, s.hdrRight = none → feraseLargest s = s) ∧
    (∀ (op : Op β) (s : FacadeSt β), Inv s →
      Ordered (applyOp op s).base.root ∧ AvlBal (applyOp op s).base.root ∧
        HtOk (applyOp op s).base.root) := by
  refine ⟨ferase_absent_noop, fun x => ⟨?_, rfl⟩, rfl,
    fun s h => by simp only [feraseSmallest, h],
    fun s h => by simp only [feraseLargest, h],
    fun op s hI => ⟨(inv_applyOp op s hI).1, (inv_applyOp op s hI).2.2.1,
      (inv_applyOp op s hI).2.1⟩⟩
  have hf : ffind x (emptySt : FacadeSt β) = none := rfl
  simp only [ferase, hf]

/-- C10: the engine's `insert` links the node and increments
`number_of_nodes_` unconditionally — even when an equal value is already
stored, in which case the descent goes right — while duplicate rejection
happens solely in the facade's `insert`, which finds the existing element
first and returns it with `false`, leaving the state untouched (never calling
the engine). -/
theorem C10_engine_insert_unconditional {β : Type} [LinearOrder β] :
    (∀ (t : Tree β) (n : Nat) (x : β),
      (engineInsertS x ⟨t, n⟩).count = n + 1 ∧
      size (engineInsert x t) = size t + 1) ∧
    (∀ (l r : Tree β) (v : β) (h : Int),
      engineInsert v (node l v h r) = balanceNode (mkNode l v (engineInsert v r))) ∧
    (∀ (s : FacadeSt β) (x : β), Inv s → x ∈ inorder s.base.root →
      finsert x s = (s, x, false)) :=
  ⟨fun t n x => ⟨rfl, size_engineInsert x t⟩,
    fun l r v h => by simp [engineInsert],
    fun s x hI hx => finsert_duplicate_noop s x hI hx⟩

theorem C2_witness :
    AvlBal (runOps [Op.insOp (5:Int), Op.insOp 3, Op.insOp 8, Op.insOp 1,
      Op.delOp 5]).base.root ∧
    HtOk (runOps [Op.insOp (5:Int), Op.insOp 3, Op.insOp 8, Op.insOp 1,
      Op.delOp 5]).base.root :=
  C2_avl_invariant [Op.insOp (5:Int), Op.insOp 3, Op.insOp 8, Op.insOp 1, Op.delOp 5]

theorem C3_witness :
    (1:Int) ∈ inorder (runOps [Op.insOp (1:Int), Op.insOp 2]).base.root ∧
    finsert (1:Int) (runOps [Op.insOp (1:Int), Op.insOp 2]) =
      (runOps [Op.insOp (1:Int), Op.insOp 2], 1, false) :=
  ⟨by decide, C3_duplicate_insert _ 1 (inv_runOps _) (by decide)⟩

theorem C5_witness :
    ffind (5:Int) (finsert 5 (runOps [Op.insOp (3:Int)])).1 = some 5 :=
  C5_find_correct.2.2.2 _ 5 (inv_runOps _)

theorem C6_witness :
    2 ≤ (runOps [Op.insOp (10:Int), Op.insOp 20, Op.insOp 50]).base.count ∧
    (feraseLargest (runOps [Op.insOp (10:Int), Op.insOp 20, Op.insOp 50])).hdrRight =
      (inorder (runOps [Op.insOp (10:Int), Op.insOp 20, Op.insOp 50]).base.root)[
        (inorder (runOps [Op.insOp (10:Int), Op.insOp 20,
          Op.insOp 50]).base.root).length - 2]? ∧
    (inorder (runOps [Op.insOp (10:Int), Op.insOp 20, Op.insOp 50]).base.root)[
      (inorder (runOps [Op.insOp (10:Int), Op.insOp 20,
        Op.insOp 50]).base.root).length - 2]? = some 20 :=
  ⟨by decide, C6_boundary_caching.2 _ (inv_runOps _) (by decide), by decide⟩

theorem C7_witness :
    (7:Int) ∉ inorder (runOps [Op.insOp (1:Int)]).base.root ∧
    ferase (7:Int) (runOps [Op.insOp (1:Int)]) = runOps [Op.insOp (1:Int)] :=
  ⟨by decide, C7_noop_atomicity.1 _ 7 (inv_runOps _) (by decide)⟩

theorem C10_witness :
    size (engineInsert (2:Int) (runOps [Op.insOp (2:Int), Op.insOp 5]).base.root) =
      size (runOps [Op.insOp (2:Int), Op.insOp 5]).base.root + 1 ∧
    finsert (2:Int) (runOps [Op.insOp (2:Int), Op.insOp 5]) =
      (runOps [Op.insOp (2:Int), Op.insOp 5], 2, false) :=
  ⟨(C10_engine_insert_unconditional.1 _ 7 2).2,
    C10_engine_insert_unconditional.2.2 _ 2 (inv_runOps _) (by decide)⟩

namespace Heap

variable {α : Type}

end Heap

namespace Heap

variable {α : Type}

/-- C9: on a non-empty tree in its between-operations state — the minimum
node's `left_` threaded to the sentinel, the sentinel marked by its
self-parent loop — decrementing the iterator at `begin()` (the minimum node)
yields `end()` (the sentinel): the decrement follows the left thread and the
predecessor's `rightmost` walk stops at the sentinel immediately. -/
theorem C9_decrement_at_begin (h : Store α) (hdr m fuel : Nat)
    (hhdr : parentOf h hdr = some hdr)
    (hm : ¬ isPlaceholder h m)
    (hthread : leftOf h m = some hdr)
    (hfuel : 1 ≤ fuel) :
    avlTreeDecrement fuel h (some m) = some hdr := by
  obtain ⟨f, rfl⟩ : ∃ f, fuel = f + 1 := ⟨fuel - 1, by omega⟩
  simp only [avlTreeDecrement]
  rw [if_neg hm, if_pos (by rw [hthread]; rfl)]
  simp only [predecessorF, hthread]
  rw [if_neg (show ¬ ((some hdr : Option Nat) = none ∨ isPlaceholder h m) by
    simp [hm])]
  simp only [rightmostF]
  rw [if_pos (show isPlaceholder h hdr from hhdr)]

theorem C9_witness :
    avlTreeDecrement 1
      (fun j => if j = 0 then some (⟨some 1, some 1, some 0, (99:Int), 0⟩ : HNode Int)
        else if j = 1 then some ⟨some 0, some 0, none, 42, 1⟩ else none)
      (some 1) = some 0 :=
  C9_decrement_at_begin _ 0 1 1 (by decide) (by decide) (by decide) (by decide)

theorem hset_eq (h : Store α) (i : Nat) (nd : HNode α) : hset h i nd i = some nd := by
  simp [hset]

theorem hset_ne (h : Store α) (i j : Nat) (nd : HNode α) (hij : j ≠ i) :
    hset h i nd j = h j := by
  simp [hset, hij]

theorem uhs_at_ne (h : Store α) (i j : Nat) (hij : j ≠ i) :
    updateHeightStandalone h i j = h j := by
  unfold updateHeightStandalone
  cases hh : h i with
  | none => rfl
  | some nd => exact hset_ne h i j _ hij

theorem uhs_parentOf (h : Store α) (i j : Nat) :
    parentOf (updateHeightStandalone h i) j = parentOf h j := by
  by_cases hj : j = i
  · subst hj
    cases hh : h j with
    | none => simp [updateHeightStandalone, hh]
    | some nd => simp [updateHeightStandalone, parentOf, hset, hh]
  · cases hh : h i with
    | none => simp [updateHeightStandalone, hh]
    | some nd => simp [updateHeightStandalone, parentOf, hset, hh, hj]

theorem uhs_leftOf (h : Store α) (i j : Nat) :
    leftOf (updateHeightStandalone h i) j = leftOf h j := by
  by_cases hj : j = i
  · subst hj
    cases hh : h j with
    | none => simp [updateHeightStandalone, hh]
    | some nd => simp [updateHeightStandalone, leftOf, hset, hh]
  · cases hh : h i with
    | none => simp [updateHeightStandalone, hh]
    | some nd => simp [updateHeightStandalone, leftOf, hset, hh, hj]

theorem uhs_rightOf (h : Store α) (i j : Nat) :
    rightOf (updateHeightStandalone h i) j = rightOf h j := by
  by_cases hj : j = i
  · subst hj
    cases hh : h j with
    | none => simp [updateHeightStandalone, hh]
    | some nd => simp [updateHeightStandalone, rightOf, hset, hh]
  · cases hh : h i with
    | none => simp [updateHeightStandalone, hh]
    | some nd => simp [updateHeightStandalone, rightOf, hset, hh, hj]

theorem uhs_heightAt_ne (h : Store α) (i j : Nat) (hij : j ≠ i) :
    heightAt (updateHeightStandalone h i) j = heightAt h j := by
  unfold heightAt
  rw [uhs_at_ne h i j hij]

theorem uhs_heightOf_ne (h : Store α) (i : Nat) (p : Option Nat) (hp : p ≠ some i) :
    heightOf (updateHeightStandalone h i) p = heightOf h p := by
  cases p with
  | none => rfl
  | some j =>
    exact uhs_heightAt_ne h i j (fun he => hp (by rw [he]))

theorem uhs_heightAt_self (h : Store α) (i : Nat) (nd : HNode α) (hh : h i = some nd) :
    heightAt (updateHeightStandalone h i) i =
      1 + max (heightOf h nd.left) (heightOf h nd.right) := by
  simp [updateHeightStandalone, heightAt, hset, hh]

theorem leftOf_eq {h : Store α} {i : Nat} {nd : HNode α} (hh : h i = some nd) :
    leftOf h i = nd.left := by simp [leftOf, hh]

theorem rightOf_eq {h : Store α} {i : Nat} {nd : HNode α} (hh : h i = some nd) :
    rightOf h i = nd.right := by simp [rightOf, hh]

theorem parentOf_eq {h : Store α} {i : Nat} {nd : HNode α} (hh : h i = some nd) :
    parentOf h i = nd.parent := by simp [parentOf, hh]

theorem heightAt_eq {h : Store α} {i : Nat} {nd : HNode α} (hh : h i = some nd) :
    heightAt h i = nd.height := by simp [heightAt, hh]

theorem uhs_entry (h : Store α) (i a : Nat) (nd : HNode α) (hh : h a = some nd) :
    ∃ nd', updateHeightStandalone h i a = some nd' ∧ nd'.left = nd.left ∧
      nd'.right = nd.right ∧ nd'.parent = nd.parent ∧ nd'.value = nd.value := by
  by_cases ha : a = i
  · subst ha
    exact ⟨{ nd with height := 1 + max (heightOf h nd.left) (heightOf h nd.right) },
      by simp [updateHeightStandalone, hh, hset], rfl, rfl, rfl, rfl⟩
  · exact ⟨nd, by rw [uhs_at_ne h i a ha]; exact hh, rfl, rfl, rfl, rfl⟩

theorem locCons_uhs {h : Store α} {i d : Nat} (hd : LocCons h d) (hdi : d ≠ i)
    (hcl : leftOf h d ≠ some i) (hcr : rightOf h d ≠ some i) :
    LocCons (updateHeightStandalone h i) d := by
  obtain ⟨nd, hnd, hht⟩ := hd
  refine ⟨nd, by rw [uhs_at_ne h i d hdi]; exact hnd, ?_⟩
  rw [uhs_heightOf_ne h i nd.left (by rw [← leftOf_eq hnd]; exact hcl),
    uhs_heightOf_ne h i nd.right (by rw [← rightOf_eq hnd]; exact hcr)]
  exact hht

theorem chainup_uhs {h : Store α} {all : List Nat} {i : Nat} :
    ∀ {prev : Nat} {as : List Nat}, ChainUp h all prev as →
      ChainUp (updateHeightStandalone h i) all prev as := by
  intro prev as
  induction as generalizing prev with
  | nil => intro _; trivial
  | cons a rest ih =>
    intro hch
    obtain ⟨⟨nd, hnd, hpar, hside⟩, hrest⟩ := hch
    obtain ⟨nd', hnd', hl', hr', hp', hv'⟩ := uhs_entry h i a nd hnd
    refine ⟨⟨nd', hnd', by rw [hp']; exact hpar, ?_⟩, ih hrest⟩
    rcases hside with ⟨h1, h2⟩ | ⟨h1, h2⟩
    · exact Or.inl ⟨by rw [hl']; exact h1, by rw [hr']; exact h2⟩
    · exact Or.inr ⟨by rw [hr']; exact h1, by rw [hl']; exact h2⟩

theorem chainup_child_mem {h : Store α} {all : List Nat} :
    ∀ {prev : Nat} {as : List Nat}, ChainUp h all prev as →
      ∀ b ∈ as, ∀ c, (leftOf h b = some c ∨ rightOf h b = some c) →
        c ∈ prev :: as ∨ c ∉ all := by
  intro prev as
  induction as generalizing prev with
  | nil => intro _ b hb; simp at hb
  | cons a rest ih =>
    intro hch b hb c hc
    obtain ⟨⟨nd, hnd, hpar, hside⟩, hrest⟩ := hch
    rcases List.mem_cons.1 hb with rfl | hb
    · rw [leftOf_eq hnd, rightOf_eq hnd] at hc
      rcases hside with ⟨h1, h2⟩ | ⟨h1, h2⟩
      · rcases hc with hc | hc
        · rw [h1] at hc
          exact Or.inl (by simp [Option.some_inj.1 hc])
        · exact Or.inr (h2 c hc)
      · rcases hc with hc | hc
        · exact Or.inr (h2 c hc)
        · rw [h1] at hc
          exact Or.inl (by simp [Option.some_inj.1 hc])
    · rcases ih hrest b hb c hc with hm | hm
      · exact Or.inl (by
          rcases List.mem_cons.1 hm with rfl | hm
          · simp
          · simp [hm])
      · exact Or.inr hm

/-- Specification of the ancestor loop of `iterative_height_update`: under the
parent-chain invariant (finished prefix consistent, current head stale with
respect to the old height of its path child, deeper ancestors consistent),
after the loop every node of the walk is locally height-consistent; the early
stop is sound because an unchanged recomputed height makes the stale head
already consistent. -/
theorem ihuLoop_spec (all : List Nat) :
    ∀ (as done : List Nat) (prev : Nat) (h : Store α) (fuel : Nat)
      (pre post oldH : Int),
      as.length < fuel →
      all = done ++ prev :: as →
      all.Nodup →
      ChainUp h all prev as →
      (∀ d ∈ done ++ [prev], LocCons h d) →
      (∀ d ∈ done ++ [prev], ∀ c,
        (leftOf h d = some c ∨ rightOf h d = some c) → c ∉ as) →
      (∀ a, as.head? = some a → Stale h a prev oldH) →
      (∀ b ∈ as.tail, LocCons h b) →
      (pre = post → oldH = heightAt h prev) →
      ∀ d ∈ all, LocCons (ihuLoop fuel h as.head? pre post) d := by
  intro as
  induction as with
  | nil =>
    intro done prev h fuel pre post oldH hfuel hsplit hnodup hchain hdone hsafe hstale hrest hpp
    simp only [List.length_nil] at hfuel
    obtain ⟨f, rfl⟩ : ∃ f, fuel = f + 1 := ⟨fuel - 1, by omega⟩
    intro d hd
    show LocCons h d
    rw [hsplit] at hd
    rcases List.mem_append.1 hd with hd | hd
    · exact hdone d (List.mem_append_left [prev] hd)
    · exact hdone d (List.mem_append_right done hd)
  | cons a rest ih =>
    intro done prev h fuel pre post oldH hfuel hsplit hnodup hchain hdone hsafe hstale hrest hpp
    simp only [List.length_cons] at hfuel
    obtain ⟨f, rfl⟩ : ∃ f, fuel = f + 1 := ⟨fuel - 1, by omega⟩
    obtain ⟨⟨nd, hnd, hpar, hside⟩, hchrest⟩ := hchain
    have hnd2 := hnodup
    rw [hsplit] at hnd2
    obtain ⟨hndD, hndP, hdisj⟩ := List.nodup_append.1 hnd2
    have hprevA : prev ∉ a :: rest := (List.nodup_cons.1 hndP).1
    have haR : a ∉ rest := (List.nodup_cons.1 ((List.nodup_cons.1 hndP).2)).1
    have hprevNeA : prev ≠ a := fun he => hprevA (by rw [he]; exact List.mem_cons_self a rest)
    have haAll : a ∈ all := by rw [hsplit]; simp
    have haDone : a ∉ done ++ [prev] := by
      intro hmem
      rcases List.mem_append.1 hmem with hm | hm
      · exact hdisj hm (by simp)
      · rw [List.mem_singleton] at hm
        exact hprevNeA hm.symm
    have hRestAll : ∀ c, c ∈ rest → c ∈ all := fun c hc => by rw [hsplit]; simp [hc]
    by_cases hpp2 : pre = post
    · have hloop : ihuLoop (f + 1) h (a :: rest).head? pre post = h := by
        simp [ihuLoop, hpp2]
      rw [hloop]
      have hOld : oldH = heightAt h prev := hpp hpp2
      intro d hd
      rw [hsplit] at hd
      rcases List.mem_append.1 hd with hd | hd
      · exact hdone d (List.mem_append_left [prev] hd)
      · rcases List.mem_cons.1 hd with rfl | hd
        · exact hdone d (List.mem_append_right done (List.mem_singleton.2 rfl))
        · rcases List.mem_cons.1 hd with rfl | hd
          · obtain ⟨nda, hnda, hsidea⟩ := hstale d rfl
            rcases hsidea with ⟨h1, hh⟩ | ⟨h1, hh⟩
            · refine ⟨nda, hnda, ?_⟩
              rw [h1]
              show nda.height = 1 + max (heightAt h prev) (heightOf h nda.right)
              rw [← hOld]
              exact hh
            · refine ⟨nda, hnda, ?_⟩
              rw [h1]
              show nda.height = 1 + max (heightOf h nda.left) (heightAt h prev)
              rw [← hOld]
              exact hh
          · exact hrest d hd
    · have hloop : ihuLoop (f + 1) h (a :: rest).head? pre post =
          ihuLoop f (updateHeightStandalone h a)
            (parentOf (updateHeightStandalone h a) a)
            (heightAt h a) (heightAt (updateHeightStandalone h a) a) := by
        simp [ihuLoop, hpp2]
      rw [hloop, uhs_parentOf h a a, parentOf_eq hnd, hpar]
      have hLne : nd.left ≠ some a ∧ nd.right ≠ some a := by
        rcases hside with ⟨h1, h2off⟩ | ⟨h1, h2off⟩
        · exact ⟨by rw [h1]; exact fun he => hprevNeA (Option.some_inj.1 he),
            fun he => (h2off a he) haAll⟩
        · exact ⟨fun he => (h2off a he) haAll,
            by rw [h1]; exact fun he => hprevNeA (Option.some_inj.1 he)⟩
      refine ih (done ++ [prev]) a (updateHeightStandalone h a) f
        (heightAt h a) (heightAt (updateHeightStandalone h a) a) (heightAt h a)
        (by omega) (by rw [hsplit]; simp) hnodup (chainup_uhs hchrest)
        ?_ ?_ ?_ ?_ (fun he => he)
      · intro d hd
        rcases List.mem_append.1 hd with hd | hd
        · have hdne : d ≠ a := fun he => haDone (he ▸ hd)
          refine locCons_uhs (hdone d hd) hdne ?_ ?_
          · exact fun he => (hsafe d hd a (Or.inl he)) (List.mem_cons_self a rest)
          · exact fun he => (hsafe d hd a (Or.inr he)) (List.mem_cons_self a rest)
        · rw [List.mem_singleton] at hd
          rw [hd]
          refine ⟨{ nd with height := 1 + max (heightOf h nd.left) (heightOf h nd.right) },
            by simp [updateHeightStandalone, hnd, hset], ?_⟩
          show 1 + max (heightOf h nd.left) (heightOf h nd.right) =
            1 + max (heightOf (updateHeightStandalone h a) nd.left)
              (heightOf (updateHeightStandalone h a) nd.right)
          rw [uhs_heightOf_ne h a nd.left hLne.1, uhs_heightOf_ne h a nd.right hLne.2]
      · intro d hd c hc
        rw [uhs_leftOf, uhs_rightOf] at hc
        rcases List.mem_append.1 hd with hd | hd
        · exact fun hcr => (hsafe d hd c hc) (List.mem_cons_of_mem a hcr)
        · rw [List.mem_singleton] at hd
          rw [hd] at hc
          rw [leftOf_eq hnd, rightOf_eq hnd] at hc
          rcases hside with ⟨h1, h2off⟩ | ⟨h1, h2off⟩
          · rcases hc with hc | hc
            · rw [h1] at hc
              have hpc : prev = c := Option.some_inj.1 hc
              subst hpc
              exact fun hcr => hprevA (List.mem_cons_of_mem a hcr)
            · exact fun hcr => (h2off c hc) (hRestAll c hcr)
          · rcases hc with hc | hc
            · exact fun hcr => (h2off c hc) (hRestAll c hcr)
            · rw [h1] at hc
              have hpc : prev = c := Option.some_inj.1 hc
              subst hpc
              exact fun hcr => hprevA (List.mem_cons_of_mem a hcr)
      · intro b hb
        cases rest with
        | nil => exact absurd hb (by simp)
        | cons b0 rest2 =>
          rw [List.head?_cons, Option.some_inj] at hb
          subst hb
          obtain ⟨⟨ndb, hndb, hparb, hsideb⟩, hchrest2⟩ := hchrest
          obtain ⟨ndb2, hndb2, hhtb⟩ := hrest b0 (List.mem_cons_self b0 rest2)
          rw [hndb] at hndb2
          have heq : ndb = ndb2 := Option.some_inj.1 hndb2
          rw [← heq] at hhtb
          have hbne : b0 ≠ a := fun he => haR (by rw [← he]; exact List.mem_cons_self b0 rest2)
          refine ⟨ndb, by rw [uhs_at_ne h a b0 hbne]; exact hndb, ?_⟩
          rcases hsideb with ⟨h1, h2off⟩ | ⟨h1, h2off⟩
          · refine Or.inl ⟨h1, ?_⟩
            rw [uhs_heightOf_ne h a ndb.right (fun he => (h2off a he) haAll)]
            rw [hhtb, h1]
            rfl
          · refine Or.inr ⟨h1, ?_⟩
            rw [uhs_heightOf_ne h a ndb.left (fun he => (h2off a he) haAll)]
            rw [hhtb, h1]
            rfl
      · intro b hb
        cases rest with
        | nil => exact absurd hb (by simp)
        | cons b0 rest2 =>
          obtain ⟨⟨ndb, hndb, hparb, hsideb⟩, hchrest2⟩ := hchrest
          rw [List.tail_cons] at hb
          have hbR : b ∈ b0 :: rest2 := List.mem_cons_of_mem b0 hb
          have hbA : b ≠ a := fun he => haR (by rw [← he]; exact hbR)
          refine locCons_uhs (hrest b hbR) hbA ?_ ?_
          · intro he
            rcases chainup_child_mem hchrest2 b hb a (Or.inl he) with hm | hm
            · exact haR hm
            · exact hm haAll
          · intro he
            rcases chainup_child_mem hchrest2 b hb a (Or.inr he) with hm | hm
            · exact haR hm
            · exact hm haAll

/-- **C8.** `iterative_height_update` recomputes the node's height from its
direct children and then walks up through the parent links recomputing each
ancestor's height, stopping early once a recomputed height is unchanged.
Provided the ancestor chain is linked through parent pointers with its
off-path children outside the chain, the deeper ancestors' cached heights are
consistent with the current heap, and the first ancestor's cached height was
computed from some previous height of its path child, after the call the node
and every ancestor on the chain is locally height-consistent (cached height
`= 1 + max` of the children's heights) — in particular the early stop is
sound. -/
theorem C8_iterative_height_update (h : Store α) (n : Nat) (as : List Nat)
    (fuel : Nat) (nd : HNode α) (oldH : Int)
    (hfuel : as.length < fuel)
    (hn : h n = some nd)
    (hpar : nd.parent = as.head?)
    (hchildL : ∀ c, nd.left = some c → c ∉ n :: as)
    (hchildR : ∀ c, nd.right = some c → c ∉ n :: as)
    (hchain : ChainUp h (n :: as) n as)
    (hnodup : (n :: as).Nodup)
    (hstale : ∀ a, as.head? = some a → Stale h a n oldH)
    (hrest : ∀ b ∈ as.tail, LocCons h b) :
    ∀ d ∈ n :: as, LocCons (iterativeHeightUpdate fuel h n) d := by
  have hnAs : n ∉ as := (List.nodup_cons.1 hnodup).1
  have hl : nd.left ≠ some n := fun he => (hchildL n he) (List.mem_cons_self n as)
  have hr : nd.right ≠ some n := fun he => (hchildR n he) (List.mem_cons_self n as)
  unfold iterativeHeightUpdate
  rw [uhs_parentOf h n n, parentOf_eq hn, hpar]
  refine ihuLoop_spec (n :: as) as [] n (updateHeightStandalone h n) fuel (-1) 1 oldH
    hfuel rfl hnodup (chainup_uhs hchain) ?_ ?_ ?_ ?_ ?_
  · intro d hd
    rw [List.nil_append, List.mem_singleton] at hd
    rw [hd]
    refine ⟨{ nd with height := 1 + max (heightOf h nd.left) (heightOf h nd.right) },
      by simp [updateHeightStandalone, hn, hset], ?_⟩
    show 1 + max (heightOf h nd.left) (heightOf h nd.right) =
      1 + max (heightOf (updateHeightStandalone h n) nd.left)
        (heightOf (updateHeightStandalone h n) nd.right)
    rw [uhs_heightOf_ne h n nd.left hl, uhs_heightOf_ne h n nd.right hr]
  · intro d hd c hc
    rw [List.nil_append, List.mem_singleton] at hd
    rw [hd] at hc
    rw [uhs_leftOf, uhs_rightOf, leftOf_eq hn, rightOf_eq hn] at hc
    rcases hc with hc | hc
    · exact fun hcr => (hchildL c hc) (List.mem_cons_of_mem n hcr)
    · exact fun hcr => (hchildR c hc) (List.mem_cons_of_mem n hcr)
  · intro a ha
    cases as with
    | nil => exact absurd ha (by simp)
    | cons a0 r =>
      rw [List.head?_cons, Option.some_inj] at ha
      rw [← ha]
      obtain ⟨nda, hnda, hsidea⟩ := hstale a0 rfl
      obtain ⟨⟨ndc, hndc, hparc, hsidec⟩, hchr⟩ := hchain
      rw [hnda] at hndc
      have heq : nda = ndc := Option.some_inj.1 hndc
      rw [← heq] at hsidec
      have ha0As : a0 ∈ a0 :: r := List.mem_cons_self a0 r
      have hane : a0 ≠ n := fun he => hnAs (by rw [← he]; exact ha0As)
      have hnAllc : n ∈ n :: a0 :: r := List.mem_cons_self n (a0 :: r)
      refine ⟨nda, by rw [uhs_at_ne h n a0 hane]; exact hnda, ?_⟩
      rcases hsidea with ⟨h1, hh⟩ | ⟨h1, hh⟩
      · refine Or.inl ⟨h1, ?_⟩
        have hroff : nda.right ≠ some n := by
          rcases hsidec with ⟨hc1, hc2⟩ | ⟨hc1, hc2⟩
          · exact fun he => (hc2 n he) hnAllc
          · exact fun he => (hc2 n h1) hnAllc
        rw [uhs_heightOf_ne h n nda.right hroff]
        exact hh
      · refine Or.inr ⟨h1, ?_⟩
        have hloff : nda.left ≠ some n := by
          rcases hsidec with ⟨hc1, hc2⟩ | ⟨hc1, hc2⟩
          · exact fun he => (hc2 n h1) hnAllc
          · exact fun he => (hc2 n he) hnAllc
        rw [uhs_heightOf_ne h n nda.left hloff]
        exact hh
  · intro b hb
    cases as with
    | nil => exact absurd hb (by simp)
    | cons a0 r =>
      obtain ⟨⟨ndc, hndc, hparc, hsidec⟩, hchr⟩ := hchain
      rw [List.tail_cons] at hb
      have hbAs : b ∈ a0 :: r := List.mem_cons_of_mem a0 hb
      have hbne : b ≠ n := fun he => hnAs (by rw [← he]; exact hbAs)
      refine locCons_uhs (hrest b hb) hbne ?_ ?_
      · intro he
        rcases chainup_child_mem hchr b hb n (Or.inl he) with hm | hm
        · exact hnAs hm
        · exact hm (List.mem_cons_self n (a0 :: r))
      · intro he
        rcases chainup_child_mem hchr b hb n (Or.inr he) with hm | hm
        · exact hnAs hm
        · exact hm (List.mem_cons_self n (a0 :: r))
  · intro he
    exact absurd he (by decide)

theorem C8_witness :
    LocCons (iterativeHeightUpdate 2 c8Heap 1) 1 ∧
    LocCons (iterativeHeightUpdate 2 c8Heap 1) 2 := by
  have hmain := C8_iterative_height_update c8Heap 1 [2] 2 c8Node1 5
    (by decide) rfl rfl
    (fun c hc => by simp [c8Node1] at hc)
    (fun c hc => by simp [c8Node1] at hc)
    ⟨⟨c8Node2, rfl, rfl, Or.inl ⟨rfl, fun c hc => by simp [c8Node2] at hc⟩⟩, trivial⟩
    (by decide)
    (fun a ha => by
      rw [List.head?_cons, Option.some_inj] at ha
      rw [← ha]
      exact ⟨c8Node2, rfl, Or.inl ⟨rfl, by decide⟩⟩)
    (fun b hb => absurd hb (by simp))
  exact ⟨hmain 1 (by simp), hmain 2 (by simp)⟩

theorem setLeft_ne (h : Store α) (i : Nat) (p : Option Nat) (j : Nat) (hj : j ≠ i) :
    setLeft h i p j = h j := by
  unfold setLeft
  cases hh : h i with
  | none => rfl
  | some nd => exact hset_ne h i j _ hj

theorem setRight_ne (h : Store α) (i : Nat) (p : Option Nat) (j : Nat) (hj : j ≠ i) :
    setRight h i p j = h j := by
  unfold setRight
  cases hh : h i with
  | none => rfl
  | some nd => exact hset_ne h i j _ hj

theorem setParent_ne (h : Store α) (i : Nat) (p : Option Nat) (j : Nat) (hj : j ≠ i) :
    setParent h i p j = h j := by
  unfold setParent
  cases hh : h i with
  | none => rfl
  | some nd => exact hset_ne h i j _ hj

theorem leftOf_setLeft_self (h : Store α) (i : Nat) (p : Option Nat) (nd : HNode α)
    (hh : h i = some nd) : leftOf (setLeft h i p) i = p := by
  simp [setLeft, leftOf, hset, hh]

theorem rightOf_setRight_self (h : Store α) (i : Nat) (p : Option Nat) (nd : HNode α)
    (hh : h i = some nd) : rightOf (setRight h i p) i = p := by
  simp [setRight, rightOf, hset, hh]

theorem parentOf_setParent_self (h : Store α) (i : Nat) (p : Option Nat) (nd : HNode α)
    (hh : h i = some nd) : parentOf (setParent h i p) i = p := by
  simp [setParent, parentOf, hset, hh]

theorem rightOf_setLeft (h : Store α) (i : Nat) (p : Option Nat) (j : Nat) :
    rightOf (setLeft h i p) j = rightOf h j := by
  unfold setLeft
  cases hh : h i with
  | none => rfl
  | some nd =>
    by_cases hj : j = i
    · subst hj; simp [rightOf, hset, hh]
    · simp [rightOf, hset, hj]

theorem parentOf_setLeft (h : Store α) (i : Nat) (p : Option Nat) (j : Nat) :
    parentOf (setLeft h i p) j = parentOf h j := by
  unfold setLeft
  cases hh : h i with
  | none => rfl
  | some nd =>
    by_cases hj : j = i
    · subst hj; simp [parentOf, hset, hh]
    · simp [parentOf, hset, hj]

theorem heightAt_setLeft (h : Store α) (i : Nat) (p : Option Nat) (j : Nat) :
    heightAt (setLeft h i p) j = heightAt h j := by
  unfold setLeft
  cases hh : h i with
  | none => rfl
  | some nd =>
    by_cases hj : j = i
    · subst hj; simp [heightAt, hset, hh]
    · simp [heightAt, hset, hj]

theorem valueAt_setLeft (h : Store α) (i : Nat) (p : Option Nat) (j : Nat) :
    valueAt (setLeft h i p) j = valueAt h j := by
  unfold setLeft
  cases hh : h i with
  | none => rfl
  | some nd =>
    by_cases hj : j = i
    · subst hj; simp [valueAt, hset, hh]
    · simp [valueAt, hset, hj]

theorem leftOf_setRight (h : Store α) (i : Nat) (p : Option Nat) (j : Nat) :
    leftOf (setRight h i p) j = leftOf h j := by
  unfold setRight
  cases hh : h i with
  | none => rfl
  | some nd =>
    by_cases hj : j = i
    · subst hj; simp [leftOf, hset, hh]
    · simp [leftOf, hset, hj]

theorem parentOf_setRight (h : Store α) (i : Nat) (p : Option Nat) (j : Nat) :
    parentOf (setRight h i p) j = parentOf h j := by
  unfold setRight
  cases hh : h i with
  | none => rfl
  | some nd =>
    by_cases hj : j = i
    · subst hj; simp [parentOf, hset, hh]
    · simp [parentOf, hset, hj]

theorem heightAt_setRight (h : Store α) (i : Nat) (p : Option Nat) (j : Nat) :
    heightAt (setRight h i p) j = heightAt h j := by
  unfold setRight
  cases hh : h i with
  | none => rfl
  | some nd =>
    by_cases hj : j = i
    · subst hj; simp [heightAt, hset, hh]
    · simp [heightAt, hset, hj]

theorem valueAt_setRight (h : Store α) (i : Nat) (p : Option Nat) (j : Nat) :
    valueAt (setRight h i p) j = valueAt h j := by
  unfold setRight
  cases hh : h i with
  | none => rfl
  | some nd =>
    by_cases hj : j = i
    · subst hj; simp [valueAt, hset, hh]
    · simp [valueAt, hset, hj]

theorem leftOf_setParent (h : Store α) (i : Nat) (p : Option Nat) (j : Nat) :
    leftOf (setParent h i p) j = leftOf h j := by
  unfold setParent
  cases hh : h i with
  | none => rfl
  | some nd =>
    by_cases hj : j = i
    · subst hj; simp [leftOf, hset, hh]
    · simp [leftOf, hset, hj]

theorem rightOf_setParent (h : Store α) (i : Nat) (p : Option Nat) (j : Nat) :
    rightOf (setParent h i p) j = rightOf h j := by
  unfold setParent
  cases hh : h i with
  | none => rfl
  | some nd =>
    by_cases hj : j = i
    · subst hj; simp [rightOf, hset, hh]
    · simp [rightOf, hset, hj]

theorem heightAt_setParent (h : Store α) (i : Nat) (p : Option Nat) (j : Nat) :
    heightAt (setParent h i p) j = heightAt h j := by
  unfold setParent
  cases hh : h i with
  | none => rfl
  | some nd =>
    by_cases hj : j = i
    · subst hj; simp [heightAt, hset, hh]
    · simp [heightAt, hset, hj]

theorem valueAt_setParent (h : Store α) (i : Nat) (p : Option Nat) (j : Nat) :
    valueAt (setParent h i p) j = valueAt h j := by
  unfold setParent
  cases hh : h i with
  | none => rfl
  | some nd =>
    by_cases hj : j = i
    · subst hj; simp [valueAt, hset, hh]
    · simp [valueAt, hset, hj]

theorem valueAt_uhs (h : Store α) (i j : Nat) :
    valueAt (updateHeightStandalone h i) j = valueAt h j := by
  unfold updateHeightStandalone
  cases hh : h i with
  | none => rfl
  | some nd =>
    by_cases hj : j = i
    · subst hj; simp [valueAt, hset, hh]
    · simp [valueAt, hset, hj]

theorem valueAt_hdel_ne (h : Store α) (i j : Nat) (hj : j ≠ i) :
    valueAt (hdel h i) j = valueAt h j := by
  simp [valueAt, hdel, hj]

theorem valueAt_updateChild (h : Store α) (nc oc : Nat) (pa : Option Nat) (j : Nat) :
    valueAt (updateChild h nc oc pa) j = valueAt h j := by
  unfold updateChild
  cases pa with
  | none => rfl
  | some p =>
    simp only []
    by_cases hl : leftOf h p = some oc
    · rw [if_pos hl, valueAt_setLeft]
    · rw [if_neg hl, valueAt_setRight]

theorem parentOf_updateChild (h : Store α) (nc oc : Nat) (pa : Option Nat) (j : Nat) :
    parentOf (updateChild h nc oc pa) j = parentOf h j := by
  unfold updateChild
  cases pa with
  | none => rfl
  | some p =>
    simp only []
    by_cases hl : leftOf h p = some oc
    · rw [if_pos hl, parentOf_setLeft]
    · rw [if_neg hl, parentOf_setRight]

theorem heightAt_updateChild (h : Store α) (nc oc : Nat) (pa : Option Nat) (j : Nat) :
    heightAt (updateChild h nc oc pa) j = heightAt h j := by
  unfold updateChild
  cases pa with
  | none => rfl
  | some p =>
    simp only []
    by_cases hl : leftOf h p = some oc
    · rw [if_pos hl, heightAt_setLeft]
    · rw [if_neg hl, heightAt_setRight]

theorem updateChild_ne (h : Store α) (nc oc : Nat) (pa : Option Nat) (j : Nat)
    (hj : ∀ p, pa = some p → j ≠ p) : updateChild h nc oc pa j = h j := by
  unfold updateChild
  cases pa with
  | none => rfl
  | some p =>
    simp only []
    by_cases hl : leftOf h p = some oc
    · rw [if_pos hl]; exact setLeft_ne h p _ j (hj p rfl)
    · rw [if_neg hl]; exact setRight_ne h p _ j (hj p rfl)

theorem valueAt_cycle (h : Store α) (c pa : Nat) (j : Nat) :
    valueAt (solveParentCycle h c pa) j = valueAt h j := by
  unfold solveParentCycle
  by_cases hc : parentOf h c = some c
  · rw [if_pos hc]
    by_cases hr : rightOf (setParent h c (some pa)) pa = some pa
    · rw [if_pos hr, valueAt_setRight, valueAt_setParent]
    · rw [if_neg hr, valueAt_setLeft, valueAt_setParent]
  · rw [if_neg hc]

theorem heightAt_cycle (h : Store α) (c pa : Nat) (j : Nat) :
    heightAt (solveParentCycle h c pa) j = heightAt h j := by
  unfold solveParentCycle
  by_cases hc : parentOf h c = some c
  · rw [if_pos hc]
    by_cases hr : rightOf (setParent h c (some pa)) pa = some pa
    · rw [if_pos hr, heightAt_setRight, heightAt_setParent]
    · rw [if_neg hr, heightAt_setLeft, heightAt_setParent]
  · rw [if_neg hc]

theorem cycle_ne (h : Store α) (c pa : Nat) (j : Nat) (hc : j ≠ c) (hp : j ≠ pa) :
    solveParentCycle h c pa j = h j := by
  unfold solveParentCycle
  by_cases hcc : parentOf h c = some c
  · rw [if_pos hcc]
    by_cases hr : rightOf (setParent h c (some pa)) pa = some pa
    · rw [if_pos hr, setRight_ne _ _ _ _ hp, setParent_ne _ _ _ _ hc]
    · rw [if_neg hr, setLeft_ne _ _ _ _ hp, setParent_ne _ _ _ _ hc]
  · rw [if_neg hcc]

theorem valueAt_upflc (h : Store α) (i j : Nat) :
    valueAt (updateParentForLeftChild h i) j = valueAt h j := by
  unfold updateParentForLeftChild
  cases hl : leftOf h i with
  | none => rfl
  | some c => rw [valueAt_setParent]

theorem valueAt_upfrc (h : Store α) (i j : Nat) :
    valueAt (updateParentForRightChild h i) j = valueAt h j := by
  unfold updateParentForRightChild
  cases hl : rightOf h i with
  | none => rfl
  | some c => rw [valueAt_setParent]

theorem valueAt_upfc (h : Store α) (i j : Nat) :
    valueAt (updateParentForChildren h i) j = valueAt h j := by
  unfold updateParentForChildren
  rw [valueAt_upfrc, valueAt_upflc]

theorem leftOf_upflc (h : Store α) (i j : Nat) :
    leftOf (updateParentForLeftChild h i) j = leftOf h j := by
  unfold updateParentForLeftChild
  cases hl : leftOf h i with
  | none => rfl
  | some c => rw [leftOf_setParent]

theorem leftOf_upfrc (h : Store α) (i j : Nat) :
    leftOf (updateParentForRightChild h i) j = leftOf h j := by
  unfold updateParentForRightChild
  cases hl : rightOf h i with
  | none => rfl
  | some c => rw [leftOf_setParent]

theorem leftOf_upfc (h : Store α) (i j : Nat) :
    leftOf (updateParentForChildren h i) j = leftOf h j := by
  unfold updateParentForChildren
  rw [leftOf_upfrc, leftOf_upflc]

theorem rightOf_upflc (h : Store α) (i j : Nat) :
    rightOf (updateParentForLeftChild h i) j = rightOf h j := by
  unfold updateParentForLeftChild
  cases hl : leftOf h i with
  | none => rfl
  | some c => rw [rightOf_setParent]

theorem rightOf_upfrc (h : Store α) (i j : Nat) :
    rightOf (updateParentForRightChild h i) j = rightOf h j := by
  unfold updateParentForRightChild
  cases hl : rightOf h i with
  | none => rfl
  | some c => rw [rightOf_setParent]

theorem rightOf_upfc (h : Store α) (i j : Nat) :
    rightOf (updateParentForChildren h i) j = rightOf h j := by
  unfold updateParentForChildren
  rw [rightOf_upfrc, rightOf_upflc]

theorem heightAt_upflc (h : Store α) (i j : Nat) :
    heightAt (updateParentForLeftChild h i) j = heightAt h j := by
  unfold updateParentForLeftChild
  cases hl : leftOf h i with
  | none => rfl
  | some c => rw [heightAt_setParent]

theorem heightAt_upfrc (h : Store α) (i j : Nat) :
    heightAt (updateParentForRightChild h i) j = heightAt h j := by
  unfold updateParentForRightChild
  cases hl : rightOf h i with
  | none => rfl
  | some c => rw [heightAt_setParent]

theorem heightAt_upfc (h : Store α) (i j : Nat) :
    heightAt (updateParentForChildren h i) j = heightAt h j := by
  unfold updateParentForChildren
  rw [heightAt_upfrc, heightAt_upflc]

theorem valueAt_ihuLoop :
    ∀ (fuel : Nat) (h : Store α) (cur : Option Nat) (pre post : Int) (j : Nat),
      valueAt (ihuLoop fuel h cur pre post) j = valueAt h j := by
  intro fuel
  induction fuel with
  | zero => intro h cur pre post j; rfl
  | succ f ih =>
    intro h cur pre post j
    cases cur with
    | none => rfl
    | some i =>
      simp only [ihuLoop]
      by_cases hpp : pre = post
      · rw [if_pos hpp]
      · rw [if_neg hpp, ih, valueAt_uhs]

theorem valueAt_ihu (fuel : Nat) (h : Store α) (i j : Nat) :
    valueAt (iterativeHeightUpdate fuel h i) j = valueAt h j := by
  unfold iterativeHeightUpdate
  rw [valueAt_ihuLoop, valueAt_uhs]

theorem valueAt_rotL (fuel : Nat) (h : Store α) (i j : Nat) :
    valueAt (rotateLeft fuel h i).1 j = valueAt h j := by
  unfold rotateLeft
  cases hr : rightOf h i with
  | none => rfl
  | some nr =>
    simp only [valueAt_ihu, valueAt_upflc, valueAt_setLeft, valueAt_upfrc, valueAt_setRight]

theorem valueAt_rotR (fuel : Nat) (h : Store α) (i j : Nat) :
    valueAt (rotateRight fuel h i).1 j = valueAt h j := by
  unfold rotateRight
  cases hr : leftOf h i with
  | none => rfl
  | some nr =>
    simp only [valueAt_ihu, valueAt_upfrc, valueAt_setRight, valueAt_upflc, valueAt_setLeft]

theorem valueAt_smallL (fuel : Nat) (h : Store α) (i j : Nat) :
    valueAt (smallLeftRotate fuel h i).1 j = valueAt h j := by
  unfold smallLeftRotate
  cases hp : parentOf h i with
  | none => simp only [valueAt_setParent, valueAt_rotL]
  | some p =>
    by_cases hl : leftOf h p = some i
    · simp only [if_pos hl, valueAt_ihu, valueAt_setParent, valueAt_setLeft, valueAt_rotL]
    · simp only [if_neg hl, valueAt_ihu, valueAt_setParent, valueAt_setRight, valueAt_rotL]

theorem valueAt_smallR (fuel : Nat) (h : Store α) (i j : Nat) :
    valueAt (smallRightRotate fuel h i).1 j = valueAt h j := by
  unfold smallRightRotate
  cases hp : parentOf h i with
  | none => simp only [valueAt_setParent, valueAt_rotR]
  | some p =>
    by_cases hl : leftOf h p = some i
    · simp only [if_pos hl, valueAt_ihu, valueAt_setParent, valueAt_setLeft, valueAt_rotR]
    · simp only [if_neg hl, valueAt_ihu, valueAt_setParent, valueAt_setRight, valueAt_rotR]

theorem valueAt_bigL (fuel : Nat) (h : Store α) (i j : Nat) :
    valueAt (bigLeftRotate fuel h i).1 j = valueAt h j := by
  unfold bigLeftRotate
  cases hr : rightOf h i with
  | none => rfl
  | some r0 =>
    simp only [valueAt_smallL, valueAt_ihu, valueAt_upfrc, valueAt_setRight, valueAt_smallR]

theorem valueAt_bigR (fuel : Nat) (h : Store α) (i j : Nat) :
    valueAt (bigRightRotate fuel h i).1 j = valueAt h j := by
  unfold bigRightRotate
  cases hr : leftOf h i with
  | none => rfl
  | some l0 =>
    simp only [valueAt_smallR, valueAt_ihu, valueAt_upflc, valueAt_setLeft, valueAt_smallL]

theorem valueAt_balanceH (fuel : Nat) (h : Store α) (i j : Nat) :
    valueAt (balanceNodeH fuel h i).1 j = valueAt h j := by
  unfold balanceNodeH
  by_cases h1 : bfAt h i > 1
  · rw [if_pos h1]
    cases hr : rightOf h i with
    | none => rfl
    | some r =>
      simp only []
      by_cases h2 : bfAt h r ≥ 0
      · rw [if_pos h2, valueAt_smallL]
      · rw [if_neg h2, valueAt_bigL]
  · rw [if_neg h1]
    by_cases h3 : bfAt h i < -1
    · rw [if_pos h3]
      cases hl : leftOf h i with
      | none => rfl
      | some l =>
        simp only []
        by_cases h4 : bfAt h l ≤ 0
        · rw [if_pos h4, valueAt_smallR]
        · rw [if_neg h4, valueAt_bigR]
    · rw [if_neg h3]

theorem valueAt_rebalanceH :
    ∀ (ifuel fuel : Nat) (h : Store α) (root cur : Option Nat) (j : Nat),
      valueAt (rebalanceH ifuel fuel h root cur).1 j = valueAt h j := by
  intro ifuel fuel
  induction fuel with
  | zero => intro h root cur j; rfl
  | succ f ih =>
    intro h root cur j
    cases cur with
    | none => rfl
    | some c =>
      simp only [rebalanceH]
      rw [ih, valueAt_balanceH]

theorem setLeft_self_entry (h : Store α) (i : Nat) (p : Option Nat) (nd : HNode α)
    (hh : h i = some nd) : setLeft h i p i = some { nd with left := p } := by
  simp [setLeft, hset, hh]

theorem setRight_self_entry (h : Store α) (i : Nat) (p : Option Nat) (nd : HNode α)
    (hh : h i = some nd) : setRight h i p i = some { nd with right := p } := by
  simp [setRight, hset, hh]

theorem setParent_self_entry (h : Store α) (i : Nat) (p : Option Nat) (nd : HNode α)
    (hh : h i = some nd) : setParent h i p i = some { nd with parent := p } := by
  simp [setParent, hset, hh]

theorem hdel_self (h : Store α) (i : Nat) : hdel h i i = none := by simp [hdel]

theorem hdel_ne (h : Store α) (i j : Nat) (hj : j ≠ i) : hdel h i j = h j := by
  simp [hdel, hj]

theorem swapStep2_nocycle (h : Store α) (a b : Nat) (A B : HNode α)
    (ha : h a = some A) (hb : h b = some B)
    (hApar : A.parent ≠ some a) (hBpar : B.parent ≠ some b) :
    swapStep2 h a b = h := by
  unfold swapStep2
  have e1 : solveParentCycle h a b = h := by
    unfold solveParentCycle
    rw [if_neg (show ¬ parentOf h a = some a by rw [parentOf_eq ha]; exact hApar)]
  rw [e1]
  unfold solveParentCycle
  rw [if_neg (show ¬ parentOf h b = some b by rw [parentOf_eq hb]; exact hBpar)]

theorem swapStep2_cycle (h : Store α) (a b : Nat) (A B : HNode α)
    (ha : h a = some A) (hb : h b = some B) (hab : a ≠ b)
    (hApar : A.parent = some a) (hBr : B.right = some b) (hBpar : B.parent ≠ some b) :
    swapStep2 h a b a = some { A with parent := some b } ∧
    swapStep2 h a b b = some { B with right := some a } := by
  unfold swapStep2
  have e1 : solveParentCycle h a b = setRight (setParent h a (some b)) b (some a) := by
    unfold solveParentCycle
    rw [if_pos (show parentOf h a = some a by rw [parentOf_eq ha]; exact hApar)]
    simp only []
    rw [if_pos (show rightOf (setParent h a (some b)) b = some b by
      rw [rightOf_setParent, rightOf_eq hb]; exact hBr)]
  rw [e1]
  have hb1 : setRight (setParent h a (some b)) b (some a) b =
      some { B with right := some a } := by
    rw [setRight_self_entry _ _ _ B (by rw [setParent_ne _ _ _ _ (Ne.symm hab)]; exact hb)]
  have ha1 : setRight (setParent h a (some b)) b (some a) a =
      some { A with parent := some b } := by
    rw [setRight_ne _ _ _ _ hab, setParent_self_entry _ _ _ A ha]
  have e2 : solveParentCycle (setRight (setParent h a (some b)) b (some a)) b a =
      setRight (setParent h a (some b)) b (some a) := by
    unfold solveParentCycle
    rw [if_neg (show ¬ parentOf (setRight (setParent h a (some b)) b (some a)) b = some b by
      rw [parentOf_eq hb1]; exact hBpar)]
  rw [e2]
  exact ⟨ha1, hb1⟩

theorem swapStep4_cycle (h : Store α) (a b : Nat) (A B : HNode α)
    (ha : h a = some A) (hb : h b = some B) (hab : a ≠ b)
    (hApar : A.parent = some b) (hBl : B.left ≠ some b)
    (hBpar : ∀ g, B.parent = some g → g ≠ a ∧ g ≠ b) :
    swapStep4 h a b a = some A ∧
    swapStep4 h a b b = some { B with right := some a } := by
  unfold swapStep4
  have hpa : parentOf h a = some b := by rw [parentOf_eq ha]; exact hApar
  rw [hpa]
  have e1 : updateChild h a b (some b) = setRight h b (some a) := by
    unfold updateChild
    simp only []
    rw [if_neg (show ¬ leftOf h b = some b by rw [leftOf_eq hb]; exact hBl)]
  rw [e1]
  have hb1 : setRight h b (some a) b = some { B with right := some a } :=
    setRight_self_entry h b (some a) B hb
  have hpb : parentOf (setRight h b (some a)) b = B.parent := by
    rw [parentOf_setRight, parentOf_eq hb]
  rw [hpb]
  constructor
  · rw [updateChild_ne _ _ _ _ _ (fun g hg => (hBpar g hg).1.symm),
      setRight_ne _ _ _ _ hab]
    exact ha
  · rw [updateChild_ne _ _ _ _ _ (fun g hg => (hBpar g hg).2.symm)]
    exact hb1

theorem swapStep4_nocycle (h : Store α) (a b : Nat) (A B : HNode α) (p0 : Nat)
    (ha : h a = some A) (hb : h b = some B)
    (hApar : A.parent = some p0) (hp0a : p0 ≠ a) (hp0b : p0 ≠ b)
    (hple : leftOf h p0 = some b)
    (hBpar : ∀ g, B.parent = some g → g ≠ a ∧ g ≠ b) :
    swapStep4 h a b a = some A ∧ swapStep4 h a b b = some B := by
  unfold swapStep4
  have hpa : parentOf h a = some p0 := by rw [parentOf_eq ha]; exact hApar
  rw [hpa]
  have e1 : updateChild h a b (some p0) = setLeft h p0 (some a) := by
    unfold updateChild
    simp only []
    rw [if_pos hple]
  rw [e1]
  have hb1 : setLeft h p0 (some a) b = some B := by
    rw [setLeft_ne _ _ _ _ (Ne.symm hp0b)]; exact hb
  have hpb : parentOf (setLeft h p0 (some a)) b = B.parent := by
    rw [parentOf_setLeft, parentOf_eq hb]
  rw [hpb]
  constructor
  · rw [updateChild_ne _ _ _ _ _ (fun g hg => (hBpar g hg).1.symm),
      setLeft_ne _ _ _ _ (Ne.symm hp0a)]
    exact ha
  · rw [updateChild_ne _ _ _ _ _ (fun g hg => (hBpar g hg).2.symm)]
    exact hb1

theorem uplc_ne_entry (h : Store α) (i j : Nat)
    (hj : ∀ c, leftOf h i = some c → j ≠ c) :
    updateParentForLeftChild h i j = h j := by
  unfold updateParentForLeftChild
  cases hc : leftOf h i with
  | none => rfl
  | some c => exact setParent_ne _ _ _ _ (hj c hc)

theorem uprc_ne_entry (h : Store α) (i j : Nat)
    (hj : ∀ c, rightOf h i = some c → j ≠ c) :
    updateParentForRightChild h i j = h j := by
  unfold updateParentForRightChild
  cases hc : rightOf h i with
  | none => rfl
  | some c => exact setParent_ne _ _ _ _ (hj c hc)

theorem uprc_target (h : Store α) (i j : Nat) (nd : HNode α)
    (hc : rightOf h i = some j) (hh : h j = some nd) :
    updateParentForRightChild h i j = some { nd with parent := some i } := by
  unfold updateParentForRightChild
  rw [hc]
  exact setParent_self_entry h j (some i) nd hh

theorem swapStep6_entries (h : Store α) (a b : Nat) (A B : HNode α)
    (ha : h a = some A) (hb : h b = some B)
    (hAl : ∀ c, A.left = some c → c ≠ a ∧ c ≠ b)
    (hAr : ∀ c, A.right = some c → c ≠ a ∧ c ≠ b)
    (hBl : ∀ c, B.left = some c → c ≠ a ∧ c ≠ b)
    (hBr : ∀ c, B.right = some c → c ≠ b) :
    swapStep6 h a b b = some B ∧
    swapStep6 h a b a =
      (if B.right = some a then some { A with parent := some b } else some A) := by
  unfold swapStep6 updateParentForChildren
  have hu1a : updateParentForLeftChild h a a = some A := by
    rw [uplc_ne_entry h a a
      (fun c hcc => ((hAl c (by rw [leftOf_eq ha] at hcc; exact hcc)).1).symm)]
    exact ha
  have hu1b : updateParentForLeftChild h a b = some B := by
    rw [uplc_ne_entry h a b
      (fun c hcc => ((hAl c (by rw [leftOf_eq ha] at hcc; exact hcc)).2).symm)]
    exact hb
  have hra : rightOf (updateParentForLeftChild h a) a = A.right := by
    rw [rightOf_upflc, rightOf_eq ha]
  have hu2a : updateParentForRightChild (updateParentForLeftChild h a) a a = some A := by
    rw [uprc_ne_entry _ _ _
      (fun c hcc => by rw [hra] at hcc; exact ((hAr c hcc).1).symm)]
    exact hu1a
  have hu2b : updateParentForRightChild (updateParentForLeftChild h a) a b = some B := by
    rw [uprc_ne_entry _ _ _
      (fun c hcc => by rw [hra] at hcc; exact ((hAr c hcc).2).symm)]
    exact hu1b
  have hlb : leftOf (updateParentForRightChild (updateParentForLeftChild h a) a) b
      = B.left := by
    rw [leftOf_upfrc, leftOf_upflc, leftOf_eq hb]
  have hu3a : updateParentForLeftChild
      (updateParentForRightChild (updateParentForLeftChild h a) a) b a = some A := by
    rw [uplc_ne_entry _ _ _
      (fun c hcc => by rw [hlb] at hcc; exact ((hBl c hcc).1).symm)]
    exact hu2a
  have hu3b : updateParentForLeftChild
      (updateParentForRightChild (updateParentForLeftChild h a) a) b b = some B := by
    rw [uplc_ne_entry _ _ _
      (fun c hcc => by rw [hlb] at hcc; exact ((hBl c hcc).2).symm)]
    exact hu2b
  have hrb : rightOf (updateParentForLeftChild
      (updateParentForRightChild (updateParentForLeftChild h a) a) b) b = B.right := by
    rw [rightOf_upflc, rightOf_upfrc, rightOf_upflc, rightOf_eq hb]
  constructor
  · rw [uprc_ne_entry _ _ _
      (fun c hcc => by rw [hrb] at hcc; exact (hBr c hcc).symm)]
    exact hu3b
  · by_cases hbra : B.right = some a
    · rw [if_pos hbra]
      exact uprc_target _ _ _ A (by rw [hrb]; exact hbra) hu3a
    · rw [if_neg hbra]
      rw [uprc_ne_entry _ _ _ (fun c hcc => by
        rw [hrb] at hcc
        intro he
        rw [← he] at hcc
        exact hbra hcc)]
      exact hu3a

theorem valueAt_swapStep2 (h : Store α) (a b j : Nat) :
    valueAt (swapStep2 h a b) j = valueAt h j := by
  unfold swapStep2
  rw [valueAt_cycle, valueAt_cycle]

theorem valueAt_swapStep4 (h : Store α) (a b j : Nat) :
    valueAt (swapStep4 h a b) j = valueAt h j := by
  simp only [swapStep4]
  rw [valueAt_updateChild, valueAt_updateChild]

theorem valueAt_swapStep6 (h : Store α) (a b j : Nat) :
    valueAt (swapStep6 h a b) j = valueAt h j := by
  unfold swapStep6
  rw [valueAt_upfc, valueAt_upfc]

theorem swapNodes_spec (h : Store α) (nd s lc rc bpv : Nat) (na nb : HNode α)
    (hnd : h nd = some na) (hs : h s = some nb) (hne : nd ≠ s)
    (hl : na.left = some lc) (hr : na.right = some rc)
    (hsl : nb.left = none) (hbp : nb.parent = some bpv)
    (hpnn : na.parent ≠ some nd) (hpns : na.parent ≠ some s)
    (hlcn : lc ≠ nd) (hlcs : lc ≠ s) (hrcn : rc ≠ nd)
    (hsrv : ∀ c, nb.right = some c → c ≠ s ∧ c ≠ nd)
    (hcase : (bpv = nd ∧ rc = s) ∨
      (bpv ≠ nd ∧ bpv ≠ s ∧ rc ≠ s ∧ leftOf h bpv = some s ∧
        ∀ g, na.parent = some g → g ≠ bpv)) :
    (∀ j, valueAt (swapNodes h nd s) j = valueAt h j) ∧
    heightAt (swapNodes h nd s) s = na.height ∧
    heightAt (swapNodes h nd s) nd = nb.height ∧
    parentOf (swapNodes h nd s) s = na.parent ∧
    leftOf (swapNodes h nd s) s = some lc ∧
    rightOf (swapNodes h nd s) s = (if rc = s then some nd else some rc) ∧
    leftOf (swapNodes h nd s) nd = none ∧
    rightOf (swapNodes h nd s) nd = nb.right ∧
    parentOf (swapNodes h nd s) nd = (if bpv = nd then some s else some bpv) := by
  set Arec : HNode α := { na with parent := nb.parent, left := nb.left, right := nb.right, height := nb.height } with hArec
  set Brec : HNode α := { nb with parent := na.parent, left := na.left, right := na.right, height := na.height } with hBrec
  set raw : Store α := hset (hset h nd Arec) s Brec with hrawdef
  have hswdef : swapNodes h nd s = swapStep6 (swapStep4 (swapStep2 raw nd s) nd s) nd s := by
    unfold swapNodes
    rw [hnd, hs]
  have hrnd : raw nd = some Arec := by
    rw [hrawdef, hset_ne _ _ _ _ hne, hset_eq]
  have hrs : raw s = some Brec := by
    rw [hrawdef, hset_eq]
  have hvraw : ∀ j, valueAt raw j = valueAt h j := by
    intro j
    by_cases hjs : j = s
    · subst hjs
      rw [hrawdef]
      simp [valueAt, hset, hBrec, hs]
    · by_cases hjn : j = nd
      · subst hjn
        rw [hrawdef]
        simp [valueAt, hset, hne, hArec, hnd]
      · rw [hrawdef]
        simp [valueAt, hset, hjs, hjn]
  have hvfinal : ∀ j, valueAt (swapNodes h nd s) j = valueAt h j := by
    intro j
    rw [hswdef, valueAt_swapStep6, valueAt_swapStep4, valueAt_swapStep2, hvraw]
  have hBparS : Brec.parent ≠ some s := hpns
  have hBparN : ∀ g, Brec.parent = some g → g ≠ nd ∧ g ≠ s := by
    intro g hg
    have hg2 : na.parent = some g := hg
    constructor
    · intro he
      rw [he] at hg2
      exact hpnn hg2
    · intro he
      rw [he] at hg2
      exact hpns hg2
  have hAlFun : ∀ (X : HNode α), X.left = nb.left →
      ∀ c, X.left = some c → c ≠ nd ∧ c ≠ s := by
    intro X hX c hcc
    rw [hX, hsl] at hcc
    exact Option.noConfusion hcc
  have hArFun : ∀ (X : HNode α), X.right = nb.right →
      ∀ c, X.right = some c → c ≠ nd ∧ c ≠ s := by
    intro X hX c hcc
    rw [hX] at hcc
    exact ⟨(hsrv c hcc).2, (hsrv c hcc).1⟩
  have hBlFun : ∀ (X : HNode α), X.left = na.left →
      ∀ c, X.left = some c → c ≠ nd ∧ c ≠ s := by
    intro X hX c hcc
    rw [hX, hl] at hcc
    have hce : c = lc := (Option.some_inj.1 hcc).symm
    rw [hce]
    exact ⟨hlcn, hlcs⟩
  rcases hcase with ⟨hbv, hrc⟩ | ⟨hbv1, hbv2, hrc, hble, hgbp⟩
  · -- cycle case: the successor is the node's direct right child
    have hApar : Arec.parent = some nd := by
      show nb.parent = some nd
      rw [hbp, hbv]
    have hBr : Brec.right = some s := by
      show na.right = some s
      rw [hr, hrc]
    obtain ⟨h2nd, h2s⟩ := swapStep2_cycle raw nd s Arec Brec hrnd hrs hne hApar hBr hBparS
    obtain ⟨h4nd, h4s0⟩ := swapStep4_cycle (swapStep2 raw nd s) nd s
      { Arec with parent := some s } { Brec with right := some nd } h2nd h2s hne rfl
      (show ({ Brec with right := some nd } : HNode α).left ≠ some s by
        show na.left ≠ some s
        rw [hl]
        exact fun he => hlcs (Option.some_inj.1 he))
      (fun g hg => hBparN g hg)
    have h4s : swapStep4 (swapStep2 raw nd s) nd s s = some { Brec with right := some nd } := h4s0
    obtain ⟨h6s, h6nd⟩ := swapStep6_entries (swapStep4 (swapStep2 raw nd s) nd s) nd s
      { Arec with parent := some s } { Brec with right := some nd } h4nd h4s
      (hAlFun _ rfl) (hArFun _ rfl) (hBlFun _ rfl)
      (fun c hcc => by
        have h2 : (some nd : Option Nat) = some c := hcc
        rw [← Option.some_inj.1 h2]
        exact hne)
    rw [if_pos (show ({ Brec with right := some nd } : HNode α).right = some nd from rfl)] at h6nd
    refine ⟨hvfinal, ?_, ?_, ?_, ?_, ?_, ?_, ?_, ?_⟩
    · rw [hswdef, heightAt_eq h6s]
    · rw [hswdef, heightAt_eq h6nd]
    · rw [hswdef, parentOf_eq h6s]
    · rw [hswdef, leftOf_eq h6s]
      exact hl
    · rw [hswdef, rightOf_eq h6s, if_pos hrc]
    · rw [hswdef, leftOf_eq h6nd]
      exact hsl
    · rw [hswdef, rightOf_eq h6nd]
    · rw [hswdef, parentOf_eq h6nd, if_pos hbv]
  · -- no-cycle case: the successor is deeper in the right subtree
    have hApar : Arec.parent = some bpv := hbp
    have hAparN : Arec.parent ≠ some nd := by
      rw [hApar]
      exact fun he => hbv1 (Option.some_inj.1 he)
    have hstep2 : swapStep2 raw nd s = raw :=
      swapStep2_nocycle raw nd s Arec Brec hrnd hrs hAparN hBparS
    have hrawbpv : raw bpv = h bpv := by
      rw [hrawdef, hset_ne _ _ _ _ hbv2, hset_ne _ _ _ _ hbv1]
    have hple : leftOf raw bpv = some s := by
      unfold leftOf
      rw [hrawbpv]
      unfold leftOf at hble
      exact hble
    obtain ⟨h4nd, h4s⟩ := swapStep4_nocycle raw nd s Arec Brec bpv hrnd hrs hApar
      hbv1 hbv2 hple hBparN
    obtain ⟨h6s, h6nd⟩ := swapStep6_entries (swapStep4 raw nd s) nd s Arec Brec h4nd h4s
      (hAlFun _ rfl) (hArFun _ rfl) (hBlFun _ rfl)
      (fun c hcc => by
        have h2 : na.right = some c := hcc
        rw [hr] at h2
        have hce : c = rc := (Option.some_inj.1 h2).symm
        rw [hce]
        exact hrc)
    have hBrne : ¬ (Brec.right = some nd) := by
      intro he
      have h2 : na.right = some nd := he
      rw [hr] at h2
      exact hrcn (Option.some_inj.1 h2)
    rw [if_neg hBrne] at h6nd
    refine ⟨hvfinal, ?_, ?_, ?_, ?_, ?_, ?_, ?_, ?_⟩
    · rw [hswdef, hstep2, heightAt_eq h6s]
    · rw [hswdef, hstep2, heightAt_eq h6nd]
    · rw [hswdef, hstep2, parentOf_eq h6s]
    · rw [hswdef, hstep2, leftOf_eq h6s]
      exact hl
    · rw [hswdef, hstep2, rightOf_eq h6s, if_neg hrc]
      exact hr
    · rw [hswdef, hstep2, leftOf_eq h6nd]
      exact hsl
    · rw [hswdef, hstep2, rightOf_eq h6nd]
    · rw [hswdef, hstep2, parentOf_eq h6nd, if_neg hbv1]
      exact hbp

/-- **C4.** Erasing a node with two children swaps the node with its in-order
successor by exchanging the structural links and the `height_` field — the
`value_` fields are never copied — so the successor object keeps its value
while taking over the erased node's parent link, left child and height; the
object actually unlinked and freed is the erased node itself, which after the
swap has no left child (at most one child); and every node other than the
erased one survives the whole `erase` with its identity and value intact,
while the erased node's entry is gone. -/
theorem C4_erase_two_children (fuel : Nat) (st : HeapEngineSt α) (nd s lc rc bpv : Nat)
    (na nb : HNode α)
    (hnd : st.heap nd = some na) (hs : st.heap s = some nb) (hne : nd ≠ s)
    (hl : na.left = some lc) (hr : na.right = some rc)
    (hsucc : successorF fuel st.heap nd = s)
    (hsl : nb.left = none) (hbp : nb.parent = some bpv)
    (hpnn : na.parent ≠ some nd) (hpns : na.parent ≠ some s)
    (hlcn : lc ≠ nd) (hlcs : lc ≠ s) (hrcn : rc ≠ nd)
    (hsrv : ∀ c, nb.right = some c → c ≠ s ∧ c ≠ nd)
    (hcnt : st.count ≠ 1)
    (hcase : (bpv = nd ∧ rc = s) ∨
      (bpv ≠ nd ∧ bpv ≠ s ∧ rc ≠ s ∧ leftOf st.heap bpv = some s ∧
        ∀ g, na.parent = some g → g ≠ bpv)) :
    (∀ j, valueAt (swapNodes st.heap nd s) j = valueAt st.heap j) ∧
    heightAt (swapNodes st.heap nd s) s = na.height ∧
    heightAt (swapNodes st.heap nd s) nd = nb.height ∧
    parentOf (swapNodes st.heap nd s) s = na.parent ∧
    leftOf (swapNodes st.heap nd s) s = some lc ∧
    rightOf (swapNodes st.heap nd s) s = (if rc = s then some nd else some rc) ∧
    leftOf (swapNodes st.heap nd s) nd = none ∧
    (heapErase fuel st (some nd)).heap nd = none ∧
    (∀ j, j ≠ nd → valueAt (heapErase fuel st (some nd)).heap j = valueAt st.heap j) := by
  obtain ⟨hv, hhs, hhnd, hps, hls, hrs, hlnd, hrnd2, hpnd⟩ :=
    swapNodes_spec st.heap nd s lc rc bpv na nb hnd hs hne hl hr hsl hbp hpnn hpns
      hlcn hlcs hrcn hsrv hcase
  set p : Nat := if bpv = nd then s else bpv with hpdef
  have hp : parentOf (swapNodes st.heap nd s) nd = some p := by
    rw [hpnd, hpdef]
    by_cases hb : bpv = nd
    · rw [if_pos hb, if_pos hb]
    · rw [if_neg hb, if_neg hb]
  have hpn : p ≠ nd := by
    rw [hpdef]
    by_cases hb : bpv = nd
    · rw [if_pos hb]
      exact Ne.symm hne
    · rw [if_neg hb]
      exact hb
  have hcond : ((leftOf st.heap nd).isSome ∧ (rightOf st.heap nd).isSome) := by
    rw [leftOf_eq hnd, rightOf_eq hnd, hl, hr]
    exact ⟨rfl, rfl⟩
  have hh1 : (if (leftOf st.heap nd).isSome ∧ (rightOf st.heap nd).isSome then
      swapNodes st.heap nd (successorF fuel st.heap nd) else st.heap) =
      swapNodes st.heap nd s := by
    rw [if_pos hcond, hsucc]
  have hmain : (heapErase fuel st (some nd)).heap nd = none ∧
      ∀ j, j ≠ nd → valueAt (heapErase fuel st (some nd)).heap j = valueAt st.heap j := by
    cases hsr : nb.right with
    | some c =>
      have herase : heapErase fuel st (some nd) =
          ⟨(rebalanceH fuel fuel (iterativeHeightUpdate fuel
              (hdel (updateParentForChildren
                (updateChild (swapNodes st.heap nd s) c nd (some p)) p) nd) p)
              st.root (some p)).1,
           (rebalanceH fuel fuel (iterativeHeightUpdate fuel
              (hdel (updateParentForChildren
                (updateChild (swapNodes st.heap nd s) c nd (some p)) p) nd) p)
              st.root (some p)).2,
           st.count - 1⟩ := by
        simp only [heapErase]
        rw [if_neg hcnt, hh1, hp, hrnd2, hsr]
      rw [herase]
      constructor
      · have hva : valueAt (rebalanceH fuel fuel (iterativeHeightUpdate fuel
            (hdel (updateParentForChildren
              (updateChild (swapNodes st.heap nd s) c nd (some p)) p) nd) p)
            st.root (some p)).1 nd = none := by
          rw [valueAt_rebalanceH, valueAt_ihu]
          unfold valueAt
          rw [hdel_self]
          rfl
        exact Option.map_eq_none'.1 hva
      · intro j hj
        show valueAt (rebalanceH fuel fuel (iterativeHeightUpdate fuel
            (hdel (updateParentForChildren
              (updateChild (swapNodes st.heap nd s) c nd (some p)) p) nd) p)
            st.root (some p)).1 j = valueAt st.heap j
        rw [valueAt_rebalanceH, valueAt_ihu, valueAt_hdel_ne _ _ _ hj,
          valueAt_upfc, valueAt_updateChild, hv]
    | none =>
      have herase : heapErase fuel st (some nd) =
          ⟨(rebalanceH fuel fuel (iterativeHeightUpdate fuel
              (if leftOf (swapNodes st.heap nd s) p = some nd then
                setLeft (hdel (swapNodes st.heap nd s) nd) p none
              else setRight (hdel (swapNodes st.heap nd s) nd) p none) p)
              st.root (some p)).1,
           (rebalanceH fuel fuel (iterativeHeightUpdate fuel
              (if leftOf (swapNodes st.heap nd s) p = some nd then
                setLeft (hdel (swapNodes st.heap nd s) nd) p none
              else setRight (hdel (swapNodes st.heap nd s) nd) p none) p)
              st.root (some p)).2,
           st.count - 1⟩ := by
        simp only [heapErase]
        rw [if_neg hcnt, hh1, hp, hrnd2, hsr, hlnd]
      rw [herase]
      by_cases hlp : leftOf (swapNodes st.heap nd s) p = some nd
      · rw [if_pos hlp]
        constructor
        · have hva : valueAt (rebalanceH fuel fuel (iterativeHeightUpdate fuel
              (setLeft (hdel (swapNodes st.heap nd s) nd) p none) p)
              st.root (some p)).1 nd = none := by
            rw [valueAt_rebalanceH, valueAt_ihu, valueAt_setLeft]
            unfold valueAt
            rw [hdel_self]
            rfl
          exact Option.map_eq_none'.1 hva
        · intro j hj
          show valueAt (rebalanceH fuel fuel (iterativeHeightUpdate fuel
              (setLeft (hdel (swapNodes st.heap nd s) nd) p none) p)
              st.root (some p)).1 j = valueAt st.heap j
          rw [valueAt_rebalanceH, valueAt_ihu, valueAt_setLeft,
            valueAt_hdel_ne _ _ _ hj, hv]
      · rw [if_neg hlp]
        constructor
        · have hva : valueAt (rebalanceH fuel fuel (iterativeHeightUpdate fuel
              (setRight (hdel (swapNodes st.heap nd s) nd) p none) p)
              st.root (some p)).1 nd = none := by
            rw [valueAt_rebalanceH, valueAt_ihu, valueAt_setRight]
            unfold valueAt
            rw [hdel_self]
            rfl
          exact Option.map_eq_none'.1 hva
        · intro j hj
          show valueAt (rebalanceH fuel fuel (iterativeHeightUpdate fuel
              (setRight (hdel (swapNodes st.heap nd s) nd) p none) p)
              st.root (some p)).1 j = valueAt st.heap j
          rw [valueAt_rebalanceH, valueAt_ihu, valueAt_setRight,
            valueAt_hdel_ne _ _ _ hj, hv]
  exact ⟨hv, hhs, hhnd, hps, hls, hrs, hlnd, hmain.1, hmain.2⟩

theorem C4_witness :
    (heapErase 5 c4St (some 1)).heap 1 = none ∧
    valueAt (heapErase 5 c4St (some 1)).heap 3 = some 20 ∧
    heightAt (swapNodes c4Heap 1 3) 3 = 2 ∧
    leftOf (swapNodes c4Heap 1 3) 1 = none := by
  have hmain := C4_erase_two_children 5 c4St 1 3 2 3 1 c4N1 c4N3
    rfl rfl (by decide) rfl rfl (by decide) rfl rfl (by decide) (by decide)
    (by decide) (by decide) (by decide)
    (fun c hc => by simp [c4N3] at hc)
    (by decide)
    (Or.inl ⟨rfl, rfl⟩)
  refine ⟨hmain.2.2.2.2.2.2.2.1, ?_, ?_, hmain.2.2.2.2.2.2.1⟩
  · rw [hmain.2.2.2.2.2.2.2.2 3 (by decide)]
    rfl
  · exact hmain.2.1

theorem lmost_fuel {h : Store α} {i r : Nat} (hw : Lmost h i r) :
    ∃ N, ∀ fuel, N ≤ fuel → leftmostF fuel h i = r := by
  induction hw with
  | stopPh i hph =>
    refine ⟨1, fun fuel hf => ?_⟩
    obtain ⟨f, rfl⟩ : ∃ f, fuel = f + 1 := ⟨fuel - 1, by omega⟩
    simp [leftmostF, hph]
  | stopNone i hph hl =>
    refine ⟨1, fun fuel hf => ?_⟩
    obtain ⟨f, rfl⟩ : ∃ f, fuel = f + 1 := ⟨fuel - 1, by omega⟩
    simp [leftmostF, hph, hl]
  | step i j r hph hl hw2 ih =>
    obtain ⟨N, hN⟩ := ih
    refine ⟨N + 1, fun fuel hf => ?_⟩
    obtain ⟨f, rfl⟩ : ∃ f, fuel = f + 1 := ⟨fuel - 1, by omega⟩
    have hstep : leftmostF (f + 1) h i = leftmostF f h j := by
      simp [leftmostF, hph, hl]
    rw [hstep, hN f (by omega)]

theorem rmost_fuel {h : Store α} {i r : Nat} (hw : Rmost h i r) :
    ∃ N, ∀ fuel, N ≤ fuel → rightmostF fuel h i = r := by
  induction hw with
  | stopPh i hph =>
    refine ⟨1, fun fuel hf => ?_⟩
    obtain ⟨f, rfl⟩ : ∃ f, fuel = f + 1 := ⟨fuel - 1, by omega⟩
    simp [rightmostF, hph]
  | stopNone i hph hl =>
    refine ⟨1, fun fuel hf => ?_⟩
    obtain ⟨f, rfl⟩ : ∃ f, fuel = f + 1 := ⟨fuel - 1, by omega⟩
    simp [rightmostF, hph, hl]
  | step i j r hph hl hw2 ih =>
    obtain ⟨N, hN⟩ := ih
    refine ⟨N + 1, fun fuel hf => ?_⟩
    obtain ⟨f, rfl⟩ : ∃ f, fuel = f + 1 := ⟨fuel - 1, by omega⟩
    have hstep : rightmostF (f + 1) h i = rightmostF f h j := by
      simp [rightmostF, hph, hl]
    rw [hstep, hN f (by omega)]

theorem climbs_fuel {h : Store α} {c o r : Nat} (hw : Climbs h c o r) :
    ∃ N, ∀ fuel, N ≤ fuel → incClimb fuel h c o = r := by
  induction hw with
  | root cur old hp =>
    refine ⟨1, fun fuel hf => ?_⟩
    obtain ⟨f, rfl⟩ : ∃ f, fuel = f + 1 := ⟨fuel - 1, by omega⟩
    simp [incClimb, hp]
  | found cur old p hp hl =>
    refine ⟨1, fun fuel hf => ?_⟩
    obtain ⟨f, rfl⟩ : ∃ f, fuel = f + 1 := ⟨fuel - 1, by omega⟩
    simp [incClimb, hp, hl]
  | step cur old p r hp hl hw2 ih =>
    obtain ⟨N, hN⟩ := ih
    refine ⟨N + 1, fun fuel hf => ?_⟩
    obtain ⟨f, rfl⟩ : ∃ f, fuel = f + 1 := ⟨fuel - 1, by omega⟩
    have hstep : incClimb (f + 1) h cur old = incClimb f h p p := by
      simp [incClimb, hp, hl]
    rw [hstep, hN f (by omega)]

theorem climbsD_fuel {h : Store α} {c o r : Nat} (hw : ClimbsD h c o r) :
    ∃ N, ∀ fuel, N ≤ fuel → decClimb fuel h c o = r := by
  induction hw with
  | root cur old hp =>
    refine ⟨1, fun fuel hf => ?_⟩
    obtain ⟨f, rfl⟩ : ∃ f, fuel = f + 1 := ⟨fuel - 1, by omega⟩
    simp [decClimb, hp]
  | found cur old p hp hl =>
    refine ⟨1, fun fuel hf => ?_⟩
    obtain ⟨f, rfl⟩ : ∃ f, fuel = f + 1 := ⟨fuel - 1, by omega⟩
    simp [decClimb, hp, hl]
  | step cur old p r hp hl hw2 ih =>
    obtain ⟨N, hN⟩ := ih
    refine ⟨N + 1, fun fuel hf => ?_⟩
    obtain ⟨f, rfl⟩ : ∃ f, fuel = f + 1 := ⟨fuel - 1, by omega⟩
    have hstep : decClimb (f + 1) h cur old = decClimb f h p p := by
      simp [decClimb, hp, hl]
    rw [hstep, hN f (by omega)]

theorem incSpec_fuel {h : Store α} {i r : Nat} (hs : IncSpec h i r) :
    ∃ N, ∀ fuel, N ≤ fuel → avlTreeIncrement fuel h (some i) = some r := by
  obtain ⟨hph, hcase⟩ := hs
  rcases hcase with ⟨j, hj, hw⟩ | ⟨hn, hc⟩
  · obtain ⟨N, hN⟩ := lmost_fuel hw
    refine ⟨N, fun fuel hf => ?_⟩
    unfold avlTreeIncrement
    simp only []
    rw [if_neg hph, if_pos (show (rightOf h i).isSome by rw [hj]; rfl)]
    unfold successorF
    rw [if_neg (fun hor => hor.elim
      (fun he => by rw [hj] at he; exact Option.noConfusion he) hph)]
    rw [hj]
    simp only []
    rw [hN fuel hf]
  · obtain ⟨N, hN⟩ := climbs_fuel hc
    refine ⟨N, fun fuel hf => ?_⟩
    unfold avlTreeIncrement
    simp only []
    rw [if_neg hph, if_neg (show ¬ (rightOf h i).isSome by rw [hn]; simp)]
    rw [hN fuel hf]

theorem decSpec_fuel {h : Store α} {i r : Nat} (hs : DecSpec h i r) :
    ∃ N, ∀ fuel, N ≤ fuel → avlTreeDecrement fuel h (some i) = some r := by
  obtain ⟨hph, hcase⟩ := hs
  rcases hcase with ⟨j, hj, hw⟩ | ⟨hn, hc⟩
  · obtain ⟨N, hN⟩ := rmost_fuel hw
    refine ⟨N, fun fuel hf => ?_⟩
    unfold avlTreeDecrement
    simp only []
    rw [if_neg hph, if_pos (show (leftOf h i).isSome by rw [hj]; rfl)]
    unfold predecessorF
    rw [if_neg (fun hor => hor.elim
      (fun he => by rw [hj] at he; exact Option.noConfusion he) hph)]
    rw [hj]
    simp only []
    rw [hN fuel hf]
  · obtain ⟨N, hN⟩ := climbsD_fuel hc
    refine ⟨N, fun fuel hf => ?_⟩
    unfold avlTreeDecrement
    simp only []
    rw [if_neg hph, if_neg (show ¬ (leftOf h i).isSome by rw [hn]; simp)]
    rw [hN fuel hf]

theorem subHeap_none_low :
    ∀ (t : Tree α) (base : Nat) (par lth rth : Option Nat) (j : Nat), j ≤ base →
      subHeap t base par lth rth j = none := by
  intro t
  induction t with
  | nil => intro base par lth rth j hj; rfl
  | node l v ht r ihl ihr =>
    intro base par lth rth j hj
    simp only [subHeap]
    rw [if_neg (by omega), if_pos (by omega)]
    exact ihl base _ _ _ j hj

theorem subHeap_none_high :
    ∀ (t : Tree α) (base : Nat) (par lth rth : Option Nat) (j : Nat),
      base + Tree.size t < j → subHeap t base par lth rth j = none := by
  intro t
  induction t with
  | nil => intro base par lth rth j hj; rfl
  | node l v ht r ihl ihr =>
    intro base par lth rth j hj
    simp only [Tree.size] at hj
    simp only [subHeap]
    rw [if_neg (by omega), if_neg (by omega)]
    exact ihr _ _ _ _ j (by omega)

theorem subHeap_root (l r : Tree α) (v : α) (ht : Int) (base : Nat)
    (par lth rth : Option Nat) :
    subHeap (Tree.node l v ht r) base par lth rth (base + Tree.size l + 1) =
      some ⟨(match l with | Tree.nil => lth | Tree.node _ _ _ _ => some (rootId l base)),
            (match r with | Tree.nil => rth | Tree.node _ _ _ _ => some (rootId r (base + Tree.size l + 1))),
            par, v, ht⟩ := by
  simp only [subHeap]
  rw [if_pos trivial]

theorem subHeap_left (l r : Tree α) (v : α) (ht : Int) (base : Nat)
    (par lth rth : Option Nat) (j : Nat) (h2 : j ≤ base + Tree.size l) :
    subHeap (Tree.node l v ht r) base par lth rth j =
      subHeap l base (some (base + Tree.size l + 1)) lth none j := by
  simp only [subHeap]
  rw [if_neg (by omega), if_pos h2]

theorem subHeap_right (l r : Tree α) (v : α) (ht : Int) (base : Nat)
    (par lth rth : Option Nat) (j : Nat) (h1 : base + Tree.size l + 1 < j) :
    subHeap (Tree.node l v ht r) base par lth rth j =
      subHeap r (base + Tree.size l + 1) (some (base + Tree.size l + 1)) none rth j := by
  simp only [subHeap]
  rw [if_neg (by omega), if_neg (by omega)]

theorem subHeap_some :
    ∀ (t : Tree α) (base : Nat) (par lth rth : Option Nat) (j : Nat),
      base + 1 ≤ j → j ≤ base + Tree.size t →
      ∃ nd, subHeap t base par lth rth j = some nd := by
  intro t
  induction t with
  | nil =>
    intro base par lth rth j h1 h2
    simp only [Tree.size] at h2
    omega
  | node l v ht r ihl ihr =>
    intro base par lth rth j h1 h2
    simp only [Tree.size] at h2
    by_cases hm : j = base + Tree.size l + 1
    · rw [hm, subHeap_root]
      exact ⟨_, rfl⟩
    · by_cases hleft : j ≤ base + Tree.size l
      · rw [subHeap_left l r v ht base par lth rth j hleft]
        exact ihl _ _ _ _ j h1 hleft
      · rw [subHeap_right l r v ht base par lth rth j (by omega)]
        exact ihr _ _ _ _ j (by omega) (by omega)

theorem subHeap_parent :
    ∀ (t : Tree α) (base : Nat) (par lth rth : Option Nat) (j : Nat) (nd : HNode α),
      subHeap t base par lth rth j = some nd →
      nd.parent = par ∨
        ∃ p, nd.parent = some p ∧ base + 1 ≤ p ∧ p ≤ base + Tree.size t ∧ p ≠ j := by
  intro t
  induction t with
  | nil => intro base par lth rth j nd hj; exact Option.noConfusion hj
  | node l v ht r ihl ihr =>
    intro base par lth rth j nd hj
    by_cases hm : j = base + Tree.size l + 1
    · subst hm
      rw [subHeap_root] at hj
      have hnd := Option.some_inj.1 hj
      left
      rw [← hnd]
    · by_cases hleft : j ≤ base + Tree.size l
      · rw [subHeap_left l r v ht base par lth rth j hleft] at hj
        rcases ihl _ _ _ _ j nd hj with hp | ⟨p, hp, hp1, hp2, hp3⟩
        · right
          refine ⟨base + Tree.size l + 1, hp, by omega, ?_, by omega⟩
          simp only [Tree.size]
          omega
        · right
          refine ⟨p, hp, hp1, ?_, hp3⟩
          simp only [Tree.size]
          omega
      · by_cases hlow : base + 1 ≤ j
        · have hhigh : j ≤ base + Tree.size (Tree.node l v ht r) := by
            by_contra hcon
            rw [subHeap_none_high _ _ _ _ _ j (by omega)] at hj
            exact Option.noConfusion hj
          rw [subHeap_right l r v ht base par lth rth j (by omega)] at hj
          rcases ihr _ _ _ _ j nd hj with hp | ⟨p, hp, hp1, hp2, hp3⟩
          · right
            refine ⟨base + Tree.size l + 1, hp, by omega, ?_, by omega⟩
            simp only [Tree.size]
            omega
          · right
            refine ⟨p, hp, by omega, ?_, hp3⟩
            simp only [Tree.size] at hhigh ⊢
            omega
        · rw [subHeap_none_low _ _ _ _ _ j (by omega)] at hj
          exact Option.noConfusion hj

theorem subHeap_value [LinearOrder α] :
    ∀ (t : Tree α) (base : Nat) (par lth rth : Option Nat) (j : Nat) (nd : HNode α),
      subHeap t base par lth rth j = some nd →
      (Tree.inorder t)[j - base - 1]? = some nd.value := by
  intro t
  induction t with
  | nil => intro base par lth rth j nd hj; exact Option.noConfusion hj
  | node l v ht r ihl ihr =>
    intro base par lth rth j nd hj
    have hlen : (Tree.inorder l).length = Tree.size l := Tree.length_inorder l
    by_cases hm : j = base + Tree.size l + 1
    · subst hm
      rw [subHeap_root] at hj
      have hnd := Option.some_inj.1 hj
      have hidx : base + Tree.size l + 1 - base - 1 = Tree.size l := by omega
      rw [hidx]
      simp only [Tree.inorder]
      rw [List.getElem?_append_right (by omega), hlen]
      simp
      rw [← hnd]
    · by_cases hleft : j ≤ base + Tree.size l
      · by_cases hlow : base + 1 ≤ j
        · rw [subHeap_left l r v ht base par lth rth j hleft] at hj
          have := ihl _ _ _ _ j nd hj
          simp only [Tree.inorder]
          rw [List.getElem?_append_left (by omega)]
          exact this
        · rw [subHeap_none_low _ _ _ _ _ j (by omega)] at hj
          exact Option.noConfusion hj
      · have hhigh : j ≤ base + Tree.size (Tree.node l v ht r) := by
          by_contra hcon
          rw [subHeap_none_high _ _ _ _ _ j (by omega)] at hj
          exact Option.noConfusion hj
        rw [subHeap_right l r v ht base par lth rth j (by omega)] at hj
        have := ihr _ _ _ _ j nd hj
        simp only [Tree.inorder]
        rw [List.getElem?_append_right (by omega), hlen]
        have hidx : j - base - 1 - Tree.size l = j - (base + Tree.size l + 1) - 1 + 1 := by
          omega
        rw [hidx, List.getElem?_cons_succ]
        exact this

theorem facadeHeap_hdr (dflt : α) (t : Tree α) :
    facadeHeap dflt t 0 =
      some ⟨(if Tree.size t = 0 then some 0 else some 1),
            (if Tree.size t = 0 then some 0 else some (Tree.size t)),
            some 0, dflt, 0⟩ := by
  unfold facadeHeap
  rw [if_pos rfl]

theorem facadeHeap_ph0 (dflt : α) (t : Tree α) : isPlaceholder (facadeHeap dflt t) 0 := by
  show parentOf (facadeHeap dflt t) 0 = some 0
  rw [parentOf_eq (facadeHeap_hdr dflt t)]

theorem facadeHeap_agree (dflt : α) (t : Tree α) (j : Nat) (hj : 1 ≤ j) :
    facadeHeap dflt t j = subHeap t 0 none (some 0) (some 0) j := by
  unfold facadeHeap
  rw [if_neg (by omega)]

theorem facadeHeap_noph (dflt : α) (t : Tree α) (j : Nat) (h1 : 1 ≤ j)
    (h2 : j ≤ Tree.size t) : ¬ isPlaceholder (facadeHeap dflt t) j := by
  intro hph
  obtain ⟨nd, hnd⟩ := subHeap_some t 0 none (some 0) (some 0) j h1 (by omega)
  have hHj : facadeHeap dflt t j = some nd := by
    rw [facadeHeap_agree _ _ _ h1]
    exact hnd
  have hpar : parentOf (facadeHeap dflt t) j = nd.parent := parentOf_eq hHj
  have hph2 : nd.parent = some j := by
    rw [← hpar]
    exact hph
  rcases subHeap_parent t 0 none (some 0) (some 0) j nd hnd with hp | ⟨p, hp, hp1, hp2, hp3⟩
  · rw [hp] at hph2
    exact Option.noConfusion hph2
  · rw [hp] at hph2
    exact hp3 (Option.some_inj.1 hph2)

theorem lmost_sub (H : Store α) :
    ∀ (t : Tree α) (base : Nat) (par rth : Option Nat),
      t ≠ Tree.nil →
      (∀ j, base + 1 ≤ j → j ≤ base + Tree.size t → H j = subHeap t base par none rth j) →
      (∀ j, base + 1 ≤ j → j ≤ base + Tree.size t → ¬ isPlaceholder H j) →
      Lmost H (rootId t base) (base + 1) := by
  intro t
  induction t with
  | nil => intro base par rth hne _ _; exact absurd rfl hne
  | node l v ht r ihl ihr =>
    intro base par rth hne hagree hph
    have hszt : Tree.size (Tree.node l v ht r) = Tree.size l + Tree.size r + 1 := rfl
    show Lmost H (base + Tree.size l + 1) (base + 1)
    cases l with
    | nil =>
      have hlf : leftOf H (base + Tree.size (Tree.nil : Tree α) + 1) = none := by
        unfold leftOf
        rw [hagree _ (by omega) (by omega), subHeap_root]
      have hm : base + Tree.size (Tree.nil : Tree α) + 1 = base + 1 := rfl
      rw [hm]
      rw [hm] at hlf
      exact Lmost.stopNone _ (hph _ (by omega) (by omega)) hlf
    | node ll lv lht lr =>
      have hlf : leftOf H (base + Tree.size (Tree.node ll lv lht lr) + 1) =
          some (rootId (Tree.node ll lv lht lr) base) := by
        unfold leftOf
        rw [hagree _ (by omega) (by omega), subHeap_root]
      refine Lmost.step _ (rootId (Tree.node ll lv lht lr) base) _
        (hph _ (by omega) (by omega)) hlf ?_
      refine ihl base (some (base + Tree.size (Tree.node ll lv lht lr) + 1)) none
        (by intro hcon; exact Tree.noConfusion hcon) ?_ ?_
      · intro j hj1 hj2
        rw [hagree j hj1 (by omega), subHeap_left _ _ _ _ _ _ _ _ _ hj2]
      · intro j hj1 hj2
        exact hph j hj1 (by omega)

theorem rmost_sub (H : Store α) :
    ∀ (t : Tree α) (base : Nat) (par lth : Option Nat),
      t ≠ Tree.nil →
      (∀ j, base + 1 ≤ j → j ≤ base + Tree.size t → H j = subHeap t base par lth none j) →
      (∀ j, base + 1 ≤ j → j ≤ base + Tree.size t → ¬ isPlaceholder H j) →
      Rmost H (rootId t base) (base + Tree.size t) := by
  intro t
  induction t with
  | nil => intro base par lth hne _ _; exact absurd rfl hne
  | node l v ht r ihl ihr =>
    intro base par lth hne hagree hph
    have hszt : Tree.size (Tree.node l v ht r) = Tree.size l + Tree.size r + 1 := rfl
    show Rmost H (base + Tree.size l + 1) (base + Tree.size (Tree.node l v ht r))
    cases r with
    | nil =>
      have hrf : rightOf H (base + Tree.size l + 1) = none := by
        unfold rightOf
        rw [hagree _ (by omega) (by omega), subHeap_root]
      have h0 : Tree.size (Tree.nil : Tree α) = 0 := rfl
      have hm : base + Tree.size (Tree.node l v ht (Tree.nil : Tree α)) = base + Tree.size l + 1 := by
        rw [hszt, h0]
        omega
      rw [hm]
      exact Rmost.stopNone _ (hph _ (by omega) (by omega)) hrf
    | node rl rv rht rr =>
      have hrf : rightOf H (base + Tree.size l + 1) =
          some (rootId (Tree.node rl rv rht rr) (base + Tree.size l + 1)) := by
        unfold rightOf
        rw [hagree _ (by omega) (by omega), subHeap_root]
      refine Rmost.step _ (rootId (Tree.node rl rv rht rr) (base + Tree.size l + 1)) _
        (hph _ (by omega) (by omega)) hrf ?_
      have hres : base + Tree.size l + 1 + Tree.size (Tree.node rl rv rht rr) =
          base + Tree.size (Tree.node l v ht (Tree.node rl rv rht rr)) := by
        simp [Tree.size]
        omega
      rw [← hres]
      refine ihr (base + Tree.size l + 1) (some (base + Tree.size l + 1)) none
        (by intro hcon; exact Tree.noConfusion hcon) ?_ ?_
      · intro j hj1 hj2
        rw [hagree j (by omega) (by simp [Tree.size] at hj2 ⊢; omega),
          subHeap_right _ _ _ _ _ _ _ _ _ (by omega)]
      · intro j hj1 hj2
        exact hph j (by omega) (by simp [Tree.size] at hj2 ⊢; omega)

theorem inc_sub (H : Store α) :
    ∀ (t : Tree α) (base : Nat) (par lth rth : Option Nat) (NEXT : Nat),
      (∀ j, base + 1 ≤ j → j ≤ base + Tree.size t → H j = subHeap t base par lth rth j) →
      (∀ j, base + 1 ≤ j → j ≤ base + Tree.size t → ¬ isPlaceholder H j) →
      (∀ x, lth = some x → x = 0) →
      (∀ x, rth = some x → x = 0) →
      isPlaceholder H 0 →
      (Tree.size t ≠ 0 → Climbs H (rootId t base) (rootId t base) NEXT) →
      ∀ i, base + 1 ≤ i → i ≤ base + Tree.size t →
        IncSpec H i (if i = base + Tree.size t then (if rth = none then NEXT else 0) else i + 1) := by
  intro t
  induction t with
  | nil =>
    intro base par lth rth NEXT hagree hph hlth hrth hph0 CONT i hi1 hi2
    have h0 : Tree.size (Tree.nil : Tree α) = 0 := rfl
    exact ((by omega : False)).elim
  | node l v ht r ihl ihr =>
    intro base par lth rth NEXT hagree hph hlth hrth hph0 CONT i hi1 hi2
    have hszt : Tree.size (Tree.node l v ht r) = Tree.size l + Tree.size r + 1 := rfl
    by_cases hiL : i ≤ base + Tree.size l
    · -- the left subtree: increment stays inside or exits to this node
      cases l with
      | nil =>
        have h0 : Tree.size (Tree.nil : Tree α) = 0 := rfl
        exact ((by omega : False)).elim
      | node ll lv lht lr =>
        have hs1 : Tree.size (Tree.node ll lv lht lr) =
            Tree.size ll + Tree.size lr + 1 := rfl
        have hlfm : leftOf H (base + Tree.size (Tree.node ll lv lht lr) + 1) =
            some (rootId (Tree.node ll lv lht lr) base) := by
          unfold leftOf
          rw [hagree _ (by omega) (by omega), subHeap_root]
        have hparl : parentOf H (rootId (Tree.node ll lv lht lr) base) =
            some (base + Tree.size (Tree.node ll lv lht lr) + 1) := by
          unfold parentOf
          rw [show rootId (Tree.node ll lv lht lr) base = base + Tree.size ll + 1 from rfl]
          rw [hagree _ (by omega) (by omega),
            subHeap_left _ _ _ _ _ _ _ _ _ (by omega), subHeap_root]
        have CONT_l : Tree.size (Tree.node ll lv lht lr) ≠ 0 →
            Climbs H (rootId (Tree.node ll lv lht lr) base)
              (rootId (Tree.node ll lv lht lr) base)
              (base + Tree.size (Tree.node ll lv lht lr) + 1) := by
          intro _
          exact Climbs.found _ _ _ hparl hlfm
        have hres := ihl base (some (base + Tree.size (Tree.node ll lv lht lr) + 1)) lth none
          (base + Tree.size (Tree.node ll lv lht lr) + 1)
          (fun j hj1 hj2 => by
            rw [hagree j hj1 (by omega), subHeap_left _ _ _ _ _ _ _ _ _ hj2])
          (fun j hj1 hj2 => hph j hj1 (by omega))
          hlth (fun x hx => Option.noConfusion hx) hph0 CONT_l i hi1 hiL
        rw [if_neg (by omega)]
        by_cases hieq : i = base + Tree.size (Tree.node ll lv lht lr)
        · rw [if_pos hieq, if_pos rfl] at hres
          rw [show i + 1 = base + Tree.size (Tree.node ll lv lht lr) + 1 by omega]
          exact hres
        · rw [if_neg hieq] at hres
          exact hres
    · by_cases him : i = base + Tree.size l + 1
      · -- this node itself
        cases r with
        | nil =>
          have h0 : Tree.size (Tree.nil : Tree α) = 0 := rfl
          have hrf : rightOf H (base + Tree.size l + 1) = rth := by
            unfold rightOf
            rw [hagree _ (by omega) (by omega), subHeap_root]
          rw [if_pos (by omega)]
          cases hrthc : rth with
          | none =>
            rw [if_pos rfl]
            refine ⟨hph _ hi1 hi2, Or.inr ⟨by rw [him]; rw [hrthc] at hrf; exact hrf, ?_⟩⟩
            have hcl := CONT (by omega)
            rw [show rootId (Tree.node l v ht (Tree.nil : Tree α)) base =
              base + Tree.size l + 1 from rfl] at hcl
            rw [him]
            exact hcl
          | some z =>
            have hz : z = 0 := hrth z hrthc
            subst hz
            rw [if_neg (fun hcon => Option.noConfusion hcon)]
            refine ⟨hph _ hi1 hi2, Or.inl ⟨0, ?_, Lmost.stopPh 0 hph0⟩⟩
            rw [him]
            rw [hrthc] at hrf
            exact hrf
        | node rl rv rht rr =>
          have hs2 : Tree.size (Tree.node rl rv rht rr) =
              Tree.size rl + Tree.size rr + 1 := rfl
          have hrf : rightOf H (base + Tree.size l + 1) =
              some (rootId (Tree.node rl rv rht rr) (base + Tree.size l + 1)) := by
            unfold rightOf
            rw [hagree _ (by omega) (by omega), subHeap_root]
          have hlm : Lmost H (rootId (Tree.node rl rv rht rr) (base + Tree.size l + 1))
              (base + Tree.size l + 1 + 1) :=
            lmost_sub H (Tree.node rl rv rht rr) (base + Tree.size l + 1)
              (some (base + Tree.size l + 1)) rth
              (by intro hcon; exact Tree.noConfusion hcon)
              (fun j hj1 hj2 => by
                rw [hagree j (by omega) (by omega),
                  subHeap_right _ _ _ _ _ _ _ _ _ (by omega)])
              (fun j hj1 hj2 => hph j (by omega) (by omega))
          rw [if_neg (by omega)]
          refine ⟨hph _ hi1 hi2, Or.inl
            ⟨rootId (Tree.node rl rv rht rr) (base + Tree.size l + 1), ?_, ?_⟩⟩
          · rw [him]
            exact hrf
          · rw [show i + 1 = base + Tree.size l + 1 + 1 by omega]
            exact hlm
      · -- the right subtree
        cases r with
        | nil =>
          have h0 : Tree.size (Tree.nil : Tree α) = 0 := rfl
          exact ((by omega : False)).elim
        | node rl rv rht rr =>
          have hs2 : Tree.size (Tree.node rl rv rht rr) =
              Tree.size rl + Tree.size rr + 1 := rfl
          have hparr : parentOf H (rootId (Tree.node rl rv rht rr) (base + Tree.size l + 1)) =
              some (base + Tree.size l + 1) := by
            unfold parentOf
            rw [show rootId (Tree.node rl rv rht rr) (base + Tree.size l + 1) =
              base + Tree.size l + 1 + Tree.size rl + 1 from rfl]
            rw [hagree _ (by omega) (by omega),
              subHeap_right _ _ _ _ _ _ _ _ _ (by omega)]
            rw [show base + Tree.size l + 1 + Tree.size rl + 1 =
              (base + Tree.size l + 1) + Tree.size rl + 1 by omega]
            rw [subHeap_root]
          have hnel : leftOf H (base + Tree.size l + 1) ≠
              some (rootId (Tree.node rl rv rht rr) (base + Tree.size l + 1)) := by
            have hrr : rootId (Tree.node rl rv rht rr) (base + Tree.size l + 1) =
                base + Tree.size l + 1 + Tree.size rl + 1 := rfl
            cases l with
            | nil =>
              have hlf0 : leftOf H (base + Tree.size (Tree.nil : Tree α) + 1) = lth := by
                unfold leftOf
                rw [hagree _ (by omega) (by omega), subHeap_root]
              rw [hlf0]
              intro hcon
              have := hlth _ hcon
              omega
            | node ll lv lht lr =>
              have hs1 : Tree.size (Tree.node ll lv lht lr) =
                  Tree.size ll + Tree.size lr + 1 := rfl
              have hlfm : leftOf H (base + Tree.size (Tree.node ll lv lht lr) + 1) =
                  some (rootId (Tree.node ll lv lht lr) base) := by
                unfold leftOf
                rw [hagree _ (by omega) (by omega), subHeap_root]
              rw [hlfm]
              intro hcon
              have := Option.some_inj.1 hcon
              rw [show rootId (Tree.node ll lv lht lr) base = base + Tree.size ll + 1 from rfl] at this
              omega
          have CONT_r : Tree.size (Tree.node rl rv rht rr) ≠ 0 →
              Climbs H (rootId (Tree.node rl rv rht rr) (base + Tree.size l + 1))
                (rootId (Tree.node rl rv rht rr) (base + Tree.size l + 1)) NEXT := by
            intro _
            refine Climbs.step _ _ (base + Tree.size l + 1) _ hparr hnel ?_
            have hcl := CONT (by omega)
            rw [show rootId (Tree.node l v ht (Tree.node rl rv rht rr)) base =
              base + Tree.size l + 1 from rfl] at hcl
            exact hcl
          have hres := ihr (base + Tree.size l + 1) (some (base + Tree.size l + 1)) none rth
            NEXT
            (fun j hj1 hj2 => by
              rw [hagree j (by omega) (by omega),
                subHeap_right _ _ _ _ _ _ _ _ _ (by omega)])
            (fun j hj1 hj2 => hph j (by omega) (by omega))
            (fun x hx => Option.noConfusion hx) hrth hph0 CONT_r i (by omega) (by omega)
          have heq : base + Tree.size (Tree.node l v ht (Tree.node rl rv rht rr)) =
              base + Tree.size l + 1 + Tree.size (Tree.node rl rv rht rr) := by
            rw [hszt]
            omega
          rw [heq]
          exact hres

theorem dec_sub (H : Store α) :
    ∀ (t : Tree α) (base : Nat) (par lth rth : Option Nat) (PREV : Nat),
      (∀ j, base + 1 ≤ j → j ≤ base + Tree.size t → H j = subHeap t base par lth rth j) →
      (∀ j, base + 1 ≤ j → j ≤ base + Tree.size t → ¬ isPlaceholder H j) →
      (∀ x, lth = some x → x = 0) →
      (∀ x, rth = some x → x = 0) →
      isPlaceholder H 0 →
      (Tree.size t ≠ 0 → ClimbsD H (rootId t base) (rootId t base) PREV) →
      ∀ i, base + 1 ≤ i → i ≤ base + Tree.size t →
        DecSpec H i (if i = base + 1 then (if lth = none then PREV else 0) else i - 1) := by
  intro t
  induction t with
  | nil =>
    intro base par lth rth PREV hagree hph hlth hrth hph0 CONT i hi1 hi2
    have h0 : Tree.size (Tree.nil : Tree α) = 0 := rfl
    exact ((by omega : False)).elim
  | node l v ht r ihl ihr =>
    intro base par lth rth PREV hagree hph hlth hrth hph0 CONT i hi1 hi2
    have hszt : Tree.size (Tree.node l v ht r) = Tree.size l + Tree.size r + 1 := rfl
    by_cases hiR : base + Tree.size l + 1 < i
    · -- the right subtree: the walk stays inside or exits to this node
      cases r with
      | nil =>
        have h0 : Tree.size (Tree.nil : Tree α) = 0 := rfl
        exact ((by omega : False)).elim
      | node rl rv rht rr =>
        have hs2 : Tree.size (Tree.node rl rv rht rr) =
            Tree.size rl + Tree.size rr + 1 := rfl
        have hrfm : rightOf H (base + Tree.size l + 1) =
            some (rootId (Tree.node rl rv rht rr) (base + Tree.size l + 1)) := by
          unfold rightOf
          rw [hagree _ (by omega) (by omega), subHeap_root]
        have hparr : parentOf H (rootId (Tree.node rl rv rht rr) (base + Tree.size l + 1)) =
            some (base + Tree.size l + 1) := by
          unfold parentOf
          rw [show rootId (Tree.node rl rv rht rr) (base + Tree.size l + 1) =
            base + Tree.size l + 1 + Tree.size rl + 1 from rfl]
          rw [hagree _ (by omega) (by omega),
            subHeap_right _ _ _ _ _ _ _ _ _ (by omega)]
          rw [show base + Tree.size l + 1 + Tree.size rl + 1 =
            (base + Tree.size l + 1) + Tree.size rl + 1 by omega]
          rw [subHeap_root]
        have CONT_r : Tree.size (Tree.node rl rv rht rr) ≠ 0 →
            ClimbsD H (rootId (Tree.node rl rv rht rr) (base + Tree.size l + 1))
              (rootId (Tree.node rl rv rht rr) (base + Tree.size l + 1))
              (base + Tree.size l + 1) := by
          intro _
          exact ClimbsD.found _ _ _ hparr hrfm
        have hres := ihr (base + Tree.size l + 1) (some (base + Tree.size l + 1)) none rth
          (base + Tree.size l + 1)
          (fun j hj1 hj2 => by
            rw [hagree j (by omega) (by omega),
              subHeap_right _ _ _ _ _ _ _ _ _ (by omega)])
          (fun j hj1 hj2 => hph j (by omega) (by omega))
          (fun x hx => Option.noConfusion hx) hrth hph0 CONT_r i (by omega) (by omega)
        rw [if_neg (by omega)]
        by_cases hieq : i = base + Tree.size l + 1 + 1
        · rw [if_pos hieq, if_pos rfl] at hres
          rw [show i - 1 = base + Tree.size l + 1 by omega]
          exact hres
        · rw [if_neg hieq] at hres
          exact hres
    · by_cases him : i = base + Tree.size l + 1
      · -- this node itself
        cases l with
        | nil =>
          have h0 : Tree.size (Tree.nil : Tree α) = 0 := rfl
          have hlf : leftOf H (base + Tree.size (Tree.nil : Tree α) + 1) = lth := by
            unfold leftOf
            rw [hagree _ (by omega) (by omega), subHeap_root]
          rw [if_pos (by omega)]
          cases hlthc : lth with
          | none =>
            rw [if_pos rfl]
            refine ⟨hph _ hi1 hi2, Or.inr ⟨by rw [him]; rw [hlthc] at hlf; exact hlf, ?_⟩⟩
            have hcl := CONT (by omega)
            rw [show rootId (Tree.node (Tree.nil : Tree α) v ht r) base =
              base + Tree.size (Tree.nil : Tree α) + 1 from rfl] at hcl
            rw [him]
            exact hcl
          | some z =>
            have hz : z = 0 := hlth z hlthc
            subst hz
            rw [if_neg (fun hcon => Option.noConfusion hcon)]
            refine ⟨hph _ hi1 hi2, Or.inl ⟨0, ?_, Rmost.stopPh 0 hph0⟩⟩
            rw [him]
            rw [hlthc] at hlf
            exact hlf
        | node ll lv lht lr =>
          have hs1 : Tree.size (Tree.node ll lv lht lr) =
              Tree.size ll + Tree.size lr + 1 := rfl
          have hlfm : leftOf H (base + Tree.size (Tree.node ll lv lht lr) + 1) =
              some (rootId (Tree.node ll lv lht lr) base) := by
            unfold leftOf
            rw [hagree _ (by omega) (by omega), subHeap_root]
          have hrm : Rmost H (rootId (Tree.node ll lv lht lr) base)
              (base + Tree.size (Tree.node ll lv lht lr)) :=
            rmost_sub H (Tree.node ll lv lht lr) base
              (some (base + Tree.size (Tree.node ll lv lht lr) + 1)) lth
              (by intro hcon; exact Tree.noConfusion hcon)
              (fun j hj1 hj2 => by
                rw [hagree j hj1 (by omega), subHeap_left _ _ _ _ _ _ _ _ _ hj2])
              (fun j hj1 hj2 => hph j hj1 (by omega))
          rw [if_neg (by omega)]
          refine ⟨hph _ hi1 hi2, Or.inl
            ⟨rootId (Tree.node ll lv lht lr) base, ?_, ?_⟩⟩
          · rw [him]
            exact hlfm
          · rw [show i - 1 = base + Tree.size (Tree.node ll lv lht lr) by omega]
            exact hrm
      · -- the left subtree
        cases l with
        | nil =>
          have h0 : Tree.size (Tree.nil : Tree α) = 0 := rfl
          exact ((by omega : False)).elim
        | node ll lv lht lr =>
          have hs1 : Tree.size (Tree.node ll lv lht lr) =
              Tree.size ll + Tree.size lr + 1 := rfl
          have hparl : parentOf H (rootId (Tree.node ll lv lht lr) base) =
              some (base + Tree.size (Tree.node ll lv lht lr) + 1) := by
            unfold parentOf
            rw [show rootId (Tree.node ll lv lht lr) base = base + Tree.size ll + 1 from rfl]
            rw [hagree _ (by omega) (by omega),
              subHeap_left _ _ _ _ _ _ _ _ _ (by omega), subHeap_root]
          have hner : rightOf H (base + Tree.size (Tree.node ll lv lht lr) + 1) ≠
              some (rootId (Tree.node ll lv lht lr) base) := by
            have hrr : rootId (Tree.node ll lv lht lr) base = base + Tree.size ll + 1 := rfl
            cases r with
            | nil =>
              have hrf0 : rightOf H (base + Tree.size (Tree.node ll lv lht lr) + 1) = rth := by
                unfold rightOf
                rw [hagree _ (by omega) (by omega), subHeap_root]
              rw [hrf0]
              intro hcon
              have := hrth _ hcon
              omega
            | node rl rv rht rr =>
              have hs2 : Tree.size (Tree.node rl rv rht rr) =
                  Tree.size rl + Tree.size rr + 1 := rfl
              have hrfm : rightOf H (base + Tree.size (Tree.node ll lv lht lr) + 1) =
                  some (rootId (Tree.node rl rv rht rr)
                    (base + Tree.size (Tree.node ll lv lht lr) + 1)) := by
                unfold rightOf
                rw [hagree _ (by omega) (by omega), subHeap_root]
              rw [hrfm]
              intro hcon
              have := Option.some_inj.1 hcon
              rw [show rootId (Tree.node rl rv rht rr)
                (base + Tree.size (Tree.node ll lv lht lr) + 1) =
                base + Tree.size (Tree.node ll lv lht lr) + 1 + Tree.size rl + 1 from rfl] at this
              omega
          have CONT_l : Tree.size (Tree.node ll lv lht lr) ≠ 0 →
              ClimbsD H (rootId (Tree.node ll lv lht lr) base)
                (rootId (Tree.node ll lv lht lr) base) PREV := by
            intro _
            refine ClimbsD.step _ _ (base + Tree.size (Tree.node ll lv lht lr) + 1) _
              hparl hner ?_
            have hcl := CONT (by omega)
            rw [show rootId (Tree.node (Tree.node ll lv lht lr) v ht r) base =
              base + Tree.size (Tree.node ll lv lht lr) + 1 from rfl] at hcl
            exact hcl
          have hres := ihl base (some (base + Tree.size (Tree.node ll lv lht lr) + 1)) lth none
            PREV
            (fun j hj1 hj2 => by
              rw [hagree j hj1 (by omega), subHeap_left _ _ _ _ _ _ _ _ _ hj2])
            (fun j hj1 hj2 => hph j hj1 (by omega))
            hlth (fun x hx => Option.noConfusion hx) hph0 CONT_l i hi1 (by omega)
          exact hres

theorem facadeHeap_root_parent (dflt : α) (t : Tree α) (hne : Tree.size t ≠ 0) :
    parentOf (facadeHeap dflt t) (rootId t 0) = none := by
  cases t with
  | nil => exact absurd rfl hne
  | node l v ht r =>
    unfold parentOf
    rw [show rootId (Tree.node l v ht r) 0 = 0 + Tree.size l + 1 from rfl]
    rw [facadeHeap_agree _ _ _ (by omega), subHeap_root]

/-- **C1.** For every sequence of public operations, on the resulting
between-operations heap (tree nodes numbered by in-order position, header 0,
boundary threads installed): the stored value sequence read off the node
numbering is the in-order sequence and is strictly increasing; the forward
iterator steps `1 → 2 → … → size → 0`(`end()`), i.e. `avl_tree_increment`
maps each id to the next and the maximum to the header; `avl_tree_decrement`
maps `end()` to the maximum (so `rbegin()` starts at the largest value) and
each id to the previous one, the minimum to the header (`rend()`): forward
iteration visits the values in strictly increasing, backward iteration in
strictly decreasing comparator order. -/
theorem C1_iterator_order {β : Type} [LinearOrder β] (ops : List (Op β)) (dflt : β) :
    List.Pairwise (· < ·) (Tree.inorder (runOps ops).base.root) ∧
    (∀ i, 1 ≤ i → i ≤ Tree.size (runOps ops).base.root →
      ∃ nd, facadeHeap dflt (runOps ops).base.root i = some nd ∧
        (Tree.inorder (runOps ops).base.root)[i - 1]? = some nd.value) ∧
    (∀ i, 1 ≤ i → i ≤ Tree.size (runOps ops).base.root →
      ∃ N, ∀ fuel, N ≤ fuel →
        avlTreeIncrement fuel (facadeHeap dflt (runOps ops).base.root) (some i) =
          some (if i = Tree.size (runOps ops).base.root then 0 else i + 1)) ∧
    (∀ fuel, avlTreeDecrement fuel (facadeHeap dflt (runOps ops).base.root) (some 0) =
      some (if Tree.size (runOps ops).base.root = 0 then 0
        else Tree.size (runOps ops).base.root)) ∧
    (∀ i, 1 ≤ i → i ≤ Tree.size (runOps ops).base.root →
      ∃ N, ∀ fuel, N ≤ fuel →
        avlTreeDecrement fuel (facadeHeap dflt (runOps ops).base.root) (some i) =
          some (if i = 1 then 0 else i - 1)) := by
  have hsorted : List.Pairwise (· < ·) (Tree.inorder (runOps ops).base.root) :=
    sorted_inorder_iff.2 (inv_runOps ops).1
  refine ⟨hsorted, ?_, ?_, ?_, ?_⟩
  · intro i hi1 hi2
    obtain ⟨nd, hnd⟩ := subHeap_some (runOps ops).base.root 0 none (some 0) (some 0) i
      (by omega) (by omega)
    refine ⟨nd, ?_, ?_⟩
    · rw [facadeHeap_agree _ _ _ hi1]
      exact hnd
    · have := subHeap_value (runOps ops).base.root 0 none (some 0) (some 0) i nd hnd
      rw [show i - 0 - 1 = i - 1 by omega] at this
      exact this
  · intro i hi1 hi2
    have hspec := inc_sub (facadeHeap dflt (runOps ops).base.root)
      (runOps ops).base.root 0 none (some 0) (some 0)
      (rootId (runOps ops).base.root 0)
      (fun j hj1 hj2 => facadeHeap_agree dflt _ j (by omega))
      (fun j hj1 hj2 => facadeHeap_noph dflt _ j (by omega) (by omega))
      (fun x hx => (Option.some_inj.1 hx).symm)
      (fun x hx => (Option.some_inj.1 hx).symm)
      (facadeHeap_ph0 dflt _)
      (fun hne => Climbs.root _ _ (facadeHeap_root_parent dflt _ hne))
      i (by omega) (by omega)
    have hX : (if i = 0 + Tree.size (runOps ops).base.root then
        (if (some 0 : Option Nat) = none then rootId (runOps ops).base.root 0 else 0)
        else i + 1) =
        (if i = Tree.size (runOps ops).base.root then 0 else i + 1) := by
      rw [Nat.zero_add]
      by_cases hc : i = Tree.size (runOps ops).base.root
      · rw [if_pos hc, if_pos hc, if_neg (fun hcon => Option.noConfusion hcon)]
      · rw [if_neg hc, if_neg hc]
    rw [hX] at hspec
    exact incSpec_fuel hspec
  · intro fuel
    have hr0 : rightOf (facadeHeap dflt (runOps ops).base.root) 0 =
        (if Tree.size (runOps ops).base.root = 0 then some 0
          else some (Tree.size (runOps ops).base.root)) := by
      unfold rightOf
      rw [facadeHeap_hdr]
    unfold avlTreeDecrement
    simp only []
    rw [if_pos (facadeHeap_ph0 dflt _)]
    by_cases hsz : Tree.size (runOps ops).base.root = 0
    · rw [hr0, if_pos hsz]
      simp only []
      rw [if_pos (facadeHeap_ph0 dflt _), if_pos hsz]
    · rw [hr0, if_neg hsz]
      simp only []
      rw [if_neg (facadeHeap_noph dflt _ _ (by omega) (by omega)), if_neg hsz]
  · intro i hi1 hi2
    have hspec := dec_sub (facadeHeap dflt (runOps ops).base.root)
      (runOps ops).base.root 0 none (some 0) (some 0)
      (rootId (runOps ops).base.root 0)
      (fun j hj1 hj2 => facadeHeap_agree dflt _ j (by omega))
      (fun j hj1 hj2 => facadeHeap_noph dflt _ j (by omega) (by omega))
      (fun x hx => (Option.some_inj.1 hx).symm)
      (fun x hx => (Option.some_inj.1 hx).symm)
      (facadeHeap_ph0 dflt _)
      (fun hne => ClimbsD.root _ _ (facadeHeap_root_parent dflt _ hne))
      i (by omega) (by omega)
    have hX : (if i = 0 + 1 then
        (if (some 0 : Option Nat) = none then rootId (runOps ops).base.root 0 else 0)
        else i - 1) =
        (if i = 1 then 0 else i - 1) := by
      rw [Nat.zero_add]
      by_cases hc : i = 1
      · rw [if_pos hc, if_pos hc, if_neg (fun hcon => Option.noConfusion hcon)]
      · rw [if_neg hc, if_neg hc]
    rw [hX] at hspec
    exact decSpec_fuel hspec

theorem C1_witness :
    List.Pairwise (· < ·)
      (Tree.inorder (runOps [Op.insOp 20, Op.insOp 10, Op.insOp 30]).base.root) ∧
    valueAt (facadeHeap 0 (runOps [Op.insOp 20, Op.insOp 10, Op.insOp 30]).base.root) 1 =
      some 10 := by
  have hmain := C1_iterator_order [Op.insOp 20, Op.insOp 10, Op.insOp 30] 0
  refine ⟨hmain.1, ?_⟩
  obtain ⟨nd, hnd, hval⟩ := hmain.2.1 1 (by decide) (by decide)
  unfold valueAt
  rw [hnd]
  have : (Tree.inorder (runOps [Op.insOp 20, Op.insOp 10, Op.insOp 30]).base.root)[0]? =
      some 10 := by decide
  rw [show (1 : Nat) - 1 = 0 from rfl] at hval
  rw [this] at hval
  rw [Option.map_some']
  exact hval.symm

end Heap

end Avl

